import Mathlib

/-!
# Verification of the Cybersecurity-projects repository

Shallow embedding of the two subsystems of the repository:

* `src/PKI.py` — an X.509-style certificate-chain issuing / revocation /
  verification core (`Entity`, `CA`, `RelayingParty`).
* `src/PathORAM.py` — a Path-ORAM-style oblivious storage engine
  (`PerfectTree`, `Server`, `Client`).

Python specifics reflected in the embedding:

* Python `datetime` values are modelled as integers (seconds); comparisons
  carry over directly.
* RSA signing / verification is modelled symbolically: a signature is the
  pair (key of the signer, signed payload), and `rsa.verify` succeeds
  exactly when the signature was produced with the matching key over a
  byte-identical serialization.  `json.dumps(..., sort_keys=True)` is a
  deterministic injective serialization, so byte equality of serializations
  is modelled as structural equality of the serialized values.
* Python `dict`s are modelled as insertion-ordered association lists;
  insertion of an existing key overwrites in place, insertion of a fresh
  key appends, `del` removes the key.
* Operations that raise a Python exception (`KeyError`, `TypeError`,
  `AttributeError`) are modelled in `Except String`.
-/

namespace PKI

/-- A certificate record, `src/PKI.py` lines 64-72 and 86-95.  The fields
mirror the dict keys `Name`, `Issuer name`, `Issuer cert`, `Public key`,
`Valid from`, `Valid to`, `Is CA`, `Signature`.  The RSA public key
`(n, e)` is modelled as an abstract key identifier `pubKey : Nat`; the
private key of an entity is identified with its public key (the pairing is
what `rsa.verify` checks).  A signature (line 93: `self.sign(cert)`) is the
pair (signing key, cert serialized with the `Signature` field absent),
which is the cert value itself with `sig := none`. -/
inductive Cert : Type where
  | mk (name : String) (issuerName : Option String) (issuerCert : Option Cert)
       (pubKey : Nat) (validFrom : Int) (validTo : Int) (isCA : Bool)
       (sig : Option (Nat × Cert)) : Cert

/-- Structural (value) equality of certificate records, as Python's `==`
on the nested dicts. -/
def Cert.beq : Cert → Cert → Bool
  | .mk n1 i1 c1 k1 f1 t1 b1 s1, .mk n2 i2 c2 k2 f2 t2 b2 s2 =>
    n1 == n2 && i1 == i2 &&
    (match c1, c2 with
     | none, none => true
     | some x, some y => Cert.beq x y
     | _, _ => false) &&
    k1 == k2 && f1 == f2 && t1 == t2 && b1 == b2 &&
    (match s1, s2 with
     | none, none => true
     | some (k, x), some (l, y) => k == l && Cert.beq x y
     | _, _ => false)

instance : BEq Cert := ⟨Cert.beq⟩

theorem Cert.eq_of_beq_aux : ∀ (n : Nat) (a b : Cert), sizeOf a ≤ n →
    Cert.beq a b = true → a = b := by
  intro n
  induction n with
  | zero =>
    intro a _ h _
    obtain ⟨n1, i1, c1, k1, f1, t1, b1, s1⟩ := a
    simp only [Cert.mk.sizeOf_spec] at h
    omega
  | succ n ih =>
    intro a b h hb
    obtain ⟨n1, i1, c1, k1, f1, t1, b1, s1⟩ := a
    obtain ⟨n2, i2, c2, k2, f2, t2, b2, s2⟩ := b
    simp only [Cert.mk.sizeOf_spec] at h
    unfold Cert.beq at hb
    simp only [Bool.and_eq_true, beq_iff_eq] at hb
    obtain ⟨⟨⟨⟨⟨⟨⟨hn, hi⟩, hcm⟩, hk⟩, hf⟩, ht⟩, hbb⟩, hsm⟩ := hb
    subst hn hi hk hf ht hbb
    simp only [Cert.mk.injEq, true_and]
    constructor
    · rcases c1 with _ | x <;> rcases c2 with _ | y
      · rfl
      · simp at hcm
      · simp at hcm
      · have hx : sizeOf x ≤ n := by simp at h; omega
        exact congrArg some (ih x y hx hcm)
    · rcases s1 with _ | ⟨k, u⟩ <;> rcases s2 with _ | ⟨l, v⟩
      · rfl
      · simp at hsm
      · simp at hsm
      · simp only [Bool.and_eq_true, beq_iff_eq] at hsm
        have hu : sizeOf u ≤ n := by simp at h; omega
        simp only [Option.some.injEq, Prod.mk.injEq]
        exact ⟨hsm.1, ih u v hu hsm.2⟩

theorem Cert.beq_refl_aux : ∀ (n : Nat) (a : Cert), sizeOf a ≤ n →
    Cert.beq a a = true := by
  intro n
  induction n with
  | zero =>
    intro a h
    obtain ⟨n1, i1, c1, k1, f1, t1, b1, s1⟩ := a
    simp only [Cert.mk.sizeOf_spec] at h
    omega
  | succ n ih =>
    intro a h
    obtain ⟨n1, i1, c1, k1, f1, t1, b1, s1⟩ := a
    simp only [Cert.mk.sizeOf_spec] at h
    unfold Cert.beq
    simp only [Bool.and_eq_true, beq_self_eq_true, true_and, and_true]
    constructor
    · rcases c1 with _ | x
      · rfl
      · have hx : sizeOf x ≤ n := by simp at h; omega
        exact ih x hx
    · rcases s1 with _ | ⟨k, u⟩
      · rfl
      · have hu : sizeOf u ≤ n := by simp at h; omega
        simp only [Bool.and_eq_true, beq_self_eq_true, true_and]
        exact ih u hu

instance : LawfulBEq Cert where
  eq_of_beq h := Cert.eq_of_beq_aux (sizeOf _) _ _ (Nat.le_refl _) h
  rfl := Cert.beq_refl_aux (sizeOf _) _ (Nat.le_refl _)

theorem Cert.beq_iff (a b : Cert) : (a == b) = true ↔ a = b :=
  ⟨fun h => Cert.eq_of_beq_aux (sizeOf a) a b (Nat.le_refl _) h,
   fun h => h ▸ Cert.beq_refl_aux (sizeOf a) a (Nat.le_refl _)⟩

instance : DecidableEq Cert := fun a b =>
  decidable_of_iff _ (Cert.beq_iff a b)

/-- Field accessor: `cert['Name']`. -/
def Cert.name : Cert → String
  | .mk n _ _ _ _ _ _ _ => n

/-- Field accessor: `cert['Issuer name']`. -/
def Cert.issuerName : Cert → Option String
  | .mk _ i _ _ _ _ _ _ => i

/-- Field accessor: `cert['Issuer cert']`. -/
def Cert.issuerCert : Cert → Option Cert
  | .mk _ _ c _ _ _ _ _ => c

/-- Field accessor: `cert['Public key']`. -/
def Cert.pubKey : Cert → Nat
  | .mk _ _ _ k _ _ _ _ => k

/-- Field accessor: `cert['Valid from']`. -/
def Cert.validFrom : Cert → Int
  | .mk _ _ _ _ f _ _ _ => f

/-- Field accessor: `cert['Valid to']`. -/
def Cert.validTo : Cert → Int
  | .mk _ _ _ _ _ t _ _ => t

/-- Field accessor: `cert['Is CA']`. -/
def Cert.isCA : Cert → Bool
  | .mk _ _ _ _ _ _ b _ => b

/-- Field accessor: `cert['Signature']` (`none` when the dict has no
`Signature` key, as for the default root-CA cert of lines 64-72). -/
def Cert.sig : Cert → Option (Nat × Cert)
  | .mk _ _ _ _ _ _ _ s => s

/-- `RelayingParty.update_cert(cert)` (lines 199-212) with no signature:
the cert with its `Signature` entry removed, i.e. the value whose
serialization is signed and verified. -/
def stripSig : Cert → Cert
  | .mk n i c k f t b _ => .mk n i c k f t b none

/-- `CA.issue_cert` (lines 74-95): build the record, sign its
serialization-without-`Signature` with the CA's key, attach the
signature. `caName`/`caKey`/`caCert` are the issuing CA's fields. -/
def issueCert (caName : String) (caKey : Nat) (caCert : Option Cert)
    (entName : String) (entKey : Nat) (validFrom validTo : Int)
    (isCA : Bool) : Cert :=
  let unsigned : Cert := .mk entName (some caName) caCert entKey validFrom validTo isCA none
  .mk entName (some caName) caCert entKey validFrom validTo isCA
    (some (caKey, unsigned))

/-- `CA.update_revoked` (lines 106-116): drop the revoked certificates
whose `Valid to` has passed (`cert['Valid to'] < cur_time`). -/
def updateRevoked (revoked : List Cert) (now : Int) : List Cert :=
  revoked.filter (fun c => !(decide (c.validTo < now)))

/-- `CA.revoke_cert` (lines 97-104): append the cert to the revocation
list, then prune outdated entries. -/
def revokeCert (revoked : List Cert) (c : Cert) (now : Int) : List Cert :=
  updateRevoked (revoked ++ [c]) now

/-- A signed object (`class Obj`, lines 215-229): a payload dict (modelled
as key/value pairs) and an optional signature over the payload's
serialization. -/
structure Obj : Type where
  obj : List (String × String)
  signature : Option (Nat × List (String × String))
deriving DecidableEq

/-- The `RelayingParty` (lines 125-136): trusted root certificates and the
name → revocation-list mapping (a Python dict; lookup of a missing key
raises `KeyError`). -/
structure RelayingParty : Type where
  rootCaLst : List Cert
  nameToRevoked : List (String × List Cert)
deriving DecidableEq

/-- `self.name_to_revoked[nm]`: ordered-dict lookup. -/
def lookupRevoked (m : List (String × List Cert)) (nm : String) : Option (List Cert) :=
  (m.find? (fun p => p.1 == nm)).map Prod.snd

/-- Dict update `m[nm] = lst` (overwrite in place, append when fresh). -/
def setRevoked (m : List (String × List Cert)) (nm : String) (lst : List Cert) :
    List (String × List Cert) :=
  if m.any (fun p => p.1 == nm) then
    m.map (fun p => if p.1 == nm then (nm, lst) else p)
  else m ++ [(nm, lst)]

/-- Outcome of `RelayingParty.verify` (lines 138-197).  The source returns
a `bool` and prints a distinct diagnostic per failure; the model keeps the
diagnostic.  `pyError` marks a raised Python exception (e.g. `KeyError` on
a missing `name_to_revoked` entry or a missing `Signature` key). -/
inductive VerifyResult : Type where
  | valid              -- `return True`, 'Given object is valid.'
  | invalidSignature   -- 'Certificate chain is not valid.'
  | revoked            -- 'Certificate has been revoked.'
  | notYetValid        -- 'Certificate is not valid yet.'
  | expired            -- 'Certificate has expired.'
  | untrustedRoot      -- 'Certificate chain is invalid.'
  | pyError (msg : String)
deriving DecidableEq

/-- Signature validation step of `verify` (lines 150-167): when `last` is
the signed object itself, its signature must verify over the serialized
payload under the current cert's key; otherwise `last` is the previous
certificate and its detached `Signature` must verify over the cert
serialized without the `Signature` field.  `none` means the check passed;
`some r` is the verdict that terminates `verify`. -/
def sigCheck (o : Obj) (lastCert : Option Cert) (c : Cert) : Option VerifyResult :=
  match lastCert with
  | none =>
    match o.signature with
    | none => some (.pyError "TypeError")   -- rsa.verify on a None signature
    | some s => if s.1 == c.pubKey && s.2 == o.obj then none else some .invalidSignature
  | some lc =>
    match lc.sig with
    | none => some (.pyError "KeyError")    -- last_cert['Signature'] missing
    | some s => if s.1 == c.pubKey && s.2 == stripSig lc then none else some .invalidSignature

/-- Second half of the revocation step of `verify` (lines 174-177): a CA
cert is rejected when it appears in its own revocation list
`name_to_revoked[cert['Name']]`; a missing dict entry raises `KeyError`. -/
def revCheckCA (m : List (String × List Cert)) (c : Cert) : Option VerifyResult :=
  if c.isCA then
    match lookupRevoked m c.name with
    | none => some (.pyError "KeyError")
    | some lst => if lst.contains c then some .revoked else none
  else none

/-- Revocation validation step of `verify` (lines 169-177): a non-root cert
is rejected when it appears in `name_to_revoked[cert['Issuer name']]`; a CA
cert is additionally rejected when it appears in its own list
`name_to_revoked[cert['Name']]`.  Missing dict entries raise `KeyError`. -/
def revCheck (m : List (String × List Cert)) (c : Cert) : Option VerifyResult :=
  match c.issuerName with
  | none => revCheckCA m c
  | some nm =>
    match lookupRevoked m nm with
    | none => some (.pyError "KeyError")
    | some lst => if lst.contains c then some .revoked else revCheckCA m c

/-- Validity-window step of `verify` (lines 179-186): reject with
'not valid yet' when `Valid from > now`, otherwise with 'expired' when
`Valid to < now`. -/
def timeCheck (now : Int) (c : Cert) : Option VerifyResult :=
  if c.validFrom > now then some .notYetValid
  else if c.validTo < now then some .expired
  else none

/-- The three per-link checks of the `verify` loop body, in source order
(signature, then revocation, then validity window): the verdict of the
first failing check, `none` when all pass. -/
def linkChecks (rp : RelayingParty) (now : Int) (o : Obj)
    (lastCert : Option Cert) (c : Cert) : Option VerifyResult :=
  Option.orElse (sigCheck o lastCert c) fun _ =>
    Option.orElse (revCheck rp.nameToRevoked c) fun _ => timeCheck now c

/-- The `while cert is not None` loop of `verify` (lines 149-189) together
with the final root check (lines 191-194), by recursion along the
`Issuer cert` chain.  `lastCert = none` means `last_cert` is still the
signed object.  The first failed per-link check (`linkChecks`) terminates
the loop with its verdict exactly as the early `return False` does. -/
def verifyChain (rp : RelayingParty) (now : Int) (o : Obj)
    (lastCert : Option Cert) : Cert → VerifyResult
  | c@(.mk _ _ iC _ _ _ _ _) =>
    (linkChecks rp now o lastCert c).getD
      (match iC with
       | none => if rp.rootCaLst.contains c then .valid else .untrustedRoot
       | some c2 => verifyChain rp now o (some c) c2)

/-- `RelayingParty.verify(obj, cert_chain)` (lines 138-197).  When the
chain argument is `None` the loop body never runs and the final membership
test compares the `Obj` instance against certificate dicts, which is always
false, so the result is the 'Certificate chain is invalid.' rejection. -/
def rpVerify (rp : RelayingParty) (now : Int) (o : Obj) (chain : Option Cert) :
    VerifyResult :=
  match chain with
  | none => .untrustedRoot
  | some c => verifyChain rp now o none c

/-- `c` occurs among the certificates of the chain headed by `c0`. -/
def occursIn (c : Cert) : Cert → Bool
  | c0@(.mk _ _ iC _ _ _ _ _) =>
    c == c0 ||
      (match iC with
       | none => false
       | some c2 => occursIn c c2)

/-- One-step unfolding of `verifyChain` at a constructor, used in place of
`unfold` (the nested recursion has no generated unfold theorem). -/
theorem verifyChain_eq (rp : RelayingParty) (now : Int) (o : Obj)
    (lastCert : Option Cert) (n1 : String) (i1 : Option String)
    (iC : Option Cert) (k1 : Nat) (f1 t1 : Int) (b1 : Bool)
    (s1 : Option (Nat × Cert)) :
    verifyChain rp now o lastCert (Cert.mk n1 i1 iC k1 f1 t1 b1 s1) =
      (linkChecks rp now o lastCert (Cert.mk n1 i1 iC k1 f1 t1 b1 s1)).getD
        (match iC with
         | none =>
           if rp.rootCaLst.contains (Cert.mk n1 i1 iC k1 f1 t1 b1 s1) then
             VerifyResult.valid
           else VerifyResult.untrustedRoot
         | some c2 =>
           verifyChain rp now o (some (Cert.mk n1 i1 iC k1 f1 t1 b1 s1)) c2) := by
  rw [verifyChain.eq_def]
  cases iC <;> rfl

theorem linkChecks_eq_none (rp : RelayingParty) (now : Int) (o : Obj)
    (lastCert : Option Cert) (c : Cert)
    (h : linkChecks rp now o lastCert c = none) :
    sigCheck o lastCert c = none ∧ revCheck rp.nameToRevoked c = none ∧
      timeCheck now c = none := by
  unfold linkChecks at h
  cases hs : sigCheck o lastCert c with
  | some r =>
    rw [hs] at h
    exact Option.noConfusion h
  | none =>
    rw [hs] at h
    simp only [Option.orElse] at h
    cases hr : revCheck rp.nameToRevoked c with
    | some r =>
      rw [hr] at h
      exact Option.noConfusion h
    | none =>
      rw [hr] at h
      simp only [Option.orElse] at h
      exact ⟨rfl, rfl, h⟩

theorem sigCheck_ne_valid (o : Obj) (lc : Option Cert) (c : Cert)
    (r : VerifyResult) (h : sigCheck o lc c = some r) : r ≠ .valid := by
  unfold sigCheck at h
  split at h <;> split at h <;>
    first
      | (simp only [Option.some.injEq] at h; simp [← h])
      | (split at h
         · exact Option.noConfusion h
         · simp only [Option.some.injEq] at h; simp [← h])

theorem revCheckCA_ne_valid (m : List (String × List Cert)) (c : Cert)
    (r : VerifyResult) (h : revCheckCA m c = some r) : r ≠ .valid := by
  unfold revCheckCA at h
  split at h
  · split at h
    · simp only [Option.some.injEq] at h; simp [← h]
    · split at h
      · simp only [Option.some.injEq] at h; simp [← h]
      · exact Option.noConfusion h
  · exact Option.noConfusion h

theorem revCheck_ne_valid (m : List (String × List Cert)) (c : Cert)
    (r : VerifyResult) (h : revCheck m c = some r) : r ≠ .valid := by
  unfold revCheck at h
  split at h
  · exact revCheckCA_ne_valid m c r h
  · split at h
    · simp only [Option.some.injEq] at h; simp [← h]
    · split at h
      · simp only [Option.some.injEq] at h; simp [← h]
      · exact revCheckCA_ne_valid m c r h

theorem timeCheck_ne_valid (now : Int) (c : Cert)
    (r : VerifyResult) (h : timeCheck now c = some r) : r ≠ .valid := by
  unfold timeCheck at h
  split at h
  · simp only [Option.some.injEq] at h; simp [← h]
  · split at h
    · simp only [Option.some.injEq] at h; simp [← h]
    · exact Option.noConfusion h

theorem linkChecks_ne_valid (rp : RelayingParty) (now : Int) (o : Obj)
    (lastCert : Option Cert) (c : Cert) (r : VerifyResult)
    (h : linkChecks rp now o lastCert c = some r) : r ≠ .valid := by
  unfold linkChecks at h
  cases hs : sigCheck o lastCert c with
  | some r2 =>
    rw [hs] at h
    simp only [Option.orElse] at h
    exact (Option.some.inj h) ▸ sigCheck_ne_valid o lastCert c r2 hs
  | none =>
    rw [hs] at h
    simp only [Option.orElse] at h
    cases hr : revCheck rp.nameToRevoked c with
    | some r2 =>
      rw [hr] at h
      simp only [Option.orElse] at h
      exact (Option.some.inj h) ▸ revCheck_ne_valid rp.nameToRevoked c r2 hr
    | none =>
      rw [hr] at h
      simp only [Option.orElse] at h
      exact timeCheck_ne_valid now c r h

theorem lookupRevoked_any (m : List (String × List Cert)) (nm : String)
    (L : List Cert) (h : lookupRevoked m nm = some L) :
    m.any (fun p => p.1 == nm) = true := by
  induction m with
  | nil => simp [lookupRevoked] at h
  | cons p m ih =>
    by_cases hp : (p.1 == nm) = true
    · simp [hp]
    · simp only [lookupRevoked, List.find?_cons, hp] at h
      simp only [List.any_cons, hp, Bool.false_or]
      exact ih h

theorem find_map_replace (nm : String) (lst : List Cert)
    (m : List (String × List Cert)) (h : m.any (fun p => p.1 == nm) = true) :
    (m.map (fun p => if p.1 == nm then (nm, lst) else p)).find?
      (fun p => p.1 == nm) = some (nm, lst) := by
  induction m with
  | nil => simp at h
  | cons p m ih =>
    by_cases hp : (p.1 == nm) = true
    · simp only [List.map_cons, if_pos hp]
      exact List.find?_cons_of_pos _ (by simp)
    · simp only [List.any_cons, hp, Bool.false_or] at h
      simp only [List.map_cons, if_neg hp]
      exact (@List.find?_cons_of_neg _ (fun q => q.1 == nm) p _ hp).trans (ih h)

theorem lookupRevoked_set_self (m : List (String × List Cert)) (nm : String)
    (L lst : List Cert) (hreg : lookupRevoked m nm = some L) :
    lookupRevoked (setRevoked m nm lst) nm = some lst := by
  have hany := lookupRevoked_any m nm L hreg
  unfold lookupRevoked setRevoked
  rw [if_pos hany, find_map_replace nm lst m hany]
  rfl

theorem find_map_replace_other (nm nm' : String) (lst : List Cert)
    (m : List (String × List Cert)) (hne : nm' ≠ nm) :
    (m.map (fun p => if p.1 == nm then (nm, lst) else p)).find?
      (fun p => p.1 == nm') = m.find? (fun p => p.1 == nm') := by
  induction m with
  | nil => rfl
  | cons p m ih =>
    by_cases hp : (p.1 == nm) = true
    · have hpn : p.1 = nm := by simpa using hp
      have h1 : ¬(((nm, lst) : String × List Cert).1 == nm') = true := by
        simp only [beq_iff_eq]
        exact fun hh => hne hh.symm
      have h2 : ¬((p.1 == nm') = true) := by
        simp only [beq_iff_eq, hpn]
        exact fun hh => hne hh.symm
      simp only [List.map_cons, if_pos hp]
      exact (@List.find?_cons_of_neg _ (fun q => q.1 == nm') (nm, lst) _ h1).trans
        (ih.trans (@List.find?_cons_of_neg _ (fun q => q.1 == nm') p m h2).symm)
    · simp only [List.map_cons, if_neg hp]
      by_cases hq : (p.1 == nm') = true
      · exact (@List.find?_cons_of_pos _ (fun q => q.1 == nm') p _ hq).trans
          (@List.find?_cons_of_pos _ (fun q => q.1 == nm') p m hq).symm
      · exact (@List.find?_cons_of_neg _ (fun q => q.1 == nm') p _ hq).trans
          (ih.trans (@List.find?_cons_of_neg _ (fun q => q.1 == nm') p m hq).symm)

theorem lookupRevoked_set_other (m : List (String × List Cert)) (nm nm' : String)
    (lst : List Cert) (hne : nm' ≠ nm) :
    lookupRevoked (setRevoked m nm lst) nm' = lookupRevoked m nm' := by
  by_cases hany : (m.any (fun p => p.1 == nm)) = true
  · unfold lookupRevoked setRevoked
    rw [if_pos hany, find_map_replace_other nm nm' lst m hne]
  · unfold lookupRevoked setRevoked
    rw [if_neg hany, List.find?_append]
    have h1 : ¬(((nm, lst) : String × List Cert).1 == nm') = true := by
      simp only [beq_iff_eq]
      exact fun hh => hne hh.symm
    have e1 : List.find? (fun p => p.1 == nm') [(nm, lst)] =
        List.find? (fun p => p.1 == nm') [] :=
      @List.find?_cons_of_neg _ (fun q => q.1 == nm') (nm, lst) [] h1
    rw [e1]
    simp

theorem revokeCert_contains_self (L : List Cert) (c : Cert) (now : Int)
    (hnp : ¬(c.validTo < now)) : (revokeCert L c now).contains c = true := by
  unfold revokeCert updateRevoked
  rw [List.elem_iff]
  rw [List.mem_filter]
  constructor
  · exact List.mem_append_right L (List.mem_singleton.mpr rfl)
  · simp [hnp]

theorem revokeCert_contains_other (L : List Cert) (c x : Cert) (now : Int)
    (hx : x ≠ c) (hL : L.contains x = false) :
    (revokeCert L c now).contains x = false := by
  unfold revokeCert updateRevoked
  by_contra hcon
  rw [Bool.not_eq_false, List.elem_iff, List.mem_filter, List.mem_append] at hcon
  rcases hcon.1 with hmem | hmem
  · have hh : L.contains x = true := List.elem_iff.mpr hmem
    rw [hh] at hL
    exact Bool.noConfusion hL
  · exact hx (List.mem_singleton.mp hmem)

theorem revCheckCA_preserved (ntr : List (String × List Cert)) (nm : String)
    (L newL : List Cert) (c x : Cert)
    (hreg : lookupRevoked ntr nm = some L)
    (hsub : ∀ y : Cert, y ≠ c → newL.contains y = true → L.contains y = true)
    (hx : x ≠ c)
    (h : revCheckCA ntr x = none) :
    revCheckCA (setRevoked ntr nm newL) x = none := by
  unfold revCheckCA at h ⊢
  by_cases hca : x.isCA = true
  · rw [if_pos hca] at h ⊢
    split at h
    next heq =>
      exact Option.noConfusion h
    next lst heq =>
      have hcont : lst.contains x = false := by
        by_contra hc2
        rw [Bool.not_eq_false] at hc2
        rw [if_pos hc2] at h
        exact Option.noConfusion h
      by_cases hnx : x.name = nm
      · rw [hnx] at heq
        have hLl : lst = L := by
          rw [heq] at hreg
          exact Option.some.inj hreg
        rw [hnx, lookupRevoked_set_self ntr nm L newL hreg]
        simp only []
        have hnc : ¬((newL.contains x) = true) := by
          intro hc3
          have hcl := hsub x hx hc3
          rw [hLl] at hcont
          rw [hcl] at hcont
          exact Bool.noConfusion hcont
        rw [if_neg hnc]
      · rw [lookupRevoked_set_other ntr nm x.name newL hnx, heq]
        simp only []
        rw [if_neg (show ¬((lst.contains x) = true) from
          fun hcc => Bool.noConfusion (hcont.symm.trans hcc))]
  · rw [if_neg hca]

theorem revCheck_preserved (ntr : List (String × List Cert)) (nm : String)
    (L newL : List Cert) (c x : Cert)
    (hreg : lookupRevoked ntr nm = some L)
    (hsub : ∀ y : Cert, y ≠ c → newL.contains y = true → L.contains y = true)
    (hx : x ≠ c)
    (h : revCheck ntr x = none) :
    revCheck (setRevoked ntr nm newL) x = none := by
  obtain ⟨xn, xi, xc, xk, xf, xt, xb, xs⟩ := x
  unfold revCheck at h ⊢
  simp only [Cert.issuerName] at h ⊢
  cases xi with
  | none => exact revCheckCA_preserved ntr nm L newL c _ hreg hsub hx h
  | some nm2 =>
    simp only [] at h ⊢
    split at h
    next heq =>
      exact Option.noConfusion h
    next lst heq =>
      have hcont : lst.contains (Cert.mk xn (some nm2) xc xk xf xt xb xs) = false := by
        by_contra hc2
        rw [Bool.not_eq_false] at hc2
        rw [if_pos hc2] at h
        exact Option.noConfusion h
      rw [if_neg (show ¬((lst.contains (Cert.mk xn (some nm2) xc xk xf xt xb xs)) = true) from
        fun hcc => Bool.noConfusion (hcont.symm.trans hcc))] at h
      by_cases hn2 : nm2 = nm
      · rw [hn2] at heq hx hcont h ⊢
        have hLl : lst = L := by
          rw [heq] at hreg
          exact Option.some.inj hreg
        rw [lookupRevoked_set_self ntr nm L newL hreg]
        simp only []
        have hnc : ¬((newL.contains (Cert.mk xn (some nm) xc xk xf xt xb xs)) = true) := by
          intro hc3
          have hcl := hsub _ hx hc3
          rw [hLl] at hcont
          rw [hcl] at hcont
          exact Bool.noConfusion hcont
        rw [if_neg hnc]
        exact revCheckCA_preserved ntr nm L newL c _ hreg hsub hx h
      · rw [lookupRevoked_set_other ntr nm nm2 newL hn2, heq]
        simp only []
        rw [if_neg (show ¬((lst.contains (Cert.mk xn (some nm2) xc xk xf xt xb xs)) = true) from
          fun hcc => Bool.noConfusion (hcont.symm.trans hcc))]
        exact revCheckCA_preserved ntr nm L newL c _ hreg hsub hx h

theorem verifyChain_revoked_aux (rp : RelayingParty) (now : Int) (o : Obj)
    (c : Cert) (nm : String) (L : List Cert)
    (hiss : c.issuerName = some nm)
    (hreg : lookupRevoked rp.nameToRevoked nm = some L)
    (hnp : ¬(c.validTo < now)) :
    ∀ (n : Nat) (c0 : Cert), sizeOf c0 ≤ n → ∀ (lastCert : Option Cert),
      verifyChain rp now o lastCert c0 = .valid → occursIn c c0 = true →
      verifyChain ⟨rp.rootCaLst, setRevoked rp.nameToRevoked nm (revokeCert L c now)⟩
        now o lastCert c0 = .revoked := by
  have hsub : ∀ y : Cert, y ≠ c → (revokeCert L c now).contains y = true →
      L.contains y = true := by
    intro y hy hc2
    by_contra hc3
    rw [Bool.not_eq_true] at hc3
    rw [revokeCert_contains_other L c y now hy hc3] at hc2
    exact Bool.noConfusion hc2
  intro n
  induction n with
  | zero =>
    intro c0 hsz
    obtain ⟨n1, i1, iC, k1, f1, t1, b1, s1⟩ := c0
    simp only [Cert.mk.sizeOf_spec] at hsz
    omega
  | succ n ih =>
    intro c0 hsz lastCert hvalid hocc
    obtain ⟨n1, i1, iC, k1, f1, t1, b1, s1⟩ := c0
    simp only [Cert.mk.sizeOf_spec] at hsz
    rw [verifyChain_eq] at hvalid ⊢
    cases hlc : linkChecks rp now o lastCert (Cert.mk n1 i1 iC k1 f1 t1 b1 s1) with
    | some r =>
      rw [hlc] at hvalid
      simp only [Option.getD_some] at hvalid
      exact absurd hvalid (linkChecks_ne_valid rp now o lastCert _ r hlc)
    | none =>
      rw [hlc] at hvalid
      simp only [Option.getD_none] at hvalid
      obtain ⟨hs, hr, ht⟩ := linkChecks_eq_none rp now o lastCert _ hlc
      by_cases hceq : c = Cert.mk n1 i1 iC k1 f1 t1 b1 s1
      · have hi1 : i1 = some nm := by
          have h2 := hiss
          rw [hceq] at h2
          simpa [Cert.issuerName] using h2
        have hceq2 : c = Cert.mk n1 (some nm) iC k1 f1 t1 b1 s1 := by
          rw [hceq, hi1]
        have hrev : revCheck (setRevoked rp.nameToRevoked nm (revokeCert L c now))
            (Cert.mk n1 i1 iC k1 f1 t1 b1 s1) = some .revoked := by
          unfold revCheck
          simp only [Cert.issuerName, hi1]
          rw [lookupRevoked_set_self rp.nameToRevoked nm L (revokeCert L c now) hreg]
          simp only []
          rw [← hceq2, if_pos (revokeCert_contains_self L c now hnp)]
        have hlc2 : linkChecks
            ⟨rp.rootCaLst, setRevoked rp.nameToRevoked nm (revokeCert L c now)⟩
            now o lastCert (Cert.mk n1 i1 iC k1 f1 t1 b1 s1) = some .revoked := by
          unfold linkChecks
          rw [hs]
          simp only [Option.orElse]
          rw [hrev]
        rw [hlc2]
        simp only [Option.getD_some]
      · have hbeqf : (c == Cert.mk n1 i1 iC k1 f1 t1 b1 s1) = false := by
          by_contra hb2
          rw [Bool.not_eq_false] at hb2
          exact hceq (eq_of_beq hb2)
        unfold occursIn at hocc
        rw [hbeqf] at hocc
        simp only [Bool.false_or] at hocc
        have hr2 := revCheck_preserved rp.nameToRevoked nm L (revokeCert L c now) c
          (Cert.mk n1 i1 iC k1 f1 t1 b1 s1) hreg hsub (fun hh => hceq hh.symm) hr
        have hlc2 : linkChecks
            ⟨rp.rootCaLst, setRevoked rp.nameToRevoked nm (revokeCert L c now)⟩
            now o lastCert (Cert.mk n1 i1 iC k1 f1 t1 b1 s1) = none := by
          unfold linkChecks
          rw [hs]
          simp only [Option.orElse]
          rw [hr2]
          simp only [Option.orElse]
          exact ht
        rw [hlc2]
        simp only [Option.getD_none]
        cases iC with
        | none => exact Bool.noConfusion hocc
        | some c2 =>
          have hsz2 : sizeOf c2 ≤ n := by
            simp at hsz
            omega
          exact ih c2 hsz2 (some (Cert.mk n1 i1 (some c2) k1 f1 t1 b1 s1)) hvalid hocc

/-- `c` occurs among the certificates of an optional chain. -/
def occursInOpt (c : Cert) : Option Cert → Bool
  | none => false
  | some c0 => occursIn c c0

/-- C6: revoking an unexpired certificate in a registered revocation list
makes verification of any chain containing it fail with the revocation
diagnostic. -/
theorem claim_C6_revoked_cert_fails_verification
    (rp : RelayingParty) (now : Int) (o : Obj) (chain : Option Cert)
    (c : Cert) (nm : String) (L : List Cert)
    (hvalid : rpVerify rp now o chain = .valid)
    (hocc : occursInOpt c chain = true)
    (hiss : c.issuerName = some nm)
    (hreg : lookupRevoked rp.nameToRevoked nm = some L)
    (hnp : ¬(c.validTo < now)) :
    rpVerify ⟨rp.rootCaLst, setRevoked rp.nameToRevoked nm (revokeCert L c now)⟩
      now o chain = .revoked := by
  cases chain with
  | none => exact VerifyResult.noConfusion hvalid
  | some c0 =>
    exact verifyChain_revoked_aux rp now o c nm L hiss hreg hnp
      (sizeOf c0) c0 (Nat.le_refl _) none hvalid hocc

/-- Concrete root-CA certificate used by the witness scenarios. -/
def ucaRoot : Cert := .mk "UCA" none none 1 0 1000 true none

/-- The serialized (signature-detached) form of the witness leaf cert. -/
def hujiPayload : Cert := .mk "HUJI" (some "UCA") (some ucaRoot) 2 0 100 false none

/-- Leaf certificate issued by the root CA to "HUJI" in the witness
scenario. -/
def hujiCert : Cert :=
  .mk "HUJI" (some "UCA") (some ucaRoot) 2 0 100 false (some (1, hujiPayload))

/-- A signed object for the witness scenario. -/
def dorObj : Obj := ⟨[("Name", "Dor")], some (2, [("Name", "Dor")])⟩

/-- Relaying party trusting the witness root, with the root CA's (initially
empty) revocation list registered. -/
def demoRP : RelayingParty := ⟨[ucaRoot], [("UCA", [])]⟩

theorem claim_C6_witness :
    rpVerify ⟨demoRP.rootCaLst,
        setRevoked demoRP.nameToRevoked "UCA" (revokeCert [] hujiCert 0)⟩ 0 dorObj
      (some hujiCert) = .revoked :=
  claim_C6_revoked_cert_fails_verification demoRP 0 dorObj (some hujiCert)
    hujiCert "UCA" [] (by decide) (by decide) (by decide) (by decide) (by decide)

/-- C7: the validity window of `verify` is boundary-inclusive: a cert with
`Valid from = Valid to = now` passes the time check, `Valid to = now - 1`
is rejected as expired, and `Valid from > now` is rejected with the
distinct not-yet-valid diagnostic. -/
theorem claim_C7_validity_window_boundaries
    (now : Int) (nm : String) (pk : Nat) (od : List (String × String))
    (roots : List Cert) (ntr : List (String × List Cert)) :
    (roots.contains (Cert.mk nm none none pk now now false none) = true →
      rpVerify ⟨roots, ntr⟩ now ⟨od, some (pk, od)⟩
        (some (Cert.mk nm none none pk now now false none)) = .valid) ∧
    (∀ vf : Int, vf ≤ now →
      rpVerify ⟨roots, ntr⟩ now ⟨od, some (pk, od)⟩
        (some (Cert.mk nm none none pk vf (now - 1) false none)) = .expired) ∧
    (∀ vf vt : Int, now < vf →
      rpVerify ⟨roots, ntr⟩ now ⟨od, some (pk, od)⟩
        (some (Cert.mk nm none none pk vf vt false none)) = .notYetValid) := by
  have hs : ∀ vf vt : Int, sigCheck ⟨od, some (pk, od)⟩ none
      (Cert.mk nm none none pk vf vt false none) = none := by
    intro vf vt
    unfold sigCheck
    simp [Cert.pubKey]
  have hrv : ∀ vf vt : Int, revCheck ntr
      (Cert.mk nm none none pk vf vt false none) = none := by
    intro vf vt
    unfold revCheck revCheckCA
    simp [Cert.issuerName, Cert.isCA]
  refine ⟨?_, ?_, ?_⟩
  · intro hroot
    have htc : timeCheck now (Cert.mk nm none none pk now now false none) = none := by
      unfold timeCheck
      simp [Cert.validFrom, Cert.validTo]
    have hlc : linkChecks ⟨roots, ntr⟩ now ⟨od, some (pk, od)⟩ none
        (Cert.mk nm none none pk now now false none) = none := by
      unfold linkChecks
      rw [hs now now]
      simp only [Option.orElse]
      rw [hrv now now]
      simp only [Option.orElse]
      exact htc
    unfold rpVerify
    simp only []
    rw [verifyChain_eq, hlc]
    simp only [Option.getD_none]
    rw [if_pos hroot]
  · intro vf hvf
    have htc : timeCheck now (Cert.mk nm none none pk vf (now - 1) false none) =
        some .expired := by
      unfold timeCheck
      rw [if_neg (by simp only [Cert.validFrom]; omega),
        if_pos (by simp only [Cert.validTo]; omega)]
    have hlc : linkChecks ⟨roots, ntr⟩ now ⟨od, some (pk, od)⟩ none
        (Cert.mk nm none none pk vf (now - 1) false none) = some .expired := by
      unfold linkChecks
      rw [hs vf (now - 1)]
      simp only [Option.orElse]
      rw [hrv vf (now - 1)]
      simp only [Option.orElse]
      exact htc
    unfold rpVerify
    simp only []
    rw [verifyChain_eq, hlc]
    simp only [Option.getD_some]
  · intro vf vt hvf
    have htc : timeCheck now (Cert.mk nm none none pk vf vt false none) =
        some .notYetValid := by
      unfold timeCheck
      rw [if_pos (by simp only [Cert.validFrom]; omega)]
    have hlc : linkChecks ⟨roots, ntr⟩ now ⟨od, some (pk, od)⟩ none
        (Cert.mk nm none none pk vf vt false none) = some .notYetValid := by
      unfold linkChecks
      rw [hs vf vt]
      simp only [Option.orElse]
      rw [hrv vf vt]
      simp only [Option.orElse]
      exact htc
    unfold rpVerify
    simp only []
    rw [verifyChain_eq, hlc]
    simp only [Option.getD_some]

theorem claim_C7_witness :
    (rpVerify ⟨[Cert.mk "R" none none 5 0 0 false none], []⟩ 0
        ⟨[("a", "b")], some (5, [("a", "b")])⟩
        (some (Cert.mk "R" none none 5 0 0 false none)) = .valid) ∧
    (rpVerify ⟨[Cert.mk "R" none none 5 0 0 false none], []⟩ 0
        ⟨[("a", "b")], some (5, [("a", "b")])⟩
        (some (Cert.mk "R" none none 5 (-3) (0 - 1) false none)) = .expired) ∧
    (rpVerify ⟨[Cert.mk "R" none none 5 0 0 false none], []⟩ 0
        ⟨[("a", "b")], some (5, [("a", "b")])⟩
        (some (Cert.mk "R" none none 5 1 9 false none)) = .notYetValid) :=
  ⟨(claim_C7_validity_window_boundaries 0 "R" 5 [("a", "b")]
      [Cert.mk "R" none none 5 0 0 false none] []).1 (by decide),
   (claim_C7_validity_window_boundaries 0 "R" 5 [("a", "b")]
      [Cert.mk "R" none none 5 0 0 false none] []).2.1 (-3) (by decide),
   (claim_C7_validity_window_boundaries 0 "R" 5 [("a", "b")]
      [Cert.mk "R" none none 5 0 0 false none] []).2.2 1 9 (by decide)⟩

end PKI

namespace PathORAM

/-! ## Oblivious storage (`src/PathORAM.py`)

The client's Fernet encryption draws a fresh random IV per call, so two
encryptions of the same plaintext are distinct ciphertexts.  The model makes
this explicit: a ciphertext is a pair of a nonce (an encryption counter kept
in `Gen`) and the plaintext; decryption projects the plaintext.  Randomness
(`random.randint`, `random.choice`) is an explicit input: a tape of natural
numbers consumed in order, each draw taken modulo its range. -/

/-- `DUMMY_LEN` (line 9): length of a random dummy-key plaintext. -/
def DUMMY_LEN : Nat := 3

/-- `DATA_LEN` (line 11). -/
def DATA_LEN : Nat := 4

/-- `BUCKET_SIZE` (line 14). -/
def BUCKET_SIZE : Nat := 4

/-- A Fernet ciphertext: fresh nonce plus the encrypted plaintext. -/
structure Ct where
  nonce : Nat
  pt : String
deriving DecidableEq, Repr

/-- `self.__fernet.decrypt` (applied to a well-formed ciphertext). -/
def fernetDecrypt (c : Ct) : String := c.pt

/-- Encryption/randomness state: the encryption counter (Fernet's fresh
IVs) and the remaining randomness tape.  An exhausted tape yields 0. -/
structure Gen where
  ctr : Nat
  ints : List Nat
deriving DecidableEq, Repr

/-- Draw the next raw random number from the tape. -/
def nextInt (g : Gen) : Nat × Gen := (g.ints.headD 0, ⟨g.ctr, g.ints.tail⟩)

/-- `self.__fernet.encrypt(pt)`: fresh ciphertext under a fresh nonce. -/
def encNew (g : Gen) (pt : String) : Ct × Gen := (⟨g.ctr, pt⟩, ⟨g.ctr + 1, g.ints⟩)

/-- `random.randint(a, b)` (both ends inclusive), driven by a raw tape
value. -/
def pyRandint (a b r : Nat) : Nat := a + r % (b + 1 - a)

/-- `Client.get_random_string(length)` (lines 326-336): `length` characters
chosen from `string.ascii_lowercase`. -/
def getRandomString : Nat → Gen → String × Gen
  | 0, g => ("", g)
  | n + 1, g =>
    let (r, g1) := nextInt g
    let (s, g2) := getRandomString n g1
    (String.mk (Char.ofNat (97 + r % 26) :: s.toList), g2)

/-- A bucket: a Python dict of ciphertext-key ↦ ciphertext-value in
insertion order (`node.value`). -/
abbrev Bucket := List (Ct × Ct)

def bucketKeys (b : Bucket) : List Ct := b.map Prod.fst

/-- `node.value[k] = v`: overwrite in place when the key exists, append
otherwise. -/
def dictInsert (b : Bucket) (k v : Ct) : Bucket :=
  if (bucketKeys b).contains k then
    b.map (fun kv => if kv.1 == k then (k, v) else kv)
  else b ++ [(k, v)]

/-- `del node.value[k]`. -/
def dictDelete (b : Bucket) (k : Ct) : Bucket :=
  b.filter (fun kv => !(kv.1 == k))

/-- The level-indexed bucket contents of the server's perfect tree
(`tree_arr`, with `node.value` at position `(level, j)`).  The children of
node `(level, j)` are `(level+1, 2j)` and `(level+1, 2j+1)`, which is the
order `build_tree_arr` (lines 40-49) appends them in. -/
abbrev Tree := List (List Bucket)

def getBucket? (t : Tree) (i j : Nat) : Option Bucket :=
  (t.get? i).bind (fun lvl => lvl.get? j)

def setBucket (t : Tree) (i j : Nat) (b : Bucket) : Tree :=
  t.set i ((t.getD i []).set j b)

/-- `decrypt(value)[0] == DUM_VAL` (value's first byte is ASCII `'0'`,
48): the slot is a dummy.  Stored values are `"00000"` for dummies and
`"1" ++ data` for real entries, so the byte exists; on the empty string
(unreachable) Python would raise `IndexError`. -/
def isDummyVal (c : Ct) : Bool := (fernetDecrypt c).take 1 == "0"

/-- `HMAC.new(self.__key, digestmod=SHA256); update(str(id) + data);
hexdigest()` — modelled as an injective deterministic tag of
`(str(id), data)` under the client's fixed key. -/
def hmacTag (id : Nat) (data : String) : String := Nat.repr id ++ "|" ++ data

/-- A position-map entry `self.__memory[id] = [bits, tag]`
(lines 142-143): the binary string of the assigned leaf and the HMAC tag. -/
structure PosEntry where
  bits : String
  tag : String
deriving DecidableEq, Repr

/-- The client's position map `self.__memory` (a Python dict keyed by the
integer id). -/
abbrev Memory := List (Nat × PosEntry)

def memLookup (m : Memory) (id : Nat) : Option PosEntry :=
  (m.find? (fun p => p.1 == id)).map Prod.snd

def memInsert (m : Memory) (id : Nat) (e : PosEntry) : Memory :=
  if m.any (fun p => p.1 == id) then
    m.map (fun p => if p.1 == id then (id, e) else p)
  else m ++ [(id, e)]

def memDelete (m : Memory) (id : Nat) : Memory :=
  m.filter (fun p => !(p.1 == id))

/-- Combined client+server mutable state: the server tree's buckets
(`none` before `_fill_server_with_dummies` has run, when every
`node.value` is Python `None`), the client's position map, and the
encryption/randomness state. -/
structure Sys where
  tree : Option Tree
  mem : Memory
  gen : Gen
deriving DecidableEq, Repr

instance {ε α : Type} [DecidableEq ε] [DecidableEq α] : DecidableEq (Except ε α) :=
  fun a b =>
    match a, b with
    | .ok x, .ok y =>
      if h : x = y then isTrue (by rw [h])
      else isFalse (by intro hh; exact h (Except.ok.inj hh))
    | .error x, .error y =>
      if h : x = y then isTrue (by rw [h])
      else isFalse (by intro hh; exact h (Except.error.inj hh))
    | .ok _, .error _ => isFalse (by intro hh; exact Except.noConfusion hh)
    | .error _, .ok _ => isFalse (by intro hh; exact Except.noConfusion hh)

/-- `bin(n)[2:]`: the binary representation without the `0b` prefix
(fuel-structured so that it evaluates). -/
def natBinAux : Nat → Nat → List Char
  | 0, _ => []
  | fuel + 1, n =>
    if n < 2 then [if n == 0 then '0' else '1']
    else natBinAux fuel (n / 2) ++ [if n % 2 == 0 then '0' else '1']

def natBin (n : Nat) : String := String.mk (natBinAux (n + 1) n)

/-- Python `==` between a string (here: one character of a path string)
and an `int`: values of different types always compare unequal, so this is
constantly `false`.  This is the comparison at lines 178, 213 and 271 of
the source (`path[level] == 0`, `direction == 0` with a `str` direction). -/
def pyStrEqInt (_s : String) (_n : Int) : Bool := false

/-- Python `s[i]` as a one-character string (`IndexError` out of range;
that position is unreachable in the verified executions, modelled as ""). -/
def strCharAt (s : String) (i : Nat) : String :=
  match s.toList.get? i with
  | some c => String.mk [c]
  | none => ""

/-- Python `int(s)` (raises `ValueError` on a non-numeric string; only
applied to decrypted real keys `str(id)` in the verified executions). -/
def pyInt (s : String) : Nat := s.toNat?.getD 0

/-- A fresh dummy slot: `Enc(get_random_string(DUMMY_LEN)) ↦ Enc("00000")`
(e.g. lines 170-172, 274-276, 292-295). -/
def mkDummy (g : Gen) : (Ct × Ct) × Gen :=
  let (s1, g1) := getRandomString DUMMY_LEN g
  let (ck, g2) := encNew g1 s1
  let (cv, g3) := encNew g2 "00000"
  ((ck, cv), g3)

/-- Fill one bucket with `n` dummy slots (`_fill_server_with_dummies`
inner loop, lines 291-295). -/
def bucketFill : Nat → Bucket → Gen → Bucket × Gen
  | 0, acc, g => (acc, g)
  | n + 1, acc, g =>
    let (kv, g1) := mkDummy g
    bucketFill n (dictInsert acc kv.1 kv.2) g1

def mkDummyBucket (n : Nat) (g : Gen) : Bucket × Gen := bucketFill n [] g

/-- Fill `n` nodes of one level. -/
def mkDummyLevel : Nat → Gen → List Bucket × Gen
  | 0, g => ([], g)
  | n + 1, g =>
    let (b, g1) := mkDummyBucket BUCKET_SIZE g
    let (rest, g2) := mkDummyLevel n g1
    (b :: rest, g2)

/-- `_fill_server_with_dummies` (lines 284-295): every node of every level
gets a bucket of `BUCKET_SIZE` dummies; level `ℓ` has `2^ℓ` nodes. -/
def mkDummyLevels : List Nat → Gen → Tree × Gen
  | [], g => ([], g)
  | ℓ :: rest, g =>
    let (lvl, g1) := mkDummyLevel (2 ^ ℓ) g
    let (t, g2) := mkDummyLevels rest g1
    (lvl :: t, g2)

def mkDummyTree (h : Nat) (g : Gen) : Tree × Gen :=
  mkDummyLevels (List.range (h + 1)) g

/-- `_encrypt_node` (lines 297-311): re-encrypt every slot of a bucket
into a new dict, in iteration order, under fresh nonces. -/
def encryptNodeGo : Bucket → Bucket → Gen → Bucket × Gen
  | [], acc, g => (acc, g)
  | kv :: rest, acc, g =>
    let (ck, g1) := encNew g (fernetDecrypt kv.1)
    let (cv, g2) := encNew g1 (fernetDecrypt kv.2)
    encryptNodeGo rest (dictInsert acc ck cv) g2

def encryptNode (b : Bucket) (g : Gen) : Bucket × Gen := encryptNodeGo b [] g

/-- The `while rand1 == rand2: rand2 = random.randint(...)` rejection loop
(lines 232-233, 250-251), redrawing from the tape until the draw differs
from `target`.  The fuel is the remaining tape length plus one: once the
tape is exhausted every draw is the same default, so the source loop would
never terminate; the fallback result `(target+1) % n` stands for the
eventual distinct draw of a genuinely random stream. -/
def redraw (n target : Nat) : Nat → Gen → Nat × Gen
  | 0, g => ((target + 1) % n, g)
  | fuel + 1, g =>
    let (r, g1) := nextInt g
    let v := pyRandint 0 (n - 1) r
    if v == target then redraw n target fuel g1 else (v, g1)

/-- Two distinct uniform draws from `0..n-1`: first draw, second draw,
redraw while equal. -/
def drawDistinctPair (n : Nat) (g : Gen) : (Nat × Nat) × Gen :=
  let (r1, g1) := nextInt g
  let a := pyRandint 0 (n - 1) r1
  let (r2, g2) := nextInt g1
  let b := pyRandint 0 (n - 1) r2
  if b == a then
    let (b2, g3) := redraw n a (g2.ints.length + 1) g2
    ((a, b2), g3)
  else ((a, b), g2)

/-- `_push_selected_data` (lines 257-282): push one selected slot from
node `(ℓ, j)` to the child given by the direction rule, replace it in the
parent by a fresh dummy, and drop it into the first dummy slot of the
child (silently dropping the entry when the child has no dummy slot).

Direction (lines 267-271): a dummy goes to a uniformly random child
(`direction = random.randint(0, 1)`, an `int`, so `direction == 0` can
select left); a real entry reads `self.__memory[int(dec_key)][0][level]`,
a *character* of the stored bit string, and `direction == 0` is then a
`str`-vs-`int` comparison — always `False` — so a real entry always goes
right.  (On an id missing from the position map Python would raise
`KeyError`; the verified executions never reach that state.) -/
def pushDirection (mem : Memory) (ℓ : Nat) (kv : Ct × Ct) (g : Gen) : Bool × Gen :=
  if isDummyVal kv.2 then
    let (r, g2) := nextInt g
    (!(pyRandint 0 1 r == 0), g2)
  else
    let dirStr := strCharAt (((memLookup mem (pyInt (fernetDecrypt kv.1))).getD ⟨"", ""⟩).bits) ℓ
    (!(pyStrEqInt dirStr 0), g)

/-- The mutation half of `_push_selected_data` (lines 272-282): replace
the slot in the parent by a fresh dummy, then drop the entry into the
first dummy slot of the child `(ℓ+1, childJ)` (silently dropping the
entry when the child has no dummy slot). -/
def pushMove (kv : Ct × Ct) (t : Tree) (ℓ j childJ : Nat) (g : Gen) : Tree × Gen :=
  let prevB := (getBucket? t ℓ j).getD []
  let (dkv, g2) := mkDummy g
  let prevB2 := dictInsert (dictDelete prevB kv.1) dkv.1 dkv.2
  let t1 := setBucket t ℓ j prevB2
  let nextB := (getBucket? t1 (ℓ + 1) childJ).getD []
  match nextB.find? (fun kv2 => isDummyVal kv2.2) with
  | none => (t1, g2)
  | some dkv2 =>
    (setBucket t1 (ℓ + 1) childJ (dictInsert (dictDelete nextB dkv2.1) kv.1 kv.2), g2)

def pushSelected (mem : Memory) (ℓ j : Nat) (kv : Ct × Ct) (t : Tree) (g : Gen) :
    Tree × Gen :=
  let (dirRight, g1) := pushDirection mem ℓ kv g
  pushMove kv t ℓ j (2 * j + (if dirRight then 1 else 0)) g1

/-- `_rand_and_push` (lines 239-255): pick two distinct slot indices of
the bucket at `(ℓ, j)` (by `random.randint(0, bucket_size-1)` with a
rejection loop) and push both selected slots.  Both slots are read from
the bucket before the first push, as in the source. -/
def randAndPush (mem : Memory) (ℓ j : Nat) (t : Tree) (g : Gen) : Tree × Gen :=
  let b := (getBucket? t ℓ j).getD []
  let ((a, bidx), g1) := drawDistinctPair BUCKET_SIZE g
  let kv1 := b.getD a (⟨0, ""⟩, ⟨0, ""⟩)
  let kv2 := b.getD bidx (⟨0, ""⟩, ⟨0, ""⟩)
  let (t1, g2) := pushSelected mem ℓ j kv1 t g1
  pushSelected mem ℓ j kv2 t1 g2

/-- One level of `_push_down` (lines 224-237): the root pushes alone;
at a deeper level two distinct nodes are chosen uniformly
(`num_nodes_in_level` is the actual level width). -/
def pushLevel (mem : Memory) (ℓ : Nat) (t : Tree) (g : Gen) : Tree × Gen :=
  if ℓ == 0 then randAndPush mem 0 0 t g
  else
    let n := (t.getD ℓ []).length
    let ((i1, i2), g1) := drawDistinctPair n g
    let (t1, g2) := randAndPush mem ℓ i1 t g1
    randAndPush mem ℓ i2 t1 g2

def pushDownGo (mem : Memory) : List Nat → Tree → Gen → Tree × Gen
  | [], t, g => (t, g)
  | ℓ :: rest, t, g =>
    let (t1, g1) := pushLevel mem ℓ t g
    pushDownGo mem rest t1 g1

/-- `_push_down` (lines 218-237): the loop runs levels `0..height`, but
returns as soon as `level == height`, so levels `0..height-1` push. -/
def pushDown (h : Nat) (mem : Memory) (t : Tree) (g : Gen) : Tree × Gen :=
  pushDownGo mem (List.range h) t g

/-- The server-side half of `store_data` (lines 144-152): find a dummy
slot of the root, replace it by the encrypted `(id, '1'+data)` record,
re-encrypt the root bucket, and run the push-down pass (when the root has
no dummy slot the insertion loop finds nothing, the entry is never written
to the server, and only the push-down runs). -/
def storeRootInsert (h : Nat) (t0 : Tree) (mem1 : Memory) (id : Nat)
    (data : String) (g1 : Gen) : Option String × Sys :=
  let root := (getBucket? t0 0 0).getD []
  match root.find? (fun kv => isDummyVal kv.2) with
  | none =>
    let (t1, g2) := pushDown h mem1 t0 g1
    (none, ⟨some t1, mem1, g2⟩)
  | some dkv =>
    let (ck, g2) := encNew g1 (Nat.repr id)
    let (cv, g3) := encNew g2 ("1" ++ data)
    let b1 := dictInsert (dictDelete root dkv.1) ck cv
    let (b2, g4) := encryptNode b1 g3
    let t1 := setBucket t0 0 0 b2
    let (t2, g5) := pushDown h mem1 t1 g4
    (none, ⟨some t2, mem1, g5⟩)

/-- `store_data` (lines 128-152).  Returns the duplicate-id error string,
or `none` (Python `None`) on the normal path.  When the root has no dummy
slot the insertion loop finds nothing and the entry is *never written to
the server*, although the position map was already updated — faithfully
mirrored here. -/
def storeData (h : Nat) (s : Sys) (id : Nat) (data : String) :
    Option String × Sys :=
  if (memLookup s.mem id).isSome then
    (some "ID already exists. Please delete it first", s)
  else
    let (t0, g0) :=
      match s.tree with
      | none => mkDummyTree h s.gen
      | some t => (t, s.gen)
    let tag := hmacTag id data
    let (r, g1) := nextInt g0
    let leaf := pyRandint (2 ^ (h + 1)) (2 ^ (h + 2) - 1) r
    let mem1 := memInsert s.mem id ⟨natBin leaf, tag⟩
    storeRootInsert h t0 mem1 id data g1

/-- The root→leaf walk of `retrieve_data` (lines 165-178).  At each level
the bucket is scanned for a key decrypting to `str(id)`; on a hit the slot
is replaced by a fresh dummy, the id is removed from the position map and
`store_data` reinserts the record; otherwise the walk descends — and since
`path[level] == 0` compares a `str` with an `int`, it always takes the
right child.  An uninitialized tree (`node.value is None`) raises
`TypeError`; walking past a leaf dereferences `None` and raises
`AttributeError`. -/
def retrieveWalk (h id : Nat) : List Char → Nat → Nat → Sys →
    Except String (Option String × Sys)
  | [], _, _, s => Except.ok (none, s)
  | ch :: rest, ℓ, j, s =>
    match s.tree with
    | none => Except.error "TypeError"
    | some t =>
      match getBucket? t ℓ j with
      | none => Except.error "AttributeError"
      | some b =>
        match b.find? (fun kv => fernetDecrypt kv.1 == Nat.repr id) with
        | some kv =>
          let data := (fernetDecrypt kv.2).drop 1
          let (dkv, g1) := mkDummy s.gen
          let b1 := dictInsert (dictDelete b kv.1) dkv.1 dkv.2
          let t1 := setBucket t ℓ j b1
          let mem1 := memDelete s.mem id
          let (_, s2) := storeData h ⟨some t1, mem1, g1⟩ id data
          Except.ok (some data, s2)
        | none =>
          retrieveWalk h id rest (ℓ + 1)
            (2 * j + (if pyStrEqInt (String.mk [ch]) 0 then 0 else 1)) s

/-- `retrieve_data` (lines 154-190).  `self.__memory[id]` raises
`KeyError` on an unknown id.  The two verification steps run *after* the
reinsert: the length check (`type(data) != str` is always false), then
`hexverify` against `self.__memory[id][1]` — which the reinsert has just
recomputed from the retrieved data. -/
def retrieveData (h : Nat) (s : Sys) (id : Nat) :
    Except String (Option String × Sys) :=
  match memLookup s.mem id with
  | none => Except.error "KeyError"
  | some e =>
    match retrieveWalk h id (e.bits.drop 1).toList 0 0 s with
    | Except.error msg => Except.error msg
    | Except.ok (none, s1) => Except.ok (none, s1)
    | Except.ok (some data, s1) =>
      if data.length != DATA_LEN then
        Except.ok (some "Invalid data was returned by the server", s1)
      else
        match memLookup s1.mem id with
        | none => Except.error "KeyError"
        | some e2 =>
          if hmacTag id data == e2.tag then Except.ok (some data, s1)
          else Except.ok (some "The given id data was corrupted", s1)

/-- The walk of `delete_data` (lines 199-213): as the retrieve walk, but a
hit only overwrites the slot with a dummy (no position-map change, no
reinsert) and returns the raw value without its first byte (the source
returns `bytes`, not `str`, here). -/
def deleteWalk (id : Nat) : List Char → Nat → Nat → Sys →
    Except String (Option String × Sys)
  | [], _, _, s => Except.ok (none, s)
  | ch :: rest, ℓ, j, s =>
    match s.tree with
    | none => Except.error "TypeError"
    | some t =>
      match getBucket? t ℓ j with
      | none => Except.error "AttributeError"
      | some b =>
        match b.find? (fun kv => fernetDecrypt kv.1 == Nat.repr id) with
        | some kv =>
          let data := (fernetDecrypt kv.2).drop 1
          let (dkv, g1) := mkDummy s.gen
          let b1 := dictInsert (dictDelete b kv.1) dkv.1 dkv.2
          let t1 := setBucket t ℓ j b1
          Except.ok (some data, ⟨some t1, s.mem, g1⟩)
        | none =>
          deleteWalk id rest (ℓ + 1)
            (2 * j + (if pyStrEqInt (String.mk [ch]) 0 then 0 else 1)) s

/-- `delete_data` (lines 192-214): `self.__memory[id]` raises `KeyError`
on an unknown id; the position map is never modified. -/
def deleteData (s : Sys) (id : Nat) : Except String (Option String × Sys) :=
  match memLookup s.mem id with
  | none => Except.error "KeyError"
  | some e => deleteWalk id (e.bits.drop 1).toList 0 0 s

/-- The result component of a retrieve, discarding the final state. -/
def retrieveResult (h : Nat) (s : Sys) (id : Nat) : Except String (Option String) :=
  (retrieveData h s id).map Prod.fst

/-- A client+server that has performed no operation: no buckets yet, empty
position map, encryption counter 0, randomness tape `tape`. -/
def freshSys (tape : List Nat) : Sys := ⟨none, [], ⟨0, tape⟩⟩

/-! ### `PerfectTree` sizing (`fix_size`, lines 32-38 and 51-59) -/

/-- `int(math.log(n, 2))`: the floor of the base-2 logarithm (`n ≥ 1`;
Python raises `ValueError` at 0).  Fuel-structured so that it evaluates. -/
def log2fuel : Nat → Nat → Nat
  | 0, _ => 0
  | fuel + 1, n => if n < 2 then 0 else 1 + log2fuel fuel (n / 2)

def natLog2 (n : Nat) : Nat := log2fuel n n

/-- `n` is a power of two — equivalently `math.ceil(math.log(n, 2)) ==
math.floor(math.log(n, 2))` for `n ≥ 1` (the float computation is exact at
these magnitudes). -/
def isPow2 (n : Nat) : Bool := n == 2 ^ natLog2 n

/-- `PerfectTree.fix_size` (lines 51-59): add one when the log is not
exact, then subtract one. -/
def fixSize (size : Nat) : Nat :=
  let size2 := if !(isPow2 size) then size + 1 else size
  size2 - 1

/-- `self.size = self.fix_size(size+1)` (line 33). -/
def treeSize (dataBlocks : Nat) : Nat := fixSize (dataBlocks + 1)

/-- `self.height = int(math.log(self.size, 2))` (line 34). -/
def treeHeight (dataBlocks : Nat) : Nat := natLog2 (treeSize dataBlocks)

/-- `build_tree_arr` (lines 40-49): starting from `[[root]]`, each level
appends two children per node, `height` times.  Only the node structure
matters here, so nodes are `Unit`. -/
def buildLevelsGo : Nat → List Unit → List (List Unit)
  | 0, cur => [cur]
  | n + 1, cur => cur :: buildLevelsGo n (cur.flatMap (fun _ => [(), ()]))

def buildTreeArr (height : Nat) : List (List Unit) := buildLevelsGo height [()]

/-- Total number of nodes of the built tree. -/
def totalNodes (t : List (List Unit)) : Nat := (t.map List.length).sum

/-! ### Concrete scenarios for the walk/push direction and integrity claims -/

/-- A dummy slot with explicit nonces (for hand-built states): lowercase
3-letter key plaintext, value `"00000"`. -/
def dSlot (n : Nat) : Ct × Ct := (⟨2 * n, "abc"⟩, ⟨2 * n + 1, "00000"⟩)

/-- A hand-built all-dummy bucket. -/
def dBucket (k : Nat) : Bucket := [dSlot k, dSlot (k + 1), dSlot (k + 2), dSlot (k + 3)]

/-- Height-1 tree whose *left* child holds the real entry for id 9
(`Enc("9") ↦ Enc("1abcd")`); everything else is dummies. -/
def c1Tree : Tree :=
  [[dBucket 0],
   [(⟨100, "9"⟩, ⟨101, "1abcd"⟩) :: [dSlot 4, dSlot 5, dSlot 6], dBucket 8]]

/-- Client state for the walk-direction scenario: id 9 is assigned leaf 4,
`bin(4) = "100"`, so the walk path (after the `[1:]` slice) is `"00"` —
per the specification two left steps, reaching the entry at node (1,0). -/
def c1Sys : Sys := ⟨some c1Tree, [(9, ⟨"100", hmacTag 9 "abcd"⟩)], ⟨200, []⟩⟩

/-- Height-2 tree whose node (1,1) holds the real entry for id 9;
its children (2,2) and (2,3) are all dummies. -/
def c1PushTree : Tree :=
  [[dBucket 0],
   [dBucket 4, (⟨100, "9"⟩, ⟨101, "1abcd"⟩) :: [dSlot 8, dSlot 9, dSlot 10]],
   [dBucket 12, dBucket 16, dBucket 20, dBucket 24]]

/-- Position map for the push-direction scenario: id 9 assigned leaf 9,
`bin(9) = "1001"`, whose bit at position 1 (the push level) is `'0'` —
per the specification the entry must go to the *left* child (2,2). -/
def c1PushMem : Memory := [(9, ⟨"1001", hmacTag 9 "abcd"⟩)]

/-- Adversarial in-place substitution of the stored value ciphertext for
`id` everywhere on the server (the untrusted server swaps the data). -/
def tamperValue (t : Tree) (id : Nat) (newVal : Ct) : Tree :=
  t.map (fun lvl => lvl.map (fun b => b.map
    (fun kv => if fernetDecrypt kv.1 == Nat.repr id then (kv.1, newVal) else kv)))

/-- An honest height-0 store of `(1, "aaaa")` from the initial state. -/
def c3Stored : Sys :=
  (storeData 0 (freshSys [0, 0, 0, 0, 0, 0, 0, 0, 0, 0]) 1 "aaaa").2

/-- The same state after the server tampered with the stored ciphertext,
replacing the value by an encryption of `"1bbbb"`. -/
def c3Tampered : Sys :=
  ⟨c3Stored.tree.map (fun t => tamperValue t 1 ⟨999, "1bbbb"⟩),
   c3Stored.mem, c3Stored.gen⟩

/-- The position-map state reached by storing ids 1..4 on a height-0
server (a root-only tree): after these stores the root bucket holds four
real entries and no dummy. -/
def c2CexPre : Sys :=
  (storeData 0 ((storeData 0 ((storeData 0 ((storeData 0
    (freshSys (List.replicate 30 0)) 1 "aaaa").2) 2 "bbbb").2) 3 "cccc").2)
    4 "dddd").2

/-- C1 (code_bug): the retrieve/delete walk and the push-down both compare
a path *character* with the integer 0, which in Python is always `False`,
so both always take the right child.  Concretely: with the real entry for
id 9 on the all-left path `"00"` at node (1,0), `retrieve_data` walks
right and misses it, returning `None`; and push-down at level 1 moves the
entry for id 9 — whose direction bit `M[9].leaf_bits[1]` is `'0'` — into
the *right* child (2,3) instead of the left child (2,2). -/
theorem claim_C1_direction_bug :
    (((getBucket? c1Tree 1 0).getD []).any
        (fun kv => fernetDecrypt kv.1 == Nat.repr 9) = true) ∧
    (memLookup c1Sys.mem 9).map PosEntry.bits = some "100" ∧
    retrieveResult 1 c1Sys 9 = Except.ok none ∧
    strCharAt "1001" 1 = "0" ∧
    (((getBucket? (pushSelected c1PushMem 1 1 (⟨100, "9"⟩, ⟨101, "1abcd"⟩)
          c1PushTree ⟨300, []⟩).1 2 3).getD []).any
        (fun kv => fernetDecrypt kv.1 == Nat.repr 9) = true) ∧
    (((getBucket? (pushSelected c1PushMem 1 1 (⟨100, "9"⟩, ⟨101, "1abcd"⟩)
          c1PushTree ⟨300, []⟩).1 2 2).getD []).any
        (fun kv => fernetDecrypt kv.1 == Nat.repr 9) = false) := by
  refine ⟨by decide, by decide, by decide, by decide, by decide, by decide⟩

/-- C2 counterexample: id 5 is absent from the position map of
`c2CexPre`, yet after `store_data(server, 5, "eeee")` the immediately
following `retrieve_data(server, 5)` returns `None`, not `"eeee"` — the
root bucket holds no dummy slot, so the store never writes the entry to
the server. -/
theorem claim_C2_counterexample :
    memLookup c2CexPre.mem 5 = none ∧
    retrieveResult 0 (storeData 0 c2CexPre 5 "eeee").2 5 = Except.ok none ∧
    (Except.ok none : Except String (Option String)) ≠
      Except.ok (some "eeee") := by
  refine ⟨by decide, by decide, by decide⟩

/-- C3 (code_bug): the HMAC comparison of `retrieve_data` happens *after*
the reinsert has overwritten `M[id]` with a tag recomputed from the
retrieved (possibly tampered) data, so it can never fire: with the stored
value for id 1 tampered from `"1aaaa"` to `"1bbbb"`, the original tag
`HMAC(1, "aaaa")` is still in the position map and differs from
`HMAC(1, "bbbb")`, yet retrieve returns `"bbbb"` instead of the
corruption diagnostic. -/
theorem claim_C3_integrity_check_vacuous :
    (memLookup c3Tampered.mem 1).map PosEntry.tag = some (hmacTag 1 "aaaa") ∧
    hmacTag 1 "aaaa" ≠ hmacTag 1 "bbbb" ∧
    retrieveResult 0 c3Tampered 1 = Except.ok (some "bbbb") ∧
    retrieveResult 0 c3Tampered 1 ≠
      Except.ok (some "The given id data was corrupted") := by
  refine ⟨by decide, by decide, by decide, by decide⟩

/-- C4 (code_bug): for an id absent from the position map, both
`retrieve_data` and `delete_data` evaluate `self.__memory[id]` unguarded
and raise `KeyError` instead of returning `None` as their docstrings
promise. -/
theorem claim_C4_unknown_id_raises (h : Nat) (s : Sys) (id : Nat)
    (hm : memLookup s.mem id = none) :
    retrieveData h s id = Except.error "KeyError" ∧
    deleteData s id = Except.error "KeyError" := by
  unfold retrieveData deleteData
  rw [hm]
  exact ⟨rfl, rfl⟩

theorem claim_C4_witness :
    retrieveData 0 (freshSys []) 7 = Except.error "KeyError" ∧
    deleteData (freshSys []) 7 = Except.error "KeyError" :=
  claim_C4_unknown_id_raises 0 (freshSys []) 7 rfl

/-! ### C8: tree sizing -/

theorem flatMap_pair_length (cur : List Unit) :
    (cur.flatMap (fun _ => [(), ()])).length = 2 * cur.length := by
  induction cur with
  | nil => rfl
  | cons a rest ih =>
    simp only [List.flatMap_cons, List.length_append, ih, List.length_cons]
    simp
    omega

theorem totalNodes_buildLevelsGo (n : Nat) : ∀ cur : List Unit,
    totalNodes (buildLevelsGo n cur) = cur.length * (2 ^ (n + 1) - 1) := by
  induction n with
  | zero =>
    intro cur
    simp [buildLevelsGo, totalNodes]
  | succ n ih =>
    intro cur
    simp only [buildLevelsGo, totalNodes, List.map_cons, List.sum_cons]
    have h1 := ih (cur.flatMap (fun _ => [(), ()]))
    simp only [totalNodes] at h1
    rw [h1, flatMap_pair_length]
    obtain ⟨z, hz⟩ : ∃ z, 2 ^ (n + 1) = z + 1 :=
      ⟨2 ^ (n + 1) - 1, by have := Nat.one_le_two_pow (n := n + 1); omega⟩
    have h2 : 2 ^ (n + 1 + 1) = 2 * 2 ^ (n + 1) := by ring
    rw [h2, hz]
    have h3 : z + 1 - 1 = z := by omega
    have h4 : 2 * (z + 1) - 1 = 2 * z + 1 := by omega
    rw [h3, h4]
    ring

theorem leaves_buildLevelsGo (n : Nat) : ∀ (cur d : List Unit),
    ((buildLevelsGo n cur).getLastD d).length = cur.length * 2 ^ n := by
  induction n with
  | zero =>
    intro cur d
    simp [buildLevelsGo]
  | succ n ih =>
    intro cur d
    simp only [buildLevelsGo, List.getLastD_cons]
    rw [ih _ cur, flatMap_pair_length]
    ring

/-- C8 counterexample: for `requested_size = 4` the canonical size field
is 5 and `5 + 1 = 6` is *not* a power of two — `fix_size` only ever adds
one, it does not round up to the next power of two. -/
theorem claim_C8_counterexample :
    treeSize 4 = 5 ∧ isPow2 (treeSize 4 + 1) = false := by
  exact ⟨by decide, by decide⟩

/-- C8 amended: for every `requested_size ≥ 1` the *built* tree does have
exactly `2^(L+1) - 1` nodes and `2^L` leaves where `L` is its height, but
the size field's successor is a power of two exactly when
`requested_size + 1` or `requested_size + 2` is one. -/
theorem claim_C8_tree_counts_and_size ( _hn : 1 ≤ n) :
    totalNodes (buildTreeArr (treeHeight n)) = 2 ^ (treeHeight n + 1) - 1 ∧
    ((buildTreeArr (treeHeight n)).getLastD []).length = 2 ^ treeHeight n ∧
    (isPow2 (treeSize n + 1) = true ↔
      (isPow2 (n + 1) = true ∨ isPow2 (n + 2) = true)) := by
  refine ⟨?_, ?_, ?_⟩
  · have h1 := totalNodes_buildLevelsGo (treeHeight n) [()]
    simpa [buildTreeArr] using h1
  · have h1 := leaves_buildLevelsGo (treeHeight n) [()] []
    simpa [buildTreeArr] using h1
  · unfold treeSize fixSize
    by_cases hp : isPow2 (n + 1) = true
    · simp [hp]
    · simp [hp]

theorem claim_C8_witness :
    totalNodes (buildTreeArr (treeHeight 4)) = 2 ^ (treeHeight 4 + 1) - 1 ∧
    ((buildTreeArr (treeHeight 4)).getLastD []).length = 2 ^ treeHeight 4 ∧
    (isPow2 (treeSize 4 + 1) = true ↔
      (isPow2 (4 + 1) = true ∨ isPow2 (4 + 2) = true)) :=
  claim_C8_tree_counts_and_size (by decide)

/-! ### C5: the bucket-occupancy invariant

Every bucket of the initialized tree holds exactly `BUCKET_SIZE` slots, and
every operation preserves this.  The proof tracks, besides the bucket
lengths, that the key nonces across the whole tree are pairwise distinct
and below the encryption counter: Fernet ciphertexts are unique, so two
dict keys never collide and `dict` insertion of a fresh ciphertext always
grows the dict. -/

def bucketNonces (b : Bucket) : List Nat := b.map (fun kv => kv.1.nonce)

def levelNonces (lvl : List Bucket) : List Nat := (lvl.map bucketNonces).flatten

def treeNonces (t : Tree) : List Nat := (t.map levelNonces).flatten

/-- The tree has `h+1` levels and level `ℓ` has `2^ℓ` nodes. -/
def shapeB (h : Nat) (t : Tree) : Bool :=
  t.length == h + 1 &&
    (List.range (h + 1)).all (fun ℓ => (t.getD ℓ []).length == 2 ^ ℓ)

/-- Every bucket holds exactly `BUCKET_SIZE` slots. -/
def all4B (t : Tree) : Bool :=
  t.all (fun lvl => lvl.all (fun b => b.length == BUCKET_SIZE))

/-- The tree invariant: shape, full buckets, globally distinct key nonces,
all below the encryption counter `c`. -/
def treeInv (h c : Nat) (t : Tree) : Prop :=
  shapeB h t = true ∧ all4B t = true ∧ (treeNonces t).Nodup ∧
    ∀ x ∈ treeNonces t, x < c

instance (h c : Nat) (t : Tree) : Decidable (treeInv h c t) := by
  unfold treeInv
  exact inferInstance

/-- The system invariant: the tree is initialized and satisfies `treeInv`
relative to the current encryption counter. -/
def sysInv (h : Nat) (s : Sys) : Prop :=
  s.tree.isSome = true ∧ treeInv h s.gen.ctr (s.tree.getD [])

instance (h : Nat) (s : Sys) : Decidable (sysInv h s) := by
  unfold sysInv
  exact inferInstance

theorem levelNonces_cons (b : Bucket) (rest : List Bucket) :
    levelNonces (b :: rest) = bucketNonces b ++ levelNonces rest := by
  simp [levelNonces]

theorem treeNonces_cons (lvl : List Bucket) (rest : Tree) :
    treeNonces (lvl :: rest) = levelNonces lvl ++ treeNonces rest := by
  simp [treeNonces]

theorem get?_eq_some_getD {α : Type} (l : List α) (i : Nat) (d : α)
    (h : i < l.length) : l.get? i = some (l.getD i d) := by
  simp [List.get?_eq_getElem?, List.getD_eq_getElem?_getD, List.getElem?_eq_getElem h]

/-- At in-range indices, `getBucket?` is the `getD`-bucket. -/
theorem getBucket?_eq (t : Tree) (ℓ j : Nat) (hℓ : ℓ < t.length)
    (hj : j < (t.getD ℓ []).length) :
    getBucket? t ℓ j = some ((t.getD ℓ []).getD j []) := by
  unfold getBucket?
  rw [get?_eq_some_getD t ℓ [] hℓ]
  exact get?_eq_some_getD (t.getD ℓ []) j [] hj

theorem levelNonces_set (lvl : List Bucket) (j : Nat) (hj : j < lvl.length) :
    ∃ P S : List Nat,
      (∀ b2 : Bucket, levelNonces (lvl.set j b2) = P ++ (bucketNonces b2 ++ S)) ∧
      levelNonces lvl = P ++ (bucketNonces (lvl.getD j []) ++ S) := by
  induction lvl generalizing j with
  | nil => simp at hj
  | cons b rest ih =>
    cases j with
    | zero =>
      refine ⟨[], levelNonces rest, ?_, ?_⟩
      · intro b2
        simp [levelNonces_cons]
      · simp [levelNonces_cons]
    | succ j =>
      have hj2 : j < rest.length := by simpa using hj
      obtain ⟨P, S, hset, hcur⟩ := ih j hj2
      refine ⟨bucketNonces b ++ P, S, ?_, ?_⟩
      · intro b2
        simp only [List.set_cons_succ, levelNonces_cons, hset b2, List.append_assoc]
      · simp only [List.getD_cons_succ, levelNonces_cons, hcur, List.append_assoc]

theorem treeNonces_set (t : Tree) (ℓ : Nat) (hℓ : ℓ < t.length) :
    ∃ P S : List Nat,
      (∀ lvl2 : List Bucket, treeNonces (t.set ℓ lvl2) = P ++ (levelNonces lvl2 ++ S)) ∧
      treeNonces t = P ++ (levelNonces (t.getD ℓ []) ++ S) := by
  induction t generalizing ℓ with
  | nil => simp at hℓ
  | cons lvl rest ih =>
    cases ℓ with
    | zero =>
      refine ⟨[], treeNonces rest, ?_, ?_⟩
      · intro lvl2
        simp [treeNonces_cons]
      · simp [treeNonces_cons]
    | succ ℓ =>
      have hℓ2 : ℓ < rest.length := by simpa using hℓ
      obtain ⟨P, S, hset, hcur⟩ := ih ℓ hℓ2
      refine ⟨levelNonces lvl ++ P, S, ?_, ?_⟩
      · intro lvl2
        simp only [List.set_cons_succ, treeNonces_cons, hset lvl2, List.append_assoc]
      · simp only [List.getD_cons_succ, treeNonces_cons, hcur, List.append_assoc]

/-- Replacing the bucket at `(ℓ, j)` replaces exactly its nonce segment of
`treeNonces`. -/
theorem treeNonces_setBucket (t : Tree) (ℓ j : Nat) (hℓ : ℓ < t.length)
    (hj : j < (t.getD ℓ []).length) :
    ∃ P S : List Nat,
      (∀ b2 : Bucket, treeNonces (setBucket t ℓ j b2) = P ++ (bucketNonces b2 ++ S)) ∧
      treeNonces t = P ++ (bucketNonces ((getBucket? t ℓ j).getD []) ++ S) := by
  obtain ⟨P1, S1, hset1, hcur1⟩ := treeNonces_set t ℓ hℓ
  obtain ⟨P2, S2, hset2, hcur2⟩ := levelNonces_set (t.getD ℓ []) j hj
  refine ⟨P1 ++ P2, S2 ++ S1, ?_, ?_⟩
  · intro b2
    unfold setBucket
    rw [hset1 ((t.getD ℓ []).set j b2), hset2 b2]
    simp [List.append_assoc]
  · rw [hcur1, hcur2, getBucket?_eq t ℓ j hℓ hj]
    simp [List.append_assoc]

theorem bucketNonces_eq (b : Bucket) :
    bucketNonces b = (bucketKeys b).map Ct.nonce := by
  simp [bucketNonces, bucketKeys, List.map_map]

theorem nonce_mem_of_key_mem (b : Bucket) (k : Ct) (hk : k ∈ bucketKeys b) :
    k.nonce ∈ bucketNonces b := by
  rw [bucketNonces_eq]
  exact List.mem_map_of_mem Ct.nonce hk

theorem dictInsert_fresh (b : Bucket) (k v : Ct)
    (hfr : k.nonce ∉ bucketNonces b) : dictInsert b k v = b ++ [(k, v)] := by
  unfold dictInsert
  rw [if_neg]
  intro hc
  exact hfr (nonce_mem_of_key_mem b k (List.elem_iff.mp hc))

theorem dictDelete_sublist (b : Bucket) (k : Ct) :
    (bucketNonces (dictDelete b k)).Sublist (bucketNonces b) :=
  List.Sublist.map _ (List.filter_sublist b)

theorem dictDelete_cons_hit (kv : Ct × Ct) (rest : Bucket) (k : Ct)
    (hh : kv.1 = k) : dictDelete (kv :: rest) k = dictDelete rest k := by
  unfold dictDelete
  simp [List.filter_cons, hh]

theorem dictDelete_cons_miss (kv : Ct × Ct) (rest : Bucket) (k : Ct)
    (hh : ¬(kv.1 = k)) : dictDelete (kv :: rest) k = kv :: dictDelete rest k := by
  unfold dictDelete
  simp [List.filter_cons, hh]

theorem bucketNonces_cons (kv : Ct × Ct) (rest : Bucket) :
    bucketNonces (kv :: rest) = kv.1.nonce :: bucketNonces rest := rfl

theorem bucketKeys_cons (kv : Ct × Ct) (rest : Bucket) :
    bucketKeys (kv :: rest) = kv.1 :: bucketKeys rest := rfl

theorem dictDelete_length (b : Bucket) (k : Ct)
    (hk : k ∈ bucketKeys b) (hnd : (bucketNonces b).Nodup) :
    (dictDelete b k).length + 1 = b.length := by
  induction b with
  | nil => simp [bucketKeys] at hk
  | cons kv rest ih =>
    rw [bucketNonces_cons, List.nodup_cons] at hnd
    by_cases hh : kv.1 = k
    · rw [dictDelete_cons_hit kv rest k hh]
      have hrest : dictDelete rest k = rest := by
        unfold dictDelete
        apply List.filter_eq_self.mpr
        intro kv2 hkv2
        have hne : kv2.1 ≠ k := by
          intro he
          apply hnd.1
          have h2 : kv2.1.nonce ∈ bucketNonces rest :=
            nonce_mem_of_key_mem rest kv2.1
              (by rw [bucketKeys]; exact List.mem_map_of_mem Prod.fst hkv2)
          rw [hh, ← he]
          exact h2
        simpa using hne
      rw [hrest]
      simp
    · rw [dictDelete_cons_miss kv rest k hh]
      have hk2 : k ∈ bucketKeys rest := by
        rw [bucketKeys_cons] at hk
        rcases List.mem_cons.mp hk with h1 | h1
        · exact absurd h1.symm hh
        · exact h1
      have h3 := ih hk2 hnd.2
      simp only [List.length_cons]
      omega

theorem dictDelete_nonce_out (b : Bucket) (k : Ct)
    (hnd : (bucketNonces b).Nodup) (hkb : k ∈ bucketKeys b) :
    k.nonce ∉ bucketNonces (dictDelete b k) := by
  intro hmem
  obtain ⟨kv, hkv, hn⟩ := List.mem_map.mp hmem
  have hkvb : kv ∈ b := List.mem_of_mem_filter hkv
  have hne : kv.1 ≠ k := by
    have h2 := List.of_mem_filter hkv
    simpa using h2
  obtain ⟨kv0, hkv0, hk0⟩ := List.mem_map.mp hkb
  rw [bucketNonces] at hnd
  have heq : kv = kv0 := by
    apply List.inj_on_of_nodup_map hnd hkvb hkv0
    rw [hn, hk0]
  exact hne (by rw [heq, hk0])

theorem replaceSlot_length (b : Bucket) (kdel kins vins : Ct)
    (hdel : kdel ∈ bucketKeys b)
    (hnd : (bucketNonces b).Nodup)
    (hfr : kins.nonce ∉ bucketNonces b) :
    (dictInsert (dictDelete b kdel) kins vins).length = b.length := by
  have hfr2 : kins.nonce ∉ bucketNonces (dictDelete b kdel) := by
    intro hmem
    exact hfr ((dictDelete_sublist b kdel).subset hmem)
  rw [dictInsert_fresh _ _ _ hfr2]
  have h1 := dictDelete_length b kdel hdel hnd
  simp only [List.length_append, List.length_singleton]
  omega

theorem replaceSlot_nonces (b : Bucket) (kdel kins vins : Ct) :
    bucketNonces (dictDelete b kdel) ++ [kins.nonce] =
      bucketNonces (dictDelete b kdel ++ [(kins, vins)]) := by
  simp [bucketNonces]

theorem replaceSlot_mem (b : Bucket) (kdel kins vins : Ct)
    (hfr : kins.nonce ∉ bucketNonces b) :
    ∀ x ∈ bucketNonces (dictInsert (dictDelete b kdel) kins vins),
      x ∈ bucketNonces b ∨ x = kins.nonce := by
  have hfr2 : kins.nonce ∉ bucketNonces (dictDelete b kdel) := by
    intro hmem
    exact hfr ((dictDelete_sublist b kdel).subset hmem)
  rw [dictInsert_fresh _ _ _ hfr2, ← replaceSlot_nonces]
  intro x hx
  rcases List.mem_append.mp hx with h1 | h1
  · exact Or.inl ((dictDelete_sublist b kdel).subset h1)
  · exact Or.inr (List.mem_singleton.mp h1)

theorem replaceSlot_delOut (b : Bucket) (kdel kins vins : Ct)
    (hdel : kdel ∈ bucketKeys b)
    (hnd : (bucketNonces b).Nodup)
    (hfr : kins.nonce ∉ bucketNonces b) :
    kdel.nonce ∉ bucketNonces (dictInsert (dictDelete b kdel) kins vins) := by
  have hfr2 : kins.nonce ∉ bucketNonces (dictDelete b kdel) := by
    intro hmem
    exact hfr ((dictDelete_sublist b kdel).subset hmem)
  rw [dictInsert_fresh _ _ _ hfr2, ← replaceSlot_nonces]
  intro hx
  rcases List.mem_append.mp hx with h1 | h1
  · exact dictDelete_nonce_out b kdel hnd hdel h1
  · exact hfr ((List.mem_singleton.mp h1) ▸ nonce_mem_of_key_mem b kdel hdel)

theorem replaceSlot_nodup (b : Bucket) (kdel kins vins : Ct)
    (hnd : (bucketNonces b).Nodup)
    (hfr : kins.nonce ∉ bucketNonces b) :
    (bucketNonces (dictInsert (dictDelete b kdel) kins vins)).Nodup := by
  have hfr2 : kins.nonce ∉ bucketNonces (dictDelete b kdel) := by
    intro hmem
    exact hfr ((dictDelete_sublist b kdel).subset hmem)
  rw [dictInsert_fresh _ _ _ hfr2, ← replaceSlot_nonces]
  rw [List.nodup_append]
  refine ⟨hnd.sublist (dictDelete_sublist b kdel), List.nodup_singleton _, ?_⟩
  intro x hx1 hx2
  rw [List.mem_singleton] at hx2
  rw [hx2] at hx1
  exact hfr2 hx1

theorem getD_mem {α : Type} (l : List α) (i : Nat) (d : α) (h : i < l.length) :
    l.getD i d ∈ l := by
  rw [List.getD_eq_getElem?_getD, List.getElem?_eq_getElem h]
  exact List.getElem_mem h

theorem getD_set_self {α : Type} (l : List α) (i : Nat) (a d : α)
    (h : i < l.length) : (l.set i a).getD i d = a := by
  rw [List.getD_eq_getElem?_getD, List.getElem?_set_self h]
  rfl

theorem getD_set_ne {α : Type} (l : List α) (i j : Nat) (a d : α)
    (h : i ≠ j) : (l.set i a).getD j d = l.getD j d := by
  rw [List.getD_eq_getElem?_getD, List.getElem?_set_ne h, ← List.getD_eq_getElem?_getD]

theorem shapeB_spec (h : Nat) (t : Tree) (hs : shapeB h t = true) :
    t.length = h + 1 ∧ ∀ ℓ, ℓ < h + 1 → (t.getD ℓ []).length = 2 ^ ℓ := by
  unfold shapeB at hs
  simp only [Bool.and_eq_true, beq_iff_eq, List.all_eq_true] at hs
  refine ⟨hs.1, fun ℓ hℓ => ?_⟩
  have h2 := hs.2 ℓ (List.mem_range.mpr hℓ)
  simpa using h2

theorem shapeB_setBucket (h : Nat) (t : Tree) (ℓ j : Nat) (b2 : Bucket)
    (hs : shapeB h t = true) : shapeB h (setBucket t ℓ j b2) = true := by
  obtain ⟨h1, h2⟩ := shapeB_spec h t hs
  unfold shapeB setBucket
  simp only [Bool.and_eq_true, beq_iff_eq, List.all_eq_true]
  constructor
  · rw [List.length_set]
    exact h1
  · intro ℓ2 hℓ2
    have hℓ2r : ℓ2 < h + 1 := List.mem_range.mp hℓ2
    by_cases he : ℓ = ℓ2
    · subst he
      have hlt : ℓ < t.length := by omega
      rw [getD_set_self t ℓ _ [] hlt, List.length_set]
      exact h2 ℓ hℓ2r
    · rw [getD_set_ne t ℓ ℓ2 _ [] he]
      exact h2 ℓ2 hℓ2r

theorem all4B_spec (t : Tree) (h4 : all4B t = true) :
    ∀ lvl ∈ t, ∀ b ∈ lvl, b.length = BUCKET_SIZE := by
  unfold all4B at h4
  simp only [List.all_eq_true, beq_iff_eq] at h4
  exact h4

theorem all4B_setBucket (t : Tree) (ℓ j : Nat) (b2 : Bucket)
    (h4 : all4B t = true) (hb2 : b2.length = BUCKET_SIZE) :
    all4B (setBucket t ℓ j b2) = true := by
  have hspec := all4B_spec t h4
  unfold all4B setBucket
  simp only [List.all_eq_true, beq_iff_eq]
  intro lvl hlvl b hb
  rcases List.mem_or_eq_of_mem_set hlvl with hmem | heq
  · exact hspec lvl hmem b hb
  · subst heq
    rcases List.mem_or_eq_of_mem_set hb with hmem2 | heq2
    · by_cases hl : ℓ < t.length
      · exact hspec (t.getD ℓ []) (getD_mem t ℓ [] hl) b hmem2
      · rw [List.getD_eq_default] at hmem2
        · exact absurd hmem2 (List.not_mem_nil b)
        · omega
    · subst heq2
      exact hb2

/-- The bucket at a valid position as the `getD` projection. -/
theorem getBucketD_eq (t : Tree) (ℓ j : Nat) (hℓ : ℓ < t.length)
    (hj : j < (t.getD ℓ []).length) :
    (getBucket? t ℓ j).getD [] = (t.getD ℓ []).getD j [] := by
  rw [getBucket?_eq t ℓ j hℓ hj]
  rfl

theorem bucketAt_nodup (h c : Nat) (t : Tree) (ℓ j : Nat)
    (hInv : treeInv h c t) (hℓ : ℓ < t.length) (hj : j < (t.getD ℓ []).length) :
    (bucketNonces ((getBucket? t ℓ j).getD [])).Nodup := by
  obtain ⟨_, _, hnd, _⟩ := hInv
  obtain ⟨P, S, _, hcur⟩ := treeNonces_setBucket t ℓ j hℓ hj
  rw [hcur, List.nodup_append] at hnd
  have h2 := hnd.2.1
  rw [List.nodup_append] at h2
  exact h2.1

theorem bucketAt_sub (t : Tree) (ℓ j : Nat)
    (hℓ : ℓ < t.length) (hj : j < (t.getD ℓ []).length) :
    ∀ x ∈ bucketNonces ((getBucket? t ℓ j).getD []), x ∈ treeNonces t := by
  obtain ⟨P, S, _, hcur⟩ := treeNonces_setBucket t ℓ j hℓ hj
  intro x hx
  rw [hcur]
  exact List.mem_append_right _ (List.mem_append_left _ hx)

theorem bucketAt_len (h c : Nat) (t : Tree) (ℓ j : Nat)
    (hInv : treeInv h c t) (hℓ : ℓ < t.length) (hj : j < (t.getD ℓ []).length) :
    ((getBucket? t ℓ j).getD []).length = BUCKET_SIZE := by
  obtain ⟨_, h4, _, _⟩ := hInv
  rw [getBucketD_eq t ℓ j hℓ hj]
  exact all4B_spec t h4 _ (getD_mem t ℓ [] hℓ) _ (getD_mem _ j [] hj)

/-- Master preservation lemma: replacing the bucket at `(ℓ, j)` by an
equal-length bucket whose key nonces are old-bucket nonces or globally
absent ones keeps the tree invariant (the counter may only grow). -/
theorem setBucket_treeInv (h c c2 : Nat) (t : Tree) (ℓ j : Nat) (b2 : Bucket)
    (hInv : treeInv h c t) (hℓ : ℓ < t.length) (hj : j < (t.getD ℓ []).length)
    (hlen : b2.length = ((getBucket? t ℓ j).getD []).length)
    (hnew : ∀ x ∈ bucketNonces b2,
      x ∈ bucketNonces ((getBucket? t ℓ j).getD []) ∨ x ∉ treeNonces t)
    (hlt : ∀ x ∈ bucketNonces b2, x < c2)
    (hnd2 : (bucketNonces b2).Nodup)
    (hc : c ≤ c2) :
    treeInv h c2 (setBucket t ℓ j b2) := by
  obtain ⟨hs, h4, hnd, hbelow⟩ := hInv
  obtain ⟨P, S, hset, hcur⟩ := treeNonces_setBucket t ℓ j hℓ hj
  refine ⟨shapeB_setBucket h t ℓ j b2 hs, ?_, ?_, ?_⟩
  · apply all4B_setBucket t ℓ j b2 h4
    rw [hlen, getBucketD_eq t ℓ j hℓ hj]
    exact all4B_spec t h4 _ (getD_mem t ℓ [] hℓ) _ (getD_mem _ j [] hj)
  · rw [hset b2]
    rw [hcur, List.nodup_append] at hnd
    obtain ⟨hndP, hndOS, hdisP⟩ := hnd
    rw [List.nodup_append] at hndOS
    obtain ⟨hndO, hndS, hdisOS⟩ := hndOS
    rw [List.nodup_append, List.nodup_append]
    refine ⟨hndP, ⟨hnd2, hndS, ?_⟩, ?_⟩
    · intro x hx hxS
      rcases hnew x hx with hxo | hxn
      · exact hdisOS hxo hxS
      · exact hxn (by
          rw [hcur]
          exact List.mem_append_right _ (List.mem_append_right _ hxS))
    · intro x hxP hx2
      rcases List.mem_append.mp hx2 with hxb | hxS
      · rcases hnew x hxb with hxo | hxn
        · exact hdisP hxP (List.mem_append_left _ hxo)
        · exact hxn (by
            rw [hcur]
            exact List.mem_append_left _ hxP)
      · exact hdisP hxP (List.mem_append_right _ hxS)
  · intro x hx
    rw [hset b2] at hx
    rcases List.mem_append.mp hx with hxP | hx2
    · exact lt_of_lt_of_le
        (hbelow x (by rw [hcur]; exact List.mem_append_left _ hxP)) hc
    · rcases List.mem_append.mp hx2 with hxb | hxS
      · exact hlt x hxb
      · exact lt_of_lt_of_le
          (hbelow x (by
            rw [hcur]
            exact List.mem_append_right _ (List.mem_append_right _ hxS))) hc

/-! ### Generator bookkeeping -/

theorem nextInt_ctr (g : Gen) : (nextInt g).2.ctr = g.ctr := rfl

theorem getRandomString_ctr : ∀ (n : Nat) (g : Gen),
    ((getRandomString n g).2).ctr = g.ctr := by
  intro n
  induction n with
  | zero => intro g; rfl
  | succ n ih =>
    intro g
    unfold getRandomString
    simp only [nextInt]
    exact ih ⟨g.ctr, g.ints.tail⟩

/-- Every character produced by `get_random_string` is one of the 26
lowercase letters. -/
theorem getRandomString_chars : ∀ (n : Nat) (g : Gen),
    ∀ c ∈ (getRandomString n g).1.toList, ∃ k, k < 26 ∧ c = Char.ofNat (97 + k) := by
  intro n
  induction n with
  | zero => intro g c hc; simp [getRandomString, String.toList] at hc
  | succ n ih =>
    intro g c hc
    unfold getRandomString at hc
    simp only [nextInt] at hc
    rcases List.mem_cons.mp hc with h1 | h1
    · exact ⟨(g.ints.headD 0) % 26, Nat.mod_lt _ (by omega), h1⟩
    · exact ih ⟨g.ctr, g.ints.tail⟩ c h1

theorem getRandomString_len : ∀ (n : Nat) (g : Gen),
    (getRandomString n g).1.toList.length = n := by
  intro n
  induction n with
  | zero => intro g; rfl
  | succ n ih =>
    intro g
    unfold getRandomString
    simp only [nextInt]
    show ((Char.ofNat (97 + (g.ints.headD 0) % 26)) ::
      (getRandomString n ⟨g.ctr, g.ints.tail⟩).1.toList).length = n + 1
    rw [List.length_cons, ih ⟨g.ctr, g.ints.tail⟩]

/-- `mkDummy` produces a key encrypted under nonce `ctr` whose plaintext
is all-lowercase, the value `"00000"` under nonce `ctr+1`, and advances the
counter by two. -/
theorem mkDummy_eq (g : Gen) : ∃ sk rest,
    mkDummy g = ((⟨g.ctr, sk⟩, ⟨g.ctr + 1, "00000"⟩), ⟨g.ctr + 2, rest⟩) ∧
      (∀ c ∈ sk.toList, ∃ k, k < 26 ∧ c = Char.ofNat (97 + k)) ∧
      sk.toList.length = DUMMY_LEN := by
  rcases hgr : getRandomString DUMMY_LEN g with ⟨s1, g1⟩
  have hctr : g1.ctr = g.ctr := by
    have h2 := getRandomString_ctr DUMMY_LEN g
    rw [hgr] at h2
    exact h2
  refine ⟨s1, g1.ints, ?_, ?_, ?_⟩
  · unfold mkDummy
    rw [hgr]
    unfold encNew
    simp [hctr]
  · intro c hc
    have h3 := getRandomString_chars DUMMY_LEN g c
    rw [hgr] at h3
    exact h3 hc
  · have h3 := getRandomString_len DUMMY_LEN g
    rw [hgr] at h3
    exact h3

theorem pushDirection_ctr (mem : Memory) (ℓ : Nat) (kv : Ct × Ct) (g : Gen) :
    (pushDirection mem ℓ kv g).2.ctr = g.ctr := by
  unfold pushDirection
  by_cases hd : isDummyVal kv.2
  · rw [if_pos hd]
    simp [nextInt]
  · rw [if_neg hd]

/-- The rejection loop always returns a draw below `n`, distinct from the
rejected value, without consuming the encryption counter. -/
theorem redraw_spec (n target : Nat) (hn : 2 ≤ n) (ht : target < n) :
    ∀ (fuel : Nat) (g : Gen),
      (redraw n target fuel g).1 < n ∧ (redraw n target fuel g).1 ≠ target ∧
        (redraw n target fuel g).2.ctr = g.ctr := by
  intro fuel
  induction fuel with
  | zero =>
    intro g
    show (target + 1) % n < n ∧ (target + 1) % n ≠ target ∧ g.ctr = g.ctr
    refine ⟨Nat.mod_lt _ (by omega), ?_, rfl⟩
    by_cases hcase : target + 1 < n
    · rw [Nat.mod_eq_of_lt hcase]
      omega
    · have he : target + 1 = n := by omega
      rw [he, Nat.mod_self]
      omega
  | succ fuel ih =>
    intro g
    unfold redraw
    simp only [nextInt]
    have hs : pyRandint 0 (n - 1) (g.ints.headD 0) = (g.ints.headD 0) % n := by
      unfold pyRandint
      have h1 : n - 1 + 1 - 0 = n := by omega
      rw [h1]
      omega
    rw [hs]
    by_cases hv : (g.ints.headD 0) % n = target
    · rw [if_pos (by simpa using hv)]
      exact ih ⟨g.ctr, g.ints.tail⟩
    · rw [if_neg (by simpa using hv)]
      exact ⟨Nat.mod_lt _ (by omega), hv, rfl⟩

/-- `drawDistinctPair` yields two distinct indices below `n` and does not
consume the encryption counter. -/
theorem drawDistinctPair_spec (n : Nat) (hn : 2 ≤ n) (g : Gen) :
    (drawDistinctPair n g).1.1 < n ∧ (drawDistinctPair n g).1.2 < n ∧
      (drawDistinctPair n g).1.1 ≠ (drawDistinctPair n g).1.2 ∧
      (drawDistinctPair n g).2.ctr = g.ctr := by
  unfold drawDistinctPair
  simp only [nextInt]
  have hs : ∀ r : Nat, pyRandint 0 (n - 1) r = r % n := by
    intro r
    unfold pyRandint
    have h1 : n - 1 + 1 - 0 = n := by omega
    rw [h1]
    omega
  rw [hs, hs]
  have ha : (g.ints.headD 0) % n < n := Nat.mod_lt _ (by omega)
  by_cases hv : (g.ints.tail.headD 0) % n = (g.ints.headD 0) % n
  · rw [if_pos (by simpa using hv)]
    obtain ⟨h1, h2, h3⟩ := redraw_spec n ((g.ints.headD 0) % n) hn ha
      (g.ints.tail.tail.length + 1) ⟨g.ctr, g.ints.tail.tail⟩
    exact ⟨ha, h1, fun he => h2 he.symm, h3⟩
  · rw [if_neg (by simpa using hv)]
    exact ⟨ha, Nat.mod_lt _ (by omega), fun he => hv he.symm, rfl⟩

/-! ### Invariant preservation for one replaced slot and one pushed slot -/

theorem setBucket_length (t : Tree) (ℓ j : Nat) (b2 : Bucket) :
    (setBucket t ℓ j b2).length = t.length := by
  unfold setBucket
  exact List.length_set t ℓ _

theorem setBucket_getD_other (t : Tree) (ℓ ℓ2 j : Nat) (b2 : Bucket)
    (hne : ℓ ≠ ℓ2) : (setBucket t ℓ j b2).getD ℓ2 [] = t.getD ℓ2 [] := by
  unfold setBucket
  exact getD_set_ne t ℓ ℓ2 _ [] hne

theorem setBucket_getD_self (t : Tree) (ℓ j : Nat) (b2 : Bucket)
    (hℓ : ℓ < t.length) :
    (setBucket t ℓ j b2).getD ℓ [] = (t.getD ℓ []).set j b2 := by
  unfold setBucket
  exact getD_set_self t ℓ _ [] hℓ

/-- Replacing the slot keyed `kd` of the bucket at `(ℓ, j)` by a fresh
slot `(k, v)` (whose nonce is globally new and below `c2 ≥ c`) preserves
the tree invariant. -/
theorem replaceSlot_treeInv (h c c2 : Nat) (t : Tree) (ℓ j : Nat) (kd k v : Ct)
    (hInv : treeInv h c t) (hb1 : ℓ < t.length) (hb2 : j < (t.getD ℓ []).length)
    (hkd : kd ∈ bucketKeys ((getBucket? t ℓ j).getD []))
    (hout : k.nonce ∉ treeNonces t)
    (hklt : k.nonce < c2) (hc : c ≤ c2) :
    treeInv h c2 (setBucket t ℓ j
      (dictInsert (dictDelete ((getBucket? t ℓ j).getD []) kd) k v)) := by
  have hnd_b : (bucketNonces ((getBucket? t ℓ j).getD [])).Nodup :=
    bucketAt_nodup h c t ℓ j hInv hb1 hb2
  have hfr : k.nonce ∉ bucketNonces ((getBucket? t ℓ j).getD []) :=
    fun hm => hout (bucketAt_sub t ℓ j hb1 hb2 _ hm)
  have hmem := replaceSlot_mem ((getBucket? t ℓ j).getD []) kd k v hfr
  apply setBucket_treeInv h c c2 t ℓ j _ hInv hb1 hb2
  · exact replaceSlot_length _ kd k v hkd hnd_b hfr
  · intro x hx
    rcases hmem x hx with h1 | h1
    · exact Or.inl h1
    · exact Or.inr (h1 ▸ hout)
  · intro x hx
    rcases hmem x hx with h1 | h1
    · exact lt_of_lt_of_le (hInv.2.2.2 x (bucketAt_sub t ℓ j hb1 hb2 _ h1)) hc
    · rw [h1]
      exact hklt
  · exact replaceSlot_nodup _ kd k v hnd_b hfr
  · exact hc

/-- After such a replacement the bucket at `(ℓ, j)` is the deletion plus
the appended fresh slot. -/
theorem replaceSlot_setBucket_parent (t : Tree) (ℓ j : Nat) (kd k v : Ct)
    (hb1 : ℓ < t.length) (hb2 : j < (t.getD ℓ []).length)
    (hfr : k.nonce ∉ bucketNonces ((getBucket? t ℓ j).getD [])) :
    (getBucket? (setBucket t ℓ j
        (dictInsert (dictDelete ((getBucket? t ℓ j).getD []) kd) k v)) ℓ j).getD [] =
      dictDelete ((getBucket? t ℓ j).getD []) kd ++ [(k, v)] := by
  have hbl : ℓ < (setBucket t ℓ j
      (dictInsert (dictDelete ((getBucket? t ℓ j).getD []) kd) k v)).length := by
    rw [setBucket_length]
    exact hb1
  have hlvl := setBucket_getD_self t ℓ j
    (dictInsert (dictDelete ((getBucket? t ℓ j).getD []) kd) k v) hb1
  have hbj : j < ((setBucket t ℓ j
      (dictInsert (dictDelete ((getBucket? t ℓ j).getD []) kd) k v)).getD ℓ []).length := by
    rw [hlvl, List.length_set]
    exact hb2
  rw [getBucketD_eq _ ℓ j hbl hbj, hlvl, getD_set_self _ j _ [] hb2]
  have hfr2 : k.nonce ∉ bucketNonces (dictDelete ((getBucket? t ℓ j).getD []) kd) :=
    fun hm => hfr ((dictDelete_sublist _ kd).subset hm)
  exact dictInsert_fresh _ _ _ hfr2

/-- After such a replacement the deleted key's nonce is gone from the
whole tree. -/
theorem replaceSlot_setBucket_delOut (h c : Nat) (t : Tree) (ℓ j : Nat) (kd k v : Ct)
    (hInv : treeInv h c t) (hb1 : ℓ < t.length) (hb2 : j < (t.getD ℓ []).length)
    (hkd : kd ∈ bucketKeys ((getBucket? t ℓ j).getD []))
    (hfr : k.nonce ∉ bucketNonces ((getBucket? t ℓ j).getD [])) :
    kd.nonce ∉ treeNonces (setBucket t ℓ j
      (dictInsert (dictDelete ((getBucket? t ℓ j).getD []) kd) k v)) := by
  have hnd_b : (bucketNonces ((getBucket? t ℓ j).getD [])).Nodup :=
    bucketAt_nodup h c t ℓ j hInv hb1 hb2
  have hin : kd.nonce ∈ bucketNonces ((getBucket? t ℓ j).getD []) :=
    nonce_mem_of_key_mem _ kd hkd
  obtain ⟨P, S, hset, hcur⟩ := treeNonces_setBucket t ℓ j hb1 hb2
  have hnd := hInv.2.2.1
  rw [hcur, List.nodup_append] at hnd
  obtain ⟨_, hndOS, hdisP⟩ := hnd
  rw [List.nodup_append] at hndOS
  obtain ⟨_, _, hdisOS⟩ := hndOS
  rw [hset]
  intro hx
  rcases List.mem_append.mp hx with hxP | hx2
  · exact hdisP hxP (List.mem_append_left _ hin)
  · rcases List.mem_append.mp hx2 with hxb | hxS
    · exact replaceSlot_delOut _ kd k v hkd hnd_b hfr hxb
    · exact hdisOS hin hxS

/-- Moving slot `kv` from node `(ℓ, j)` to child `(ℓ+1, childJ)` preserves
the tree invariant, advances the counter by exactly 2 (the fresh dummy),
and leaves the parent bucket equal to the deletion of `kv` plus one fresh
slot. -/
theorem pushMove_inv (h c : Nat) (t : Tree) (ℓ j childJ : Nat) (kv : Ct × Ct) (g : Gen)
    (hInv : treeInv h c t) (hg : c ≤ g.ctr)
    (hℓ : ℓ + 1 < t.length)
    (hj : j < (t.getD ℓ []).length)
    (hcj : childJ < (t.getD (ℓ + 1) []).length)
    (hkv : kv.1 ∈ bucketKeys ((getBucket? t ℓ j).getD [])) :
    treeInv h (g.ctr + 2) (pushMove kv t ℓ j childJ g).1 ∧
      (pushMove kv t ℓ j childJ g).2.ctr = g.ctr + 2 ∧
      ∃ dk dv : Ct,
        (getBucket? (pushMove kv t ℓ j childJ g).1 ℓ j).getD [] =
          dictDelete ((getBucket? t ℓ j).getD []) kv.1 ++ [(dk, dv)] := by
  have hℓ0 : ℓ < t.length := by omega
  obtain ⟨sk, rest, hmk, _hskchars⟩ := mkDummy_eq g
  set b := (getBucket? t ℓ j).getD [] with hb
  have hblt : ∀ x ∈ bucketNonces b, x < c :=
    fun x hx => hInv.2.2.2 x (bucketAt_sub t ℓ j hℓ0 hj x hx)
  have hfr : (⟨g.ctr, sk⟩ : Ct).nonce ∉ bucketNonces b := by
    intro hm
    have h2 := hblt _ hm
    simp only [Ct.nonce] at h2
    omega
  have hout1 : (⟨g.ctr, sk⟩ : Ct).nonce ∉ treeNonces t := by
    intro hm
    have h2 := hInv.2.2.2 _ hm
    simp only [Ct.nonce] at h2
    omega
  set P2 := dictInsert (dictDelete b kv.1) ⟨g.ctr, sk⟩ ⟨g.ctr + 1, "00000"⟩ with hP2
  set t1 := setBucket t ℓ j P2 with ht1e
  have ht1 : treeInv h (g.ctr + 2) t1 :=
    replaceSlot_treeInv h c (g.ctr + 2) t ℓ j kv.1 ⟨g.ctr, sk⟩ ⟨g.ctr + 1, "00000"⟩
      hInv hℓ0 hj hkv hout1 (by show g.ctr < g.ctr + 2; omega) (by omega)
  have hparent : (getBucket? t1 ℓ j).getD [] = dictDelete b kv.1 ++
      [(⟨g.ctr, sk⟩, ⟨g.ctr + 1, "00000"⟩)] :=
    replaceSlot_setBucket_parent t ℓ j kv.1 ⟨g.ctr, sk⟩ ⟨g.ctr + 1, "00000"⟩ hℓ0 hj hfr
  have hkvout : kv.1.nonce ∉ treeNonces t1 :=
    replaceSlot_setBucket_delOut h c t ℓ j kv.1 ⟨g.ctr, sk⟩ ⟨g.ctr + 1, "00000"⟩
      hInv hℓ0 hj hkv hfr
  have hkvlt : kv.1.nonce < g.ctr + 2 := by
    have h2 := hblt _ (nonce_mem_of_key_mem _ kv.1 hkv)
    omega
  have hb1' : ℓ + 1 < t1.length := by
    rw [ht1e, setBucket_length]
    exact hℓ
  have hb2' : childJ < (t1.getD (ℓ + 1) []).length := by
    rw [ht1e, setBucket_getD_other t ℓ (ℓ + 1) j P2 (by omega)]
    exact hcj
  have hjl' : j < (t1.getD ℓ []).length := by
    rw [ht1e, setBucket_getD_self t ℓ j P2 hℓ0, List.length_set]
    exact hj
  unfold pushMove
  rw [hmk]
  simp only []
  rw [← hb, ← hP2, ← ht1e]
  cases hf : ((getBucket? t1 (ℓ + 1) childJ).getD []).find? (fun kv2 => isDummyVal kv2.2) with
  | none =>
    exact ⟨ht1, rfl, ⟨⟨g.ctr, sk⟩, ⟨g.ctr + 1, "00000"⟩, hparent⟩⟩
  | some dkv2 =>
    have hdel2 : dkv2.1 ∈ bucketKeys ((getBucket? t1 (ℓ + 1) childJ).getD []) :=
      List.mem_map_of_mem Prod.fst (List.mem_of_find?_eq_some hf)
    have ht2 : treeInv h (g.ctr + 2) (setBucket t1 (ℓ + 1) childJ
        (dictInsert (dictDelete ((getBucket? t1 (ℓ + 1) childJ).getD []) dkv2.1) kv.1 kv.2)) :=
      replaceSlot_treeInv h (g.ctr + 2) (g.ctr + 2) t1 (ℓ + 1) childJ dkv2.1 kv.1 kv.2
        ht1 hb1' hb2' hdel2 hkvout hkvlt (le_refl _)
    refine ⟨ht2, rfl, ⟨⟨g.ctr, sk⟩, ⟨g.ctr + 1, "00000"⟩, ?_⟩⟩
    have hq1 : ℓ < (setBucket t1 (ℓ + 1) childJ
        (dictInsert (dictDelete ((getBucket? t1 (ℓ + 1) childJ).getD []) dkv2.1)
          kv.1 kv.2)).length := by
      rw [setBucket_length, ht1e, setBucket_length]
      exact hℓ0
    have hq2 : (setBucket t1 (ℓ + 1) childJ
        (dictInsert (dictDelete ((getBucket? t1 (ℓ + 1) childJ).getD []) dkv2.1)
          kv.1 kv.2)).getD ℓ [] = t1.getD ℓ [] :=
      setBucket_getD_other t1 (ℓ + 1) ℓ childJ _ (by omega)
    have hq3 : j < ((setBucket t1 (ℓ + 1) childJ
        (dictInsert (dictDelete ((getBucket? t1 (ℓ + 1) childJ).getD []) dkv2.1)
          kv.1 kv.2)).getD ℓ []).length := by
      rw [hq2]
      exact hjl'
    rw [getBucketD_eq _ ℓ j hq1 hq3, hq2, ← getBucketD_eq t1 ℓ j (by rw [ht1e, setBucket_length]; omega) hjl']
    exact hparent

theorem treeInv_mono (h c c2 : Nat) (t : Tree) (hInv : treeInv h c t) (hc : c ≤ c2) :
    treeInv h c2 t :=
  ⟨hInv.1, hInv.2.1, hInv.2.2.1, fun x hx => lt_of_lt_of_le (hInv.2.2.2 x hx) hc⟩

/-- Distinct slots of a bucket with distinct key nonces have distinct keys. -/
theorem nodup_keys_getD_ne (b : Bucket) (hnd : (bucketNonces b).Nodup)
    (i1 i2 : Nat) (d : Ct × Ct) (h1 : i1 < b.length) (h2 : i2 < b.length)
    (hne : i1 ≠ i2) : (b.getD i1 d).1 ≠ (b.getD i2 d).1 := by
  intro he
  have e1 : b.getD i1 d = b[i1] := by
    rw [List.getD_eq_getElem?_getD, List.getElem?_eq_getElem h1]
    rfl
  have e2 : b.getD i2 d = b[i2] := by
    rw [List.getD_eq_getElem?_getD, List.getElem?_eq_getElem h2]
    rfl
  rw [e1, e2] at he
  rw [bucketNonces] at hnd
  have hbnd : b.Nodup := List.Nodup.of_map _ hnd
  have heq : b[i1] = b[i2] := by
    apply List.inj_on_of_nodup_map hnd (List.getElem_mem h1) (List.getElem_mem h2)
    rw [he]
  exact hne ((List.Nodup.getElem_inj_iff hbnd).mp heq)

/-- The standard index bounds at `(ℓ, j)`, `(ℓ+1, 2j)`, `(ℓ+1, 2j+1)`
derived from the shape part of the invariant. -/
theorem treeInv_bounds (h c : Nat) (t : Tree) (hInv : treeInv h c t)
    (ℓ j : Nat) (hℓ : ℓ + 1 ≤ h) (hj : j < 2 ^ ℓ) :
    ℓ + 1 < t.length ∧ j < (t.getD ℓ []).length ∧
      2 * j + 1 < (t.getD (ℓ + 1) []).length := by
  obtain ⟨hlen, hwid⟩ := shapeB_spec h t hInv.1
  refine ⟨by omega, ?_, ?_⟩
  · rw [hwid ℓ (by omega)]
    exact hj
  · rw [hwid (ℓ + 1) (by omega)]
    have h2 : 2 ^ (ℓ + 1) = 2 * 2 ^ ℓ := by ring
    omega

theorem pushSelected_inv (h c : Nat) (mem : Memory) (ℓ j : Nat) (kv : Ct × Ct)
    (t : Tree) (g : Gen)
    (hInv : treeInv h c t) (hg : c ≤ g.ctr)
    (hℓ : ℓ + 1 < t.length)
    (hj : j < (t.getD ℓ []).length)
    (hcj : 2 * j + 1 < (t.getD (ℓ + 1) []).length)
    (hkv : kv.1 ∈ bucketKeys ((getBucket? t ℓ j).getD [])) :
    treeInv h (g.ctr + 2) (pushSelected mem ℓ j kv t g).1 ∧
      (pushSelected mem ℓ j kv t g).2.ctr = g.ctr + 2 ∧
      ∃ dk dv : Ct,
        (getBucket? (pushSelected mem ℓ j kv t g).1 ℓ j).getD [] =
          dictDelete ((getBucket? t ℓ j).getD []) kv.1 ++ [(dk, dv)] := by
  unfold pushSelected
  rcases hd : pushDirection mem ℓ kv g with ⟨dir, g1⟩
  have hg1 : g1.ctr = g.ctr := by
    have h2 := pushDirection_ctr mem ℓ kv g
    rw [hd] at h2
    exact h2
  simp only []
  have hcj' : 2 * j + (if dir then 1 else 0) < (t.getD (ℓ + 1) []).length := by
    have hle : (if dir then 1 else 0) ≤ 1 := by cases dir <;> simp
    omega
  obtain ⟨h1, h2, h3⟩ := pushMove_inv h c t ℓ j (2 * j + (if dir then 1 else 0)) kv g1
    hInv (by rw [hg1]; exact hg) hℓ hj hcj' hkv
  rw [hg1] at h1 h2
  exact ⟨h1, h2, h3⟩

theorem randAndPush_inv (h c : Nat) (mem : Memory) (ℓ j : Nat) (t : Tree) (g : Gen)
    (hInv : treeInv h c t) (hg : c ≤ g.ctr)
    (hℓ : ℓ + 1 ≤ h) (hj : j < 2 ^ ℓ) :
    treeInv h (g.ctr + 4) (randAndPush mem ℓ j t g).1 ∧
      (randAndPush mem ℓ j t g).2.ctr = g.ctr + 4 := by
  obtain ⟨hb1, hb2, hb3⟩ := treeInv_bounds h c t hInv ℓ j hℓ hj
  have hlen4 : ((getBucket? t ℓ j).getD []).length = BUCKET_SIZE :=
    bucketAt_len h c t ℓ j hInv (by omega) hb2
  have hnd_b : (bucketNonces ((getBucket? t ℓ j).getD [])).Nodup :=
    bucketAt_nodup h c t ℓ j hInv (by omega) hb2
  rcases hdp : drawDistinctPair BUCKET_SIZE g with ⟨⟨a, bidx⟩, g1⟩
  have hspec := drawDistinctPair_spec BUCKET_SIZE (by decide) g
  rw [hdp] at hspec
  simp only [] at hspec
  obtain ⟨ha4, hbidx4, hne, hg1⟩ := hspec
  have haL : a < ((getBucket? t ℓ j).getD []).length := by rw [hlen4]; exact ha4
  have hbL : bidx < ((getBucket? t ℓ j).getD []).length := by rw [hlen4]; exact hbidx4
  have hkv1 : (((getBucket? t ℓ j).getD []).getD a (⟨0, ""⟩, ⟨0, ""⟩)).1 ∈
      bucketKeys ((getBucket? t ℓ j).getD []) :=
    List.mem_map_of_mem Prod.fst (getD_mem _ a _ haL)
  obtain ⟨ht1, hc1, dk, dv, hpar⟩ := pushSelected_inv h c mem ℓ j
    (((getBucket? t ℓ j).getD []).getD a (⟨0, ""⟩, ⟨0, ""⟩)) t g1 hInv
    (by rw [hg1]; exact hg) hb1 hb2 hb3 hkv1
  rcases hps : pushSelected mem ℓ j
      (((getBucket? t ℓ j).getD []).getD a (⟨0, ""⟩, ⟨0, ""⟩)) t g1 with ⟨t1, g2⟩
  rw [hps] at ht1 hc1 hpar
  simp only [] at ht1 hc1 hpar
  obtain ⟨hb1', hb2', hb3'⟩ := treeInv_bounds h (g1.ctr + 2) t1 ht1 ℓ j hℓ hj
  have hne2 : (((getBucket? t ℓ j).getD []).getD bidx (⟨0, ""⟩, ⟨0, ""⟩)).1 ≠
      (((getBucket? t ℓ j).getD []).getD a (⟨0, ""⟩, ⟨0, ""⟩)).1 :=
    nodup_keys_getD_ne _ hnd_b bidx a _ hbL haL (fun he => hne he.symm)
  have hkv2mem : ((getBucket? t ℓ j).getD []).getD bidx (⟨0, ""⟩, ⟨0, ""⟩) ∈
      dictDelete ((getBucket? t ℓ j).getD [])
        ((((getBucket? t ℓ j).getD []).getD a (⟨0, ""⟩, ⟨0, ""⟩)).1) :=
    List.mem_filter.mpr ⟨getD_mem _ bidx _ hbL, by simpa using hne2⟩
  have hkv2 : (((getBucket? t ℓ j).getD []).getD bidx (⟨0, ""⟩, ⟨0, ""⟩)).1 ∈
      bucketKeys ((getBucket? t1 ℓ j).getD []) := by
    rw [hpar]
    exact List.mem_map_of_mem Prod.fst (List.mem_append_left _ hkv2mem)
  obtain ⟨ht2, hc2, _⟩ := pushSelected_inv h (g1.ctr + 2) mem ℓ j
    (((getBucket? t ℓ j).getD []).getD bidx (⟨0, ""⟩, ⟨0, ""⟩)) t1 g2 ht1
    (by rw [hc1]) hb1' hb2' hb3' hkv2
  unfold randAndPush
  rw [hdp]
  simp only []
  rw [hps]
  simp only []
  constructor
  · rw [show g.ctr + 4 = g2.ctr + 2 from by omega]
    exact ht2
  · rw [hc2]
    omega

theorem pushLevel_inv (h c : Nat) (mem : Memory) (ℓ : Nat) (t : Tree) (g : Gen)
    (hInv : treeInv h c t) (hg : c ≤ g.ctr) (hℓ : ℓ < h) :
    treeInv h (pushLevel mem ℓ t g).2.ctr (pushLevel mem ℓ t g).1 ∧
      g.ctr ≤ (pushLevel mem ℓ t g).2.ctr := by
  unfold pushLevel
  by_cases h0 : ℓ = 0
  · rw [if_pos (by simpa using h0)]
    obtain ⟨h1, h2⟩ := randAndPush_inv h c mem 0 0 t g hInv hg (by omega) (by decide)
    rw [h2]
    exact ⟨h1, by omega⟩
  · rw [if_neg (by simpa using h0)]
    have hwid := (shapeB_spec h t hInv.1).2 ℓ (by omega)
    have hn2 : 2 ≤ (t.getD ℓ []).length := by
      rw [hwid]
      have h2 : (2 : Nat) ^ 1 ≤ 2 ^ ℓ := Nat.pow_le_pow_right (by omega) (by omega)
      simpa using h2
    rcases hdp : drawDistinctPair ((t.getD ℓ []).length) g with ⟨⟨i1, i2⟩, g1⟩
    have hspec := drawDistinctPair_spec ((t.getD ℓ []).length) hn2 g
    rw [hdp] at hspec
    simp only [] at hspec
    obtain ⟨hi1, hi2, _, hg1⟩ := hspec
    rw [hwid] at hi1 hi2
    obtain ⟨ha1, ha2⟩ := randAndPush_inv h c mem ℓ i1 t g1 hInv
      (by rw [hg1]; exact hg) (by omega) hi1
    rcases hrp : randAndPush mem ℓ i1 t g1 with ⟨t1, g2⟩
    rw [hrp] at ha1 ha2
    simp only [] at ha1 ha2
    obtain ⟨hb1, hb2⟩ := randAndPush_inv h (g1.ctr + 4) mem ℓ i2 t1 g2 ha1
      (by rw [ha2]) (by omega) hi2
    simp only []
    rw [hdp]
    simp only []
    rw [hrp]
    simp only []
    rw [hb2]
    refine ⟨?_, by omega⟩
    rw [show g2.ctr + 4 = g2.ctr + 4 from rfl]
    exact hb1

theorem pushDownGo_inv (h : Nat) (mem : Memory) : ∀ (L : List Nat) (c : Nat)
    (t : Tree) (g : Gen), treeInv h c t → c ≤ g.ctr → (∀ ℓ ∈ L, ℓ < h) →
    treeInv h (pushDownGo mem L t g).2.ctr (pushDownGo mem L t g).1 ∧
      g.ctr ≤ (pushDownGo mem L t g).2.ctr := by
  intro L
  induction L with
  | nil =>
    intro c t g hInv hg _
    exact ⟨treeInv_mono h c g.ctr t hInv hg, le_refl _⟩
  | cons ℓ rest ih =>
    intro c t g hInv hg hL
    unfold pushDownGo
    rcases hpl : pushLevel mem ℓ t g with ⟨t1, g1⟩
    obtain ⟨h1, h2⟩ := pushLevel_inv h c mem ℓ t g hInv hg
      (hL ℓ (List.mem_cons_self ℓ rest))
    rw [hpl] at h1 h2
    simp only [] at h1 h2
    simp only []
    obtain ⟨h3, h4⟩ := ih g1.ctr t1 g1 h1 (le_refl _)
      (fun ℓ2 hm => hL ℓ2 (List.mem_cons_of_mem _ hm))
    exact ⟨h3, le_trans h2 h4⟩

theorem pushDown_inv (h c : Nat) (mem : Memory) (t : Tree) (g : Gen)
    (hInv : treeInv h c t) (hg : c ≤ g.ctr) :
    treeInv h (pushDown h mem t g).2.ctr (pushDown h mem t g).1 ∧
      g.ctr ≤ (pushDown h mem t g).2.ctr := by
  unfold pushDown
  exact pushDownGo_inv h mem (List.range h) c t g hInv hg
    (fun ℓ hm => List.mem_range.mp hm)

/-! ### Initialization and re-encryption establish / preserve the invariant -/

theorem bucketFill_spec : ∀ (n : Nat) (acc : Bucket) (g : Gen),
    (bucketNonces acc).Nodup → (∀ x ∈ bucketNonces acc, x < g.ctr) →
    (bucketFill n acc g).2.ctr = g.ctr + 2 * n ∧
    (bucketFill n acc g).1.length = acc.length + n ∧
    (bucketNonces (bucketFill n acc g).1).Nodup ∧
    (∀ x ∈ bucketNonces (bucketFill n acc g).1, x < g.ctr + 2 * n) ∧
    (∀ x ∈ bucketNonces (bucketFill n acc g).1, x ∈ bucketNonces acc ∨ g.ctr ≤ x) := by
  intro n
  induction n with
  | zero =>
    intro acc g hnd hlt
    refine ⟨by simp [bucketFill], by simp [bucketFill], by simpa [bucketFill] using hnd,
      ?_, ?_⟩
    · intro x hx
      simp only [bucketFill] at hx
      have := hlt x hx
      omega
    · intro x hx
      simp only [bucketFill] at hx
      exact Or.inl hx
  | succ n ih =>
    intro acc g hnd hlt
    obtain ⟨sk, rest, hmk, _⟩ := mkDummy_eq g
    unfold bucketFill
    rw [hmk]
    simp only []
    have hfr : (⟨g.ctr, sk⟩ : Ct).nonce ∉ bucketNonces acc := by
      intro hm
      have h2 := hlt _ hm
      simp only [Ct.nonce] at h2
      omega
    rw [dictInsert_fresh acc _ _ hfr]
    have hbn : bucketNonces (acc ++ [(⟨g.ctr, sk⟩, ⟨g.ctr + 1, "00000"⟩)]) =
        bucketNonces acc ++ [g.ctr] := by
      simp [bucketNonces]
    have hnd' : (bucketNonces (acc ++ [(⟨g.ctr, sk⟩, ⟨g.ctr + 1, "00000"⟩)])).Nodup := by
      rw [hbn, List.nodup_append]
      refine ⟨hnd, List.nodup_singleton _, ?_⟩
      intro x hx hx2
      rw [List.mem_singleton] at hx2
      subst hx2
      have h2 := hlt _ hx
      omega
    have hlt' : ∀ x ∈ bucketNonces (acc ++ [(⟨g.ctr, sk⟩, ⟨g.ctr + 1, "00000"⟩)]),
        x < (⟨g.ctr + 2, rest⟩ : Gen).ctr := by
      intro x hx
      rw [hbn] at hx
      rcases List.mem_append.mp hx with h1 | h1
      · have h2 := hlt _ h1
        show x < g.ctr + 2
        omega
      · rw [List.mem_singleton] at h1
        subst h1
        show g.ctr < g.ctr + 2
        omega
    obtain ⟨e1, e2, e3, e4, e5⟩ := ih (acc ++ [(⟨g.ctr, sk⟩, ⟨g.ctr + 1, "00000"⟩)])
      ⟨g.ctr + 2, rest⟩ hnd' hlt'
    refine ⟨?_, ?_, e3, ?_, ?_⟩
    · rw [e1]
      show g.ctr + 2 + 2 * n = g.ctr + 2 * (n + 1)
      omega
    · rw [e2]
      simp only [List.length_append, List.length_singleton]
      omega
    · intro x hx
      have h2 := e4 x hx
      show x < g.ctr + 2 * (n + 1)
      simp only [] at h2
      omega
    · intro x hx
      rcases e5 x hx with h1 | h1
      · rw [hbn] at h1
        rcases List.mem_append.mp h1 with h2 | h2
        · exact Or.inl h2
        · rw [List.mem_singleton] at h2
          subst h2
          exact Or.inr (le_refl _)
      · simp only [] at h1
        exact Or.inr (by omega)

theorem mkDummyLevel_spec : ∀ (n : Nat) (g : Gen),
    (mkDummyLevel n g).2.ctr = g.ctr + 8 * n ∧
    (mkDummyLevel n g).1.length = n ∧
    (∀ b ∈ (mkDummyLevel n g).1, b.length = BUCKET_SIZE) ∧
    (levelNonces (mkDummyLevel n g).1).Nodup ∧
    (∀ x ∈ levelNonces (mkDummyLevel n g).1, g.ctr ≤ x ∧ x < g.ctr + 8 * n) := by
  intro n
  induction n with
  | zero =>
    intro g
    refine ⟨by simp [mkDummyLevel], by simp [mkDummyLevel], ?_, ?_, ?_⟩
    · intro b hb
      simp only [mkDummyLevel] at hb
      exact absurd hb (List.not_mem_nil b)
    · simp [mkDummyLevel, levelNonces]
    · intro x hx
      simp only [mkDummyLevel] at hx
      simp [levelNonces] at hx
  | succ n ih =>
    intro g
    obtain ⟨b1, b2, b3, b4, b5⟩ := bucketFill_spec BUCKET_SIZE [] g List.nodup_nil
      (fun x hx => absurd hx (List.not_mem_nil x))
    unfold mkDummyLevel mkDummyBucket
    rcases hbf : bucketFill BUCKET_SIZE [] g with ⟨b, g1⟩
    rw [hbf] at b1 b2 b3 b4 b5
    simp only [] at b1 b2 b3 b4 b5
    obtain ⟨e1, e2, e3, e4, e5⟩ := ih g1
    rcases hlv : mkDummyLevel n g1 with ⟨lvl, g2⟩
    rw [hlv] at e1 e2 e3 e4 e5
    simp only [] at e1 e2 e3 e4 e5
    simp only []
    rw [hlv]
    simp only []
    have hctr1 : g1.ctr = g.ctr + 8 := by
      rw [b1]
      show g.ctr + 2 * BUCKET_SIZE = g.ctr + 8
      rfl
    refine ⟨?_, ?_, ?_, ?_, ?_⟩
    · rw [e1, hctr1]
      omega
    · simp [e2]
    · intro bk hbk
      rcases List.mem_cons.mp hbk with h1 | h1
      · subst h1
        rw [b2]
        simp
      · exact e3 bk h1
    · rw [levelNonces_cons, List.nodup_append]
      refine ⟨b3, e4, ?_⟩
      intro x hx hx2
      have h2 := b4 x hx
      have h3 := (e5 x hx2).1
      omega
    · intro x hx
      rw [levelNonces_cons] at hx
      rcases List.mem_append.mp hx with h1 | h1
      · have h2 := b4 x h1
        rcases b5 x h1 with h3 | h3
        · exact absurd h3 (List.not_mem_nil x)
        · constructor
          · exact h3
          · omega
      · have h2 := e5 x h1
        rw [hctr1] at h2
        constructor
        · omega
        · omega

theorem mkDummyLevels_spec : ∀ (L : List Nat) (g : Gen),
    (mkDummyLevels L g).1.length = L.length ∧
    (∀ i, i < L.length →
      ((mkDummyLevels L g).1.getD i []).length = 2 ^ (L.getD i 0)) ∧
    (∀ lvl ∈ (mkDummyLevels L g).1, ∀ b ∈ lvl, b.length = BUCKET_SIZE) ∧
    (treeNonces (mkDummyLevels L g).1).Nodup ∧
    (∀ x ∈ treeNonces (mkDummyLevels L g).1,
      g.ctr ≤ x ∧ x < (mkDummyLevels L g).2.ctr) ∧
    g.ctr ≤ (mkDummyLevels L g).2.ctr := by
  intro L
  induction L with
  | nil =>
    intro g
    refine ⟨rfl, ?_, ?_, ?_, ?_, le_refl _⟩
    · intro i hi
      simp at hi
    · intro lvl hlvl
      simp only [mkDummyLevels] at hlvl
      exact absurd hlvl (List.not_mem_nil lvl)
    · simp [mkDummyLevels, treeNonces]
    · intro x hx
      simp only [mkDummyLevels] at hx
      simp [treeNonces] at hx
  | cons ℓ rest ih =>
    intro g
    obtain ⟨b1, b2, b3, b4, b5⟩ := mkDummyLevel_spec (2 ^ ℓ) g
    unfold mkDummyLevels
    rcases hlv : mkDummyLevel (2 ^ ℓ) g with ⟨lvl, g1⟩
    rw [hlv] at b1 b2 b3 b4 b5
    simp only [] at b1 b2 b3 b4 b5
    obtain ⟨e1, e2, e3, e4, e5, e6⟩ := ih g1
    rcases hts : mkDummyLevels rest g1 with ⟨t, g2⟩
    rw [hts] at e1 e2 e3 e4 e5 e6
    simp only [] at e1 e2 e3 e4 e5 e6
    simp only []
    rw [hts]
    simp only []
    refine ⟨by simp [e1], ?_, ?_, ?_, ?_, ?_⟩
    · intro i hi
      cases i with
      | zero => simpa using b2
      | succ i =>
        simp only [List.getD_cons_succ]
        exact e2 i (by simpa using hi)
    · intro lvl2 hlvl2
      rcases List.mem_cons.mp hlvl2 with h1 | h1
      · subst h1
        exact b3
      · exact e3 lvl2 h1
    · rw [treeNonces_cons, List.nodup_append]
      refine ⟨b4, e4, ?_⟩
      intro x hx hx2
      have h2 := (b5 x hx).2
      have h3 := (e5 x hx2).1
      rw [b1] at h3
      omega
    · intro x hx
      rw [treeNonces_cons] at hx
      rcases List.mem_append.mp hx with h1 | h1
      · have h2 := b5 x h1
        refine ⟨h2.1, ?_⟩
        have h3 : g1.ctr ≤ g2.ctr := e6
        rw [b1] at h3
        omega
      · have h2 := e5 x h1
        rw [b1] at h2
        exact ⟨by omega, h2.2⟩
    · rw [b1] at e6
      omega

/-- `_fill_server_with_dummies` establishes the tree invariant. -/
theorem mkDummyTree_inv (h : Nat) (g : Gen) :
    treeInv h (mkDummyTree h g).2.ctr (mkDummyTree h g).1 ∧
      g.ctr ≤ (mkDummyTree h g).2.ctr := by
  obtain ⟨e1, e2, e3, e4, e5, e6⟩ := mkDummyLevels_spec (List.range (h + 1)) g
  have hrg : ∀ i, i < h + 1 → (List.range (h + 1)).getD i 0 = i := by
    intro i hi
    rw [List.getD_eq_getElem?_getD, List.getElem?_eq_getElem (by simpa using hi)]
    simp
  have hlen : (mkDummyLevels (List.range (h + 1)) g).1.length = h + 1 := by
    rw [e1, List.length_range]
  refine ⟨⟨?_, ?_, e4, fun x hx => (e5 x hx).2⟩, e6⟩
  · unfold shapeB
    simp only [Bool.and_eq_true, beq_iff_eq, List.all_eq_true]
    refine ⟨by exact hlen, ?_⟩
    intro ℓ hℓ
    have hℓ2 : ℓ < h + 1 := List.mem_range.mp hℓ
    have h2 := e2 ℓ (by rw [List.length_range]; exact hℓ2)
    rw [hrg ℓ hℓ2] at h2
    simpa using h2
  · unfold all4B
    simp only [List.all_eq_true, beq_iff_eq]
    exact e3

/-- `_encrypt_node` advances the counter by twice the bucket size,
preserves the length, and produces pairwise-distinct fresh key nonces. -/
theorem encryptNodeGo_spec : ∀ (src acc : Bucket) (g : Gen),
    (bucketNonces acc).Nodup → (∀ x ∈ bucketNonces acc, x < g.ctr) →
    (encryptNodeGo src acc g).2.ctr = g.ctr + 2 * src.length ∧
    (encryptNodeGo src acc g).1.length = acc.length + src.length ∧
    (bucketNonces (encryptNodeGo src acc g).1).Nodup ∧
    (∀ x ∈ bucketNonces (encryptNodeGo src acc g).1, x < g.ctr + 2 * src.length) ∧
    (∀ x ∈ bucketNonces (encryptNodeGo src acc g).1,
      x ∈ bucketNonces acc ∨ g.ctr ≤ x) := by
  intro src
  induction src with
  | nil =>
    intro acc g hnd hlt
    refine ⟨by simp [encryptNodeGo], by simp [encryptNodeGo],
      by simpa [encryptNodeGo] using hnd, ?_, ?_⟩
    · intro x hx
      simp only [encryptNodeGo] at hx
      have := hlt x hx
      omega
    · intro x hx
      simp only [encryptNodeGo] at hx
      exact Or.inl hx
  | cons kv rest ih =>
    intro acc g hnd hlt
    unfold encryptNodeGo
    simp only [encNew, fernetDecrypt]
    have hfr : (⟨g.ctr, kv.1.pt⟩ : Ct).nonce ∉ bucketNonces acc := by
      intro hm
      have h2 := hlt _ hm
      simp only [Ct.nonce] at h2
      omega
    rw [dictInsert_fresh acc _ _ hfr]
    have hbn : bucketNonces (acc ++ [(⟨g.ctr, kv.1.pt⟩, ⟨g.ctr + 1, kv.2.pt⟩)]) =
        bucketNonces acc ++ [g.ctr] := by
      simp [bucketNonces]
    have hnd' : (bucketNonces (acc ++ [(⟨g.ctr, kv.1.pt⟩, ⟨g.ctr + 1, kv.2.pt⟩)])).Nodup := by
      rw [hbn, List.nodup_append]
      refine ⟨hnd, List.nodup_singleton _, ?_⟩
      intro x hx hx2
      rw [List.mem_singleton] at hx2
      subst hx2
      have h2 := hlt _ hx
      omega
    have hlt' : ∀ x ∈ bucketNonces (acc ++ [(⟨g.ctr, kv.1.pt⟩, ⟨g.ctr + 1, kv.2.pt⟩)]),
        x < (⟨g.ctr + 1 + 1, g.ints⟩ : Gen).ctr := by
      intro x hx
      rw [hbn] at hx
      rcases List.mem_append.mp hx with h1 | h1
      · have h2 := hlt _ h1
        show x < g.ctr + 1 + 1
        omega
      · rw [List.mem_singleton] at h1
        subst h1
        show g.ctr < g.ctr + 1 + 1
        omega
    obtain ⟨e1, e2, e3, e4, e5⟩ := ih (acc ++ [(⟨g.ctr, kv.1.pt⟩, ⟨g.ctr + 1, kv.2.pt⟩)])
      ⟨g.ctr + 1 + 1, g.ints⟩ hnd' hlt'
    simp only [] at e1 e4 e5
    refine ⟨?_, ?_, e3, ?_, ?_⟩
    · rw [e1]
      simp only [List.length_cons]
      omega
    · rw [e2]
      simp only [List.length_append, List.length_singleton, List.length_cons,
        List.length_nil]
      omega
    · intro x hx
      have h2 := e4 x hx
      simp only [List.length_cons]
      omega
    · intro x hx
      rcases e5 x hx with h1 | h1
      · rw [hbn] at h1
        rcases List.mem_append.mp h1 with h2 | h2
        · exact Or.inl h2
        · rw [List.mem_singleton] at h2
          subst h2
          exact Or.inr (le_refl _)
      · exact Or.inr (by omega)

/-- `storeRootInsert` (the server half of `store_data`) preserves the
invariant, keeps the position map it was given, and never decreases the
encryption counter. -/
theorem storeRootInsert_inv (h c : Nat) (t : Tree) (mem1 : Memory) (id : Nat)
    (data : String) (g1 : Gen) (hInv : treeInv h c t) (hg : c ≤ g1.ctr) :
    sysInv h (storeRootInsert h t mem1 id data g1).2 ∧
      (storeRootInsert h t mem1 id data g1).2.mem = mem1 ∧
      g1.ctr ≤ (storeRootInsert h t mem1 id data g1).2.gen.ctr := by
  obtain ⟨hlen, hwid⟩ := shapeB_spec h t hInv.1
  have h0t : 0 < t.length := by omega
  have h00 : 0 < (t.getD 0 []).length := by
    rw [hwid 0 (by omega)]
    decide
  unfold storeRootInsert
  simp only []
  cases hfind : ((getBucket? t 0 0).getD []).find? (fun kv => isDummyVal kv.2) with
  | none =>
    obtain ⟨p1, p2⟩ := pushDown_inv h c mem1 t g1 hInv hg
    rcases hpd : pushDown h mem1 t g1 with ⟨t1, g2⟩
    rw [hpd] at p1 p2
    simp only [] at p1 p2
    exact ⟨⟨rfl, by simpa using p1⟩, rfl, p2⟩
  | some dkv =>
    simp only [encNew]
    have hdel : dkv.1 ∈ bucketKeys ((getBucket? t 0 0).getD []) :=
      List.mem_map_of_mem Prod.fst (List.mem_of_find?_eq_some hfind)
    have hnd_root : (bucketNonces ((getBucket? t 0 0).getD [])).Nodup :=
      bucketAt_nodup h c t 0 0 hInv h0t h00
    have hfr : (⟨g1.ctr, Nat.repr id⟩ : Ct).nonce ∉
        bucketNonces ((getBucket? t 0 0).getD []) := by
      intro hm
      have h2 := hInv.2.2.2 _ (bucketAt_sub t 0 0 h0t h00 _ hm)
      simp only [Ct.nonce] at h2
      omega
    have hb1len : (dictInsert (dictDelete ((getBucket? t 0 0).getD []) dkv.1)
        ⟨g1.ctr, Nat.repr id⟩ ⟨g1.ctr + 1, "1" ++ data⟩).length =
        ((getBucket? t 0 0).getD []).length :=
      replaceSlot_length _ dkv.1 _ _ hdel hnd_root hfr
    obtain ⟨e1, e2, e3, e4, e5⟩ := encryptNodeGo_spec
      (dictInsert (dictDelete ((getBucket? t 0 0).getD []) dkv.1)
        ⟨g1.ctr, Nat.repr id⟩ ⟨g1.ctr + 1, "1" ++ data⟩) []
      ⟨g1.ctr + 1 + 1, g1.ints⟩ List.nodup_nil
      (fun x hx => absurd hx (List.not_mem_nil x))
    unfold encryptNode
    rcases hen : encryptNodeGo (dictInsert (dictDelete ((getBucket? t 0 0).getD []) dkv.1)
        ⟨g1.ctr, Nat.repr id⟩ ⟨g1.ctr + 1, "1" ++ data⟩) [] ⟨g1.ctr + 1 + 1, g1.ints⟩
      with ⟨b2, g4⟩
    rw [hen] at e1 e2 e3 e4 e5
    simp only [] at e1 e2 e3 e4 e5
    simp only []
    have ht1 : treeInv h g4.ctr (setBucket t 0 0 b2) := by
      apply setBucket_treeInv h c g4.ctr t 0 0 b2 hInv h0t h00
      · rw [e2, hb1len]
        simp
      · intro x hx
        rcases e5 x hx with h1 | h1
        · exact absurd h1 (List.not_mem_nil x)
        · refine Or.inr ?_
          intro hm
          have h2 := hInv.2.2.2 _ hm
          omega
      · intro x hx
        have h2 := e4 x hx
        rw [e1]
        omega
      · exact e3
      · rw [e1]
        omega
    obtain ⟨p1, p2⟩ := pushDown_inv h g4.ctr mem1 (setBucket t 0 0 b2) g4 ht1 (le_refl _)
    rcases hpd : pushDown h mem1 (setBucket t 0 0 b2) g4 with ⟨t2, g5⟩
    rw [hpd] at p1 p2
    simp only [] at p1 p2
    simp only []
    have hg4 : g1.ctr ≤ g4.ctr := by
      rw [e1]
      omega
    refine ⟨⟨rfl, p1⟩, ?_, by omega⟩
    trivial

/-- `store_data` preserves the system invariant and never decreases the
encryption counter. -/
theorem storeData_inv (h : Nat) (s : Sys) (id : Nat) (data : String)
    (hInv : sysInv h s) : sysInv h (storeData h s id data).2 ∧
      s.gen.ctr ≤ (storeData h s id data).2.gen.ctr := by
  by_cases hdup : (memLookup s.mem id).isSome = true
  · unfold storeData
    rw [if_pos hdup]
    exact ⟨hInv, le_refl _⟩
  · obtain ⟨hsome, hti⟩ := hInv
    rcases hst : s.tree with _ | t
    · rw [hst] at hsome
      simp at hsome
    · rw [hst] at hti
      simp only [Option.getD_some] at hti
      unfold storeData
      rw [if_neg hdup, hst]
      simp only [nextInt]
      obtain ⟨h1, _h2, h3⟩ := storeRootInsert_inv h s.gen.ctr t
        (memInsert s.mem id
          ⟨natBin (pyRandint (2 ^ (h + 1)) (2 ^ (h + 2) - 1) (s.gen.ints.headD 0)),
            hmacTag id data⟩)
        id data ⟨s.gen.ctr, s.gen.ints.tail⟩ hti (le_refl _)
      exact ⟨h1, h3⟩

/-! ### Invariant preservation for retrieve and delete -/

theorem getBucket?_some_bounds (t : Tree) (ℓ j : Nat) (b : Bucket)
    (hb : getBucket? t ℓ j = some b) :
    ℓ < t.length ∧ j < (t.getD ℓ []).length ∧ (getBucket? t ℓ j).getD [] = b := by
  unfold getBucket? at hb
  cases hℓ : t.get? ℓ with
  | none =>
    rw [hℓ] at hb
    simp at hb
  | some lvl =>
    rw [hℓ] at hb
    have hb2 : lvl.get? j = some b := hb
    have hℓb : ℓ < t.length := by
      by_contra hc
      push_neg at hc
      rw [List.get?_eq_getElem?, List.getElem?_eq_none (by omega)] at hℓ
      exact Option.noConfusion hℓ
    have hjb : j < lvl.length := by
      by_contra hc
      push_neg at hc
      rw [List.get?_eq_getElem?, List.getElem?_eq_none (by omega)] at hb2
      exact Option.noConfusion hb2
    have hlv : t.getD ℓ [] = lvl := by
      rw [List.getD_eq_getElem?_getD, ← List.get?_eq_getElem?, hℓ]
      rfl
    refine ⟨hℓb, by rw [hlv]; exact hjb, ?_⟩
    unfold getBucket?
    rw [hℓ]
    have : lvl.get? j = some b := hb2
    show (lvl.get? j).getD [] = b
    rw [this]
    rfl

/-- The root→leaf walk of `retrieve_data` preserves the system invariant
whenever it returns normally. -/
theorem retrieveWalk_inv (h id : Nat) : ∀ (path : List Char) (ℓ j : Nat) (s : Sys)
    (r : Option String) (s2 : Sys), sysInv h s →
    retrieveWalk h id path ℓ j s = Except.ok (r, s2) → sysInv h s2 := by
  intro path
  induction path with
  | nil =>
    intro ℓ j s r s2 hInv hok
    simp only [retrieveWalk] at hok
    rw [Except.ok.injEq, Prod.mk.injEq] at hok
    obtain ⟨_, h2⟩ := hok
    rw [← h2]
    exact hInv
  | cons ch rest ih =>
    intro ℓ j s r s2 hInv hok
    unfold retrieveWalk at hok
    cases hst : s.tree with
    | none =>
      rw [hst] at hok
      simp at hok
    | some t =>
      rw [hst] at hok
      simp only [] at hok
      cases hgb : getBucket? t ℓ j with
      | none =>
        rw [hgb] at hok
        simp at hok
      | some b =>
        rw [hgb] at hok
        simp only [] at hok
        cases hfd : b.find? (fun kv => fernetDecrypt kv.1 == Nat.repr id) with
        | none =>
          rw [hfd] at hok
          simp only [] at hok
          exact ih (ℓ + 1) (2 * j + (if pyStrEqInt (String.mk [ch]) 0 then 0 else 1))
            s r s2 hInv hok
        | some kv =>
          rw [hfd] at hok
          simp only [] at hok
          obtain ⟨sk, rest2, hmk, _⟩ := mkDummy_eq s.gen
          rw [hmk] at hok
          simp only [] at hok
          rcases hsd : storeData h
              ⟨some (setBucket t ℓ j (dictInsert (dictDelete b kv.1)
                ⟨s.gen.ctr, sk⟩ ⟨s.gen.ctr + 1, "00000"⟩)),
               memDelete s.mem id, ⟨s.gen.ctr + 2, rest2⟩⟩ id
              ((fernetDecrypt kv.2).drop 1) with ⟨r3, s3⟩
          rw [hsd] at hok
          simp only [] at hok
          rw [Except.ok.injEq, Prod.mk.injEq] at hok
          obtain ⟨_, h2⟩ := hok
          rw [← h2]
          obtain ⟨hb1, hb2, hbeq⟩ := getBucket?_some_bounds t ℓ j b hgb
          have hti : treeInv h s.gen.ctr t := by
            have h3 := hInv.2
            rw [hst] at h3
            simpa using h3
          have hkd : kv.1 ∈ bucketKeys ((getBucket? t ℓ j).getD []) := by
            rw [hbeq]
            exact List.mem_map_of_mem Prod.fst (List.mem_of_find?_eq_some hfd)
          have hout : (⟨s.gen.ctr, sk⟩ : Ct).nonce ∉ treeNonces t := by
            intro hm
            have h3 := hti.2.2.2 _ hm
            simp only [Ct.nonce] at h3
            omega
          have hti1 := replaceSlot_treeInv h s.gen.ctr (s.gen.ctr + 2) t ℓ j kv.1
            ⟨s.gen.ctr, sk⟩ ⟨s.gen.ctr + 1, "00000"⟩ hti hb1 hb2 hkd hout
            (by show s.gen.ctr < s.gen.ctr + 2; omega) (by omega)
          rw [hbeq] at hti1
          have hmid : sysInv h
              ⟨some (setBucket t ℓ j (dictInsert (dictDelete b kv.1)
                ⟨s.gen.ctr, sk⟩ ⟨s.gen.ctr + 1, "00000"⟩)),
               memDelete s.mem id, ⟨s.gen.ctr + 2, rest2⟩⟩ := ⟨rfl, hti1⟩
          have hrs := (storeData_inv h
            ⟨some (setBucket t ℓ j (dictInsert (dictDelete b kv.1)
              ⟨s.gen.ctr, sk⟩ ⟨s.gen.ctr + 1, "00000"⟩)),
             memDelete s.mem id, ⟨s.gen.ctr + 2, rest2⟩⟩ id
            ((fernetDecrypt kv.2).drop 1) hmid).1
          rw [hsd] at hrs
          exact hrs

/-- The walk of `delete_data` preserves the system invariant whenever it
returns normally. -/
theorem deleteWalk_inv (id : Nat) (h : Nat) : ∀ (path : List Char) (ℓ j : Nat) (s : Sys)
    (r : Option String) (s2 : Sys), sysInv h s →
    deleteWalk id path ℓ j s = Except.ok (r, s2) → sysInv h s2 := by
  intro path
  induction path with
  | nil =>
    intro ℓ j s r s2 hInv hok
    simp only [deleteWalk] at hok
    rw [Except.ok.injEq, Prod.mk.injEq] at hok
    obtain ⟨_, h2⟩ := hok
    rw [← h2]
    exact hInv
  | cons ch rest ih =>
    intro ℓ j s r s2 hInv hok
    unfold deleteWalk at hok
    cases hst : s.tree with
    | none =>
      rw [hst] at hok
      simp at hok
    | some t =>
      rw [hst] at hok
      simp only [] at hok
      cases hgb : getBucket? t ℓ j with
      | none =>
        rw [hgb] at hok
        simp at hok
      | some b =>
        rw [hgb] at hok
        simp only [] at hok
        cases hfd : b.find? (fun kv => fernetDecrypt kv.1 == Nat.repr id) with
        | none =>
          rw [hfd] at hok
          simp only [] at hok
          exact ih (ℓ + 1) (2 * j + (if pyStrEqInt (String.mk [ch]) 0 then 0 else 1))
            s r s2 hInv hok
        | some kv =>
          rw [hfd] at hok
          simp only [] at hok
          obtain ⟨sk, rest2, hmk, _⟩ := mkDummy_eq s.gen
          rw [hmk] at hok
          simp only [] at hok
          rw [Except.ok.injEq, Prod.mk.injEq] at hok
          obtain ⟨_, h2⟩ := hok
          rw [← h2]
          obtain ⟨hb1, hb2, hbeq⟩ := getBucket?_some_bounds t ℓ j b hgb
          have hti : treeInv h s.gen.ctr t := by
            have h3 := hInv.2
            rw [hst] at h3
            simpa using h3
          have hkd : kv.1 ∈ bucketKeys ((getBucket? t ℓ j).getD []) := by
            rw [hbeq]
            exact List.mem_map_of_mem Prod.fst (List.mem_of_find?_eq_some hfd)
          have hout : (⟨s.gen.ctr, sk⟩ : Ct).nonce ∉ treeNonces t := by
            intro hm
            have h3 := hti.2.2.2 _ hm
            simp only [Ct.nonce] at h3
            omega
          have hti1 := replaceSlot_treeInv h s.gen.ctr (s.gen.ctr + 2) t ℓ j kv.1
            ⟨s.gen.ctr, sk⟩ ⟨s.gen.ctr + 1, "00000"⟩ hti hb1 hb2 hkd hout
            (by show s.gen.ctr < s.gen.ctr + 2; omega) (by omega)
          rw [hbeq] at hti1
          exact ⟨rfl, hti1⟩

/-- `retrieve_data` preserves the system invariant on every normal return. -/
theorem retrieveData_inv (h : Nat) (s : Sys) (id : Nat) (r : Option String) (s2 : Sys)
    (hInv : sysInv h s) (hok : retrieveData h s id = Except.ok (r, s2)) :
    sysInv h s2 := by
  unfold retrieveData at hok
  cases hml : memLookup s.mem id with
  | none =>
    rw [hml] at hok
    simp at hok
  | some e =>
    rw [hml] at hok
    simp only [] at hok
    cases hw : retrieveWalk h id ((e.bits.drop 1).toList) 0 0 s with
    | error msg =>
      rw [hw] at hok
      simp at hok
    | ok pr =>
      rcases pr with ⟨r1, s1⟩
      have hinv1 := retrieveWalk_inv h id ((e.bits.drop 1).toList) 0 0 s r1 s1 hInv hw
      rw [hw] at hok
      cases r1 with
      | none =>
        simp only [] at hok
        rw [Except.ok.injEq, Prod.mk.injEq] at hok
        obtain ⟨_, h2⟩ := hok
        rw [← h2]
        exact hinv1
      | some data =>
        simp only [] at hok
        split at hok
        · rw [Except.ok.injEq, Prod.mk.injEq] at hok
          obtain ⟨_, h2⟩ := hok
          rw [← h2]
          exact hinv1
        · split at hok
          · exact absurd hok (by simp)
          · split at hok
            · rw [Except.ok.injEq, Prod.mk.injEq] at hok
              obtain ⟨_, h2⟩ := hok
              rw [← h2]
              exact hinv1
            · rw [Except.ok.injEq, Prod.mk.injEq] at hok
              obtain ⟨_, h2⟩ := hok
              rw [← h2]
              exact hinv1

/-- `delete_data` preserves the system invariant on every normal return. -/
theorem deleteData_inv (h : Nat) (s : Sys) (id : Nat) (r : Option String) (s2 : Sys)
    (hInv : sysInv h s) (hok : deleteData s id = Except.ok (r, s2)) :
    sysInv h s2 := by
  unfold deleteData at hok
  cases hml : memLookup s.mem id with
  | none =>
    rw [hml] at hok
    simp at hok
  | some e =>
    rw [hml] at hok
    simp only [] at hok
    exact deleteWalk_inv id h ((e.bits.drop 1).toList) 0 0 s r s2 hInv hok

/-- A concrete initialized client+server (height 0) for exercising the
invariant: one store on a fresh system. -/
def c5Sys : Sys := (storeData 0 (freshSys [0, 1, 0, 1, 0, 1]) 1 "abcd").2

def c5RetVal : Option String :=
  ((retrieveData 0 c5Sys 1).toOption.getD (none, c5Sys)).1

def c5RetSys : Sys :=
  ((retrieveData 0 c5Sys 1).toOption.getD (none, c5Sys)).2

/-- C5: once `_fill_server_with_dummies` has initialized the tree, every
node's bucket holds exactly `BUCKET_SIZE = 4` entries, and this is
preserved by `store_data`, `retrieve_data`, `delete_data` and every
push-down pass.  (The invariant proved is `sysInv`/`treeInv`, which
contains the bucket-size property `all4B` together with the shape and
fresh-nonce facts needed to propagate it; the second conjunct extracts
the claimed `|bucket| = 4` statement.) -/
theorem claim_C5_bucket_size_invariant (h : Nat) :
    (∀ g : Gen, treeInv h (mkDummyTree h g).2.ctr (mkDummyTree h g).1) ∧
    (∀ s : Sys, sysInv h s →
      ∀ lvl ∈ s.tree.getD [], ∀ b ∈ lvl, b.length = BUCKET_SIZE) ∧
    (∀ (s : Sys) (id : Nat) (data : String), sysInv h s →
      sysInv h (storeData h s id data).2) ∧
    (∀ (s : Sys) (id : Nat) (r : Option String) (s2 : Sys), sysInv h s →
      retrieveData h s id = Except.ok (r, s2) → sysInv h s2) ∧
    (∀ (s : Sys) (id : Nat) (r : Option String) (s2 : Sys), sysInv h s →
      deleteData s id = Except.ok (r, s2) → sysInv h s2) ∧
    (∀ (c : Nat) (mem : Memory) (t : Tree) (g : Gen), treeInv h c t → c ≤ g.ctr →
      treeInv h (pushDown h mem t g).2.ctr (pushDown h mem t g).1) := by
  refine ⟨?_, ?_, ?_, ?_, ?_, ?_⟩
  · intro g
    exact (mkDummyTree_inv h g).1
  · intro s hInv lvl hlvl b hb
    exact all4B_spec _ hInv.2.2.1 lvl hlvl b hb
  · intro s id data hInv
    exact (storeData_inv h s id data hInv).1
  · intro s id r s2 hInv hok
    exact retrieveData_inv h s id r s2 hInv hok
  · intro s id r s2 hInv hok
    exact deleteData_inv h s id r s2 hInv hok
  · intro c mem t g hInv hg
    exact (pushDown_inv h c mem t g hInv hg).1

theorem claim_C5_witness :
    (∀ lvl ∈ c5Sys.tree.getD [], ∀ b ∈ lvl, b.length = BUCKET_SIZE) ∧
      sysInv 0 (storeData 0 c5Sys 2 "bbbb").2 ∧ sysInv 0 c5RetSys :=
  ⟨(claim_C5_bucket_size_invariant 0).2.1 c5Sys (by decide),
   (claim_C5_bucket_size_invariant 0).2.2.1 c5Sys 2 "bbbb" (by decide),
   (claim_C5_bucket_size_invariant 0).2.2.2.1 c5Sys 1 c5RetVal c5RetSys
     (by decide) (by decide)⟩

/-! ### Plaintext-level slot predicates and groundwork for the
store/retrieve round-trip -/

/-- The ten decimal digit characters. -/
def digitChars : List Char := ['0', '1', '2', '3', '4', '5', '6', '7', '8', '9']

theorem digitChar_mem (m : Nat) (hm : m < 10) : Nat.digitChar m ∈ digitChars := by
  revert hm
  revert m
  decide

theorem toDigitsCore_digits : ∀ (f n : Nat) (acc : List Char),
    (∀ c ∈ acc, c ∈ digitChars) →
    ∀ c ∈ Nat.toDigitsCore 10 f n acc, c ∈ digitChars := by
  intro f
  induction f with
  | zero =>
    intro n acc hacc c hc
    exact hacc c hc
  | succ f ih =>
    intro n acc hacc c hc
    unfold Nat.toDigitsCore at hc
    simp only [] at hc
    have hd : ∀ c2 ∈ (Nat.digitChar (n % 10) :: acc), c2 ∈ digitChars := by
      intro c2 hc2
      rcases List.mem_cons.mp hc2 with h1 | h1
      · subst h1
        exact digitChar_mem _ (Nat.mod_lt _ (by omega))
      · exact hacc c2 h1
    by_cases hz : n / 10 = 0
    · rw [if_pos hz] at hc
      exact hd c hc
    · rw [if_neg hz] at hc
      exact ih (n / 10) _ hd c hc

/-- Every character of `str(n)` is a decimal digit. -/
theorem repr_chars (n : Nat) : ∀ c ∈ (Nat.repr n).toList, c ∈ digitChars := by
  intro c hc
  have h2 : (Nat.repr n).toList = Nat.toDigitsCore 10 (n + 1) n [] := rfl
  rw [h2] at hc
  exact toDigitsCore_digits (n + 1) n [] (by intro c2 hc2; simp at hc2) c hc

theorem lowercase_not_digit : ∀ k, k < 26 → Char.ofNat (97 + k) ∉ digitChars := by
  decide

/-- A nonempty all-lowercase string is never `str(n)`. -/
theorem lower_ne_repr (p : String) (n : Nat)
    (hlow : ∀ c ∈ p.toList, ∃ k, k < 26 ∧ c = Char.ofNat (97 + k))
    (hne : p.toList ≠ []) : (p == Nat.repr n) = false := by
  apply beq_eq_false_iff_ne.mpr
  intro he
  cases hp : p.toList with
  | nil => exact hne hp
  | cons c cs =>
    have hc : c ∈ p.toList := by rw [hp]; exact List.mem_cons_self c cs
    obtain ⟨k, hk, hck⟩ := hlow c hc
    have hcd : c ∈ (Nat.repr n).toList := by rw [← he]; exact hc
    have := repr_chars n c hcd
    rw [hck] at this
    exact lowercase_not_digit k hk this

theorem drop_one_marked (s : String) : ("1" ++ s).drop 1 = s := by
  apply String.ext
  rw [String.data_drop, String.data_append]
  rfl

theorem take_one_marked (s : String) : ("1" ++ s).take 1 = "1" := by
  apply String.ext
  rw [String.data_take, String.data_append]
  rfl

/-- A stored real value `"1" ++ data` is never classified as a dummy. -/
theorem isDummyVal_real (nv : Nat) (data : String) :
    isDummyVal ⟨nv, "1" ++ data⟩ = false := by
  unfold isDummyVal fernetDecrypt
  rw [show (⟨nv, "1" ++ data⟩ : Ct).pt = "1" ++ data from rfl, take_one_marked]
  decide

/-- Two slots of a bucket with pairwise-distinct key nonces that share a
key are the same slot. -/
theorem key_inj (b : Bucket) (hnd : (bucketNonces b).Nodup)
    (kv1 kv2 : Ct × Ct) (h1 : kv1 ∈ b) (h2 : kv2 ∈ b) (hk : kv1.1 = kv2.1) :
    kv1 = kv2 := by
  rw [bucketNonces] at hnd
  apply List.inj_on_of_nodup_map hnd h1 h2
  rw [hk]

theorem dictDelete_mem (b : Bucket) (k : Ct) (kv : Ct × Ct) :
    kv ∈ dictDelete b k ↔ kv ∈ b ∧ ¬(kv.1 = k) := by
  unfold dictDelete
  rw [List.mem_filter]
  simp

theorem dictInsert_mem (b : Bucket) (k v : Ct) (kv : Ct × Ct)
    (hm : kv ∈ dictInsert b k v) : kv ∈ b ∨ kv = (k, v) := by
  unfold dictInsert at hm
  split at hm
  · rcases List.mem_map.mp hm with ⟨kv0, hkv0, he⟩
    by_cases hq : kv0.1 == k
    · rw [if_pos hq] at he
      exact Or.inr he.symm
    · rw [if_neg hq] at he
      exact Or.inl (he ▸ hkv0)
  · rcases List.mem_append.mp hm with h1 | h1
    · exact Or.inl h1
    · exact Or.inr (List.mem_singleton.mp h1)

/-- The bucket stored at node `(ℓ, j)` (the `getD`-normal form). -/
def bucketAt (t : Tree) (ℓ j : Nat) : Bucket := (t.getD ℓ []).getD j []

theorem bucketAt_getBucketD (t : Tree) (ℓ j : Nat) (hℓ : ℓ < t.length)
    (hj : j < (t.getD ℓ []).length) :
    (getBucket? t ℓ j).getD [] = bucketAt t ℓ j :=
  getBucketD_eq t ℓ j hℓ hj

theorem bucketAt_set_self (t : Tree) (ℓ j : Nat) (b2 : Bucket)
    (hℓ : ℓ < t.length) (hj : j < (t.getD ℓ []).length) :
    bucketAt (setBucket t ℓ j b2) ℓ j = b2 := by
  unfold bucketAt
  rw [setBucket_getD_self t ℓ j b2 hℓ, getD_set_self _ j b2 [] hj]

theorem bucketAt_set_ne (t : Tree) (ℓ j ℓ2 j2 : Nat) (b2 : Bucket)
    (hℓ : ℓ < t.length) (hne : ¬(ℓ2 = ℓ ∧ j2 = j)) :
    bucketAt (setBucket t ℓ j b2) ℓ2 j2 = bucketAt t ℓ2 j2 := by
  unfold bucketAt
  by_cases he : ℓ = ℓ2
  · subst he
    have hj : j ≠ j2 := fun hj => hne ⟨rfl, hj.symm⟩
    rw [setBucket_getD_self t ℓ j b2 hℓ, getD_set_ne _ j j2 b2 [] hj]
  · rw [setBucket_getD_other t ℓ ℓ2 j b2 he]

/-- A dummy slot relative to `id`: the value decrypts to a `'0'`-marked
string and the key does not decrypt to `str(id)`. -/
def dummySlot (id : Nat) (kv : Ct × Ct) : Prop :=
  isDummyVal kv.2 = true ∧ (fernetDecrypt kv.1 == Nat.repr id) = false

/-- The slot holding `id`'s record. -/
def realSlot (id : Nat) (data : String) (kv : Ct × Ct) : Prop :=
  kv.1.pt = Nat.repr id ∧ kv.2.pt = "1" ++ data

def bucketAllDummy (id : Nat) (b : Bucket) : Prop := ∀ kv ∈ b, dummySlot id kv

def bucketOneReal (id : Nat) (data : String) (b : Bucket) : Prop :=
  ∃ kv ∈ b, realSlot id data kv ∧ ∀ kv2 ∈ b, kv2 ≠ kv → dummySlot id kv2

theorem realSlot_not_dummy (id : Nat) (data : String) (kv : Ct × Ct)
    (hr : realSlot id data kv) : ¬ dummySlot id kv := by
  intro hd
  have h1 := hd.2
  rw [show fernetDecrypt kv.1 = kv.1.pt from rfl, hr.1] at h1
  simp at h1

theorem realSlot_val (id : Nat) (data : String) (kv : Ct × Ct)
    (hr : realSlot id data kv) : isDummyVal kv.2 = false := by
  unfold isDummyVal fernetDecrypt
  rw [hr.2, take_one_marked]
  decide

/-- The index of the rightmost (spine) node of a level. -/
def spineJ (ℓ : Nat) : Nat := 2 ^ ℓ - 1

theorem spineJ_child (ℓ : Nat) : 2 * spineJ ℓ + 1 = spineJ (ℓ + 1) := by
  unfold spineJ
  have h1 : 1 ≤ 2 ^ ℓ := Nat.one_le_two_pow
  have h2 : 2 ^ (ℓ + 1) = 2 * 2 ^ ℓ := by ring
  omega

theorem spineJ_lt (ℓ : Nat) : spineJ ℓ < 2 ^ ℓ := by
  unfold spineJ
  have h1 : 1 ≤ 2 ^ ℓ := Nat.one_le_two_pow
  omega

/-- The single-record tree state: one real slot for `id` sitting at the
right-spine node of level `ℓs`, all other slots dummies for `id`. -/
def GoodTree (h id : Nat) (data : String) (ℓs : Nat) (t : Tree) : Prop :=
  ℓs ≤ h ∧ bucketOneReal id data (bucketAt t ℓs (spineJ ℓs)) ∧
    ∀ ℓ j, ¬(ℓ = ℓs ∧ j = spineJ ℓs) → bucketAllDummy id (bucketAt t ℓ j)

/-- The single-record system state after a fresh store of `(id, data)`. -/
def GoodSys (h id : Nat) (data : String) (s : Sys) : Prop :=
  sysInv h s ∧
    (∃ ℓs, GoodTree h id data ℓs (s.tree.getD [])) ∧
    (∃ leaf, 2 ^ (h + 1) ≤ leaf ∧ leaf < 2 ^ (h + 2) ∧
      s.mem = [(id, ⟨natBin leaf, hmacTag id data⟩)])

/-- `find?` for `id`'s record on a one-real bucket returns the real slot. -/
theorem find?_real (id : Nat) (data : String) (b : Bucket)
    (hb : bucketOneReal id data b) :
    ∃ kv, b.find? (fun kv => fernetDecrypt kv.1 == Nat.repr id) = some kv ∧
      realSlot id data kv := by
  obtain ⟨kv, hkvb, hr, hothers⟩ := hb
  have hsome : (b.find? (fun kv => fernetDecrypt kv.1 == Nat.repr id)).isSome := by
    rw [List.find?_isSome]
    refine ⟨kv, hkvb, ?_⟩
    rw [show fernetDecrypt kv.1 = kv.1.pt from rfl, hr.1]
    simp
  cases hf : b.find? (fun kv => fernetDecrypt kv.1 == Nat.repr id) with
  | none => rw [hf] at hsome; simp at hsome
  | some kv2 =>
    refine ⟨kv2, rfl, ?_⟩
    have hmem := List.mem_of_find?_eq_some hf
    have hp := List.find?_some hf
    by_cases he : kv2 = kv
    · rw [he]; exact hr
    · have hd := hothers kv2 hmem he
      rw [hd.2] at hp
      exact absurd hp (by simp)

/-- `find?` for `id`'s record on an all-dummy bucket misses. -/
theorem find?_real_none (id : Nat) (b : Bucket) (hb : bucketAllDummy id b) :
    b.find? (fun kv => fernetDecrypt kv.1 == Nat.repr id) = none := by
  rw [List.find?_eq_none]
  intro kv hkv
  rw [(hb kv hkv).2]
  simp

/-- A bucket of at least two slots with at most one real entry has a dummy
slot, and `find?` for a dummy value returns a dummy slot of the bucket. -/
theorem find?_dummy (id : Nat) (data : String) (b : Bucket)
    (hnd : (bucketNonces b).Nodup)
    (hb : bucketAllDummy id b ∨ bucketOneReal id data b)
    (hlen : 2 ≤ b.length) :
    ∃ dkv, b.find? (fun kv => isDummyVal kv.2) = some dkv ∧ dkv ∈ b ∧
      dummySlot id dkv := by
  have hbnd : b.Nodup := List.Nodup.of_map _ (by rw [← bucketNonces]; exact hnd)
  have hsome : (b.find? (fun kv => isDummyVal kv.2)).isSome := by
    rw [List.find?_isSome]
    rcases hb with hall | ⟨kv, hkvb, _, hothers⟩
    · have h0 : 0 < b.length := by omega
      refine ⟨b.getD 0 (⟨0, ""⟩, ⟨0, ""⟩), getD_mem b 0 _ h0, ?_⟩
      exact (hall _ (getD_mem b 0 _ h0)).1
    · have h0 : 0 < b.length := by omega
      have h1 : 1 < b.length := by omega
      have hne : b.getD 0 (⟨0, ""⟩, ⟨0, ""⟩) ≠ b.getD 1 (⟨0, ""⟩, ⟨0, ""⟩) := by
        intro he
        have e0 : b.getD 0 (⟨0, ""⟩, ⟨0, ""⟩) = b[0] := by
          rw [List.getD_eq_getElem?_getD, List.getElem?_eq_getElem h0]
          rfl
        have e1 : b.getD 1 (⟨0, ""⟩, ⟨0, ""⟩) = b[1] := by
          rw [List.getD_eq_getElem?_getD, List.getElem?_eq_getElem h1]
          rfl
        rw [e0, e1] at he
        exact absurd ((List.Nodup.getElem_inj_iff hbnd).mp he) (by omega)
      by_cases he0 : b.getD 0 (⟨0, ""⟩, ⟨0, ""⟩) = kv
      · refine ⟨b.getD 1 (⟨0, ""⟩, ⟨0, ""⟩), getD_mem b 1 _ h1, ?_⟩
        have hne1 : b.getD 1 (⟨0, ""⟩, ⟨0, ""⟩) ≠ kv := by
          rw [← he0]
          exact fun he => hne he.symm
        exact (hothers _ (getD_mem b 1 _ h1) hne1).1
      · refine ⟨b.getD 0 (⟨0, ""⟩, ⟨0, ""⟩), getD_mem b 0 _ h0, ?_⟩
        exact (hothers _ (getD_mem b 0 _ h0) he0).1
  cases hf : b.find? (fun kv => isDummyVal kv.2) with
  | none => rw [hf] at hsome; simp at hsome
  | some dkv =>
    refine ⟨dkv, rfl, List.mem_of_find?_eq_some hf, ?_⟩
    have hp := List.find?_some hf
    rcases hb with hall | ⟨kv, hkvb, hr, hothers⟩
    · exact hall dkv (List.mem_of_find?_eq_some hf)
    · by_cases he : dkv = kv
      · rw [he] at hp
        rw [realSlot_val id data kv hr] at hp
        exact absurd hp (by simp)
      · exact hothers dkv (List.mem_of_find?_eq_some hf) he

/-- Re-encryption of a bucket's slots under consecutive fresh nonces. -/
def reEnc : Bucket → Nat → Bucket
  | [], _ => []
  | kv :: rest, c => (⟨c, kv.1.pt⟩, ⟨c + 1, kv.2.pt⟩) :: reEnc rest (c + 2)

theorem encryptNodeGo_eq : ∀ (src acc : Bucket) (g : Gen),
    (∀ x ∈ bucketNonces acc, x < g.ctr) →
    (encryptNodeGo src acc g).1 = acc ++ reEnc src g.ctr := by
  intro src
  induction src with
  | nil =>
    intro acc g _
    simp [encryptNodeGo, reEnc]
  | cons kv rest ih =>
    intro acc g hlt
    unfold encryptNodeGo
    simp only [encNew, fernetDecrypt]
    have hfr : (⟨g.ctr, kv.1.pt⟩ : Ct).nonce ∉ bucketNonces acc := by
      intro hm
      have h2 := hlt _ hm
      simp only [Ct.nonce] at h2
      omega
    rw [dictInsert_fresh acc _ _ hfr]
    have hlt' : ∀ x ∈ bucketNonces (acc ++ [(⟨g.ctr, kv.1.pt⟩, ⟨g.ctr + 1, kv.2.pt⟩)]),
        x < (⟨g.ctr + 1 + 1, g.ints⟩ : Gen).ctr := by
      intro x hx
      have hbn : bucketNonces (acc ++ [(⟨g.ctr, kv.1.pt⟩, ⟨g.ctr + 1, kv.2.pt⟩)]) =
          bucketNonces acc ++ [g.ctr] := by simp [bucketNonces]
      rw [hbn] at hx
      rcases List.mem_append.mp hx with h1 | h1
      · have h2 := hlt _ h1
        show x < g.ctr + 1 + 1
        omega
      · rw [List.mem_singleton] at h1
        subst h1
        show g.ctr < g.ctr + 1 + 1
        omega
    rw [ih _ _ hlt']
    show acc ++ [(⟨g.ctr, kv.1.pt⟩, ⟨g.ctr + 1, kv.2.pt⟩)] ++ reEnc rest (g.ctr + 1 + 1) =
      acc ++ reEnc (kv :: rest) g.ctr
    rw [reEnc]
    simp [List.append_assoc]

theorem reEnc_append : ∀ (b1 b2 : Bucket) (c : Nat),
    reEnc (b1 ++ b2) c = reEnc b1 c ++ reEnc b2 (c + 2 * b1.length) := by
  intro b1
  induction b1 with
  | nil =>
    intro b2 c
    simp [reEnc]
  | cons kv rest ih =>
    intro b2 c
    show reEnc (kv :: (rest ++ b2)) c = reEnc (kv :: rest) c ++ reEnc b2 _
    rw [reEnc, reEnc, ih b2 (c + 2)]
    simp only [List.cons_append, List.length_cons]
    have : c + 2 + 2 * rest.length = c + 2 * (rest.length + 1) := by omega
    rw [this]

theorem reEnc_mem : ∀ (src : Bucket) (c : Nat) (kv : Ct × Ct),
    kv ∈ reEnc src c → ∃ kv0 ∈ src, kv.1.pt = kv0.1.pt ∧ kv.2.pt = kv0.2.pt := by
  intro src
  induction src with
  | nil =>
    intro c kv hm
    simp [reEnc] at hm
  | cons kv0 rest ih =>
    intro c kv hm
    rw [reEnc] at hm
    rcases List.mem_cons.mp hm with h1 | h1
    · exact ⟨kv0, List.mem_cons_self _ _, by rw [h1], by rw [h1]⟩
    · obtain ⟨kv1, hkv1, he⟩ := ih (c + 2) kv h1
      exact ⟨kv1, List.mem_cons_of_mem _ hkv1, he⟩

/-- `dummySlot` only depends on the two plaintexts. -/
theorem dummySlot_pts (id : Nat) (kv kv0 : Ct × Ct)
    (h1 : kv.1.pt = kv0.1.pt) (h2 : kv.2.pt = kv0.2.pt)
    (hd : dummySlot id kv0) : dummySlot id kv := by
  unfold dummySlot isDummyVal fernetDecrypt at *
  rw [h1, h2]
  exact hd

/-! ### One push preserves the single-record state -/

theorem oneReal_witness (id : Nat) (data : String) (b : Bucket)
    (hone : bucketOneReal id data b) (kv : Ct × Ct) (hkv : kv ∈ b)
    (hr : realSlot id data kv) : ∀ kv2 ∈ b, kv2 ≠ kv → dummySlot id kv2 := by
  obtain ⟨kvR, hmR, hrR, hoth⟩ := hone
  have he : kv = kvR := by
    by_contra hne
    exact realSlot_not_dummy id data kv hr (hoth kv hkv hne)
  intro kv2 h2 hne
  exact hoth kv2 h2 (by rw [← he]; exact hne)

/-- Deleting any slot of an all-dummy bucket and appending a dummy keeps
it all-dummy. -/
theorem surgery_allDummy (id : Nat) (b : Bucket) (kdel knew vnew : Ct)
    (hall : bucketAllDummy id b) (hnew : dummySlot id (knew, vnew)) :
    bucketAllDummy id (dictDelete b kdel ++ [(knew, vnew)]) := by
  intro kv hkv
  rcases List.mem_append.mp hkv with h1 | h1
  · exact hall kv ((dictDelete_mem b kdel kv).mp h1).1
  · rw [List.mem_singleton] at h1
    subst h1
    exact hnew

/-- Deleting a slot whose key is not the real one from a one-real bucket
and appending a dummy keeps it one-real. -/
theorem surgery_oneReal_delDummy (id : Nat) (data : String) (b : Bucket)
    (kdel knew vnew : Ct)
    (hone : bucketOneReal id data b)
    (hkdel : ∀ kvR ∈ b, realSlot id data kvR → ¬(kvR.1 = kdel))
    (hnew : dummySlot id (knew, vnew)) :
    bucketOneReal id data (dictDelete b kdel ++ [(knew, vnew)]) := by
  obtain ⟨kvR, hmR, hrR, hoth⟩ := hone
  refine ⟨kvR, ?_, hrR, ?_⟩
  · exact List.mem_append_left _ ((dictDelete_mem b kdel kvR).mpr
      ⟨hmR, hkdel kvR hmR hrR⟩)
  · intro kv2 h2 hne
    rcases List.mem_append.mp h2 with h1 | h1
    · exact hoth kv2 ((dictDelete_mem b kdel kv2).mp h1).1 hne
    · rw [List.mem_singleton] at h1
      subst h1
      exact hnew

/-- Deleting the real slot of a one-real bucket and appending a dummy
makes it all-dummy. -/
theorem surgery_oneReal_delReal (id : Nat) (data : String) (b : Bucket)
    (kvR : Ct × Ct) (knew vnew : Ct)
    (hmR : kvR ∈ b) (hrR : realSlot id data kvR)
    (hoth : ∀ kv2 ∈ b, kv2 ≠ kvR → dummySlot id kv2)
    (hnew : dummySlot id (knew, vnew)) :
    bucketAllDummy id (dictDelete b kvR.1 ++ [(knew, vnew)]) := by
  intro kv hkv
  rcases List.mem_append.mp hkv with h1 | h1
  · obtain ⟨hmem, hkey⟩ := (dictDelete_mem b kvR.1 kv).mp h1
    refine hoth kv hmem ?_
    intro he
    exact hkey (by rw [he])
  · rw [List.mem_singleton] at h1
    subst h1
    exact hnew

/-- Deleting any slot of an all-dummy bucket and appending the real slot
makes it one-real. -/
theorem surgery_allDummy_insReal (id : Nat) (data : String) (b : Bucket)
    (kdel : Ct) (kvNew : Ct × Ct)
    (hall : bucketAllDummy id b) (hreal : realSlot id data kvNew) :
    bucketOneReal id data (dictDelete b kdel ++ [kvNew]) := by
  refine ⟨kvNew, List.mem_append_right _ (List.mem_singleton.mpr rfl), hreal, ?_⟩
  intro kv2 h2 hne
  rcases List.mem_append.mp h2 with h1 | h1
  · exact hall kv2 ((dictDelete_mem b kdel kv2).mp h1).1
  · exact absurd (List.mem_singleton.mp h1) hne

/-- Full characterization of `pushMove` when the child bucket has a dummy
slot: the parent slot is deleted and replaced by a fresh all-lowercase
dummy, and the entry lands over the first dummy slot of the child. -/
theorem pushMove_eq (h c : Nat) (t : Tree) (ℓ j childJ : Nat) (kv : Ct × Ct) (g : Gen)
    (hInv : treeInv h c t) (hg : c ≤ g.ctr)
    (hℓ : ℓ + 1 < t.length)
    (hjL : j < (t.getD ℓ []).length)
    (hcjL : childJ < (t.getD (ℓ + 1) []).length)
    (hkvK : kv.1 ∈ bucketKeys ((getBucket? t ℓ j).getD []))
    (hfind : ∃ dkv0, (bucketAt t (ℓ + 1) childJ).find? (fun kv2 => isDummyVal kv2.2) =
      some dkv0) :
    ∃ sk dkv2,
      (bucketAt t (ℓ + 1) childJ).find? (fun kv2 => isDummyVal kv2.2) = some dkv2 ∧
      (∀ c2 ∈ sk.toList, ∃ k, k < 26 ∧ c2 = Char.ofNat (97 + k)) ∧
      sk.toList.length = DUMMY_LEN ∧
      (pushMove kv t ℓ j childJ g).1 =
        setBucket (setBucket t ℓ j
            (dictDelete (bucketAt t ℓ j) kv.1 ++ [(⟨g.ctr, sk⟩, ⟨g.ctr + 1, "00000"⟩)]))
          (ℓ + 1) childJ
          (dictDelete (bucketAt t (ℓ + 1) childJ) dkv2.1 ++ [kv]) := by
  have hℓ0 : ℓ < t.length := by omega
  have beqb : (getBucket? t ℓ j).getD [] = bucketAt t ℓ j :=
    bucketAt_getBucketD t ℓ j hℓ0 hjL
  obtain ⟨sk, rest, hmk, hskchars, hsklen⟩ := mkDummy_eq g
  have hblt : ∀ x ∈ bucketNonces ((getBucket? t ℓ j).getD []), x < c :=
    fun x hx => hInv.2.2.2 x (bucketAt_sub t ℓ j hℓ0 hjL x hx)
  have hfr : (⟨g.ctr, sk⟩ : Ct).nonce ∉ bucketNonces ((getBucket? t ℓ j).getD []) := by
    intro hm
    have h2 := hblt _ hm
    simp only [Ct.nonce] at h2
    omega
  have hfr2 : (⟨g.ctr, sk⟩ : Ct).nonce ∉
      bucketNonces (dictDelete ((getBucket? t ℓ j).getD []) kv.1) :=
    fun hm => hfr ((dictDelete_sublist _ kv.1).subset hm)
  have hP2eq : dictInsert (dictDelete ((getBucket? t ℓ j).getD []) kv.1)
      ⟨g.ctr, sk⟩ ⟨g.ctr + 1, "00000"⟩ =
      dictDelete (bucketAt t ℓ j) kv.1 ++ [(⟨g.ctr, sk⟩, ⟨g.ctr + 1, "00000"⟩)] := by
    rw [dictInsert_fresh _ _ _ hfr2, beqb]
  have hkvout : kv.1.nonce ∉ treeNonces (setBucket t ℓ j
      (dictInsert (dictDelete ((getBucket? t ℓ j).getD []) kv.1)
        ⟨g.ctr, sk⟩ ⟨g.ctr + 1, "00000"⟩)) :=
    replaceSlot_setBucket_delOut h c t ℓ j kv.1 ⟨g.ctr, sk⟩ ⟨g.ctr + 1, "00000"⟩
      hInv hℓ0 hjL hkvK hfr
  have hlen_set : (setBucket t ℓ j (dictInsert (dictDelete ((getBucket? t ℓ j).getD []) kv.1)
      ⟨g.ctr, sk⟩ ⟨g.ctr + 1, "00000"⟩)).length = t.length := setBucket_length t ℓ j _
  have hlvl_same : (setBucket t ℓ j (dictInsert (dictDelete ((getBucket? t ℓ j).getD []) kv.1)
      ⟨g.ctr, sk⟩ ⟨g.ctr + 1, "00000"⟩)).getD (ℓ + 1) [] = t.getD (ℓ + 1) [] :=
    setBucket_getD_other t ℓ (ℓ + 1) j _ (by omega)
  have hb1' : ℓ + 1 < (setBucket t ℓ j (dictInsert (dictDelete ((getBucket? t ℓ j).getD []) kv.1)
      ⟨g.ctr, sk⟩ ⟨g.ctr + 1, "00000"⟩)).length := by rw [hlen_set]; exact hℓ
  have hb2' : childJ < ((setBucket t ℓ j (dictInsert (dictDelete ((getBucket? t ℓ j).getD []) kv.1)
      ⟨g.ctr, sk⟩ ⟨g.ctr + 1, "00000"⟩)).getD (ℓ + 1) []).length := by
    rw [hlvl_same]; exact hcjL
  have beqc1 : (getBucket? (setBucket t ℓ j
      (dictInsert (dictDelete ((getBucket? t ℓ j).getD []) kv.1)
        ⟨g.ctr, sk⟩ ⟨g.ctr + 1, "00000"⟩)) (ℓ + 1) childJ).getD [] =
      bucketAt t (ℓ + 1) childJ := by
    rw [bucketAt_getBucketD _ (ℓ + 1) childJ hb1' hb2']
    unfold bucketAt
    rw [hlvl_same]
  unfold pushMove
  rw [hmk]
  simp only []
  cases hf : ((getBucket? (setBucket t ℓ j
      (dictInsert (dictDelete ((getBucket? t ℓ j).getD []) kv.1)
        ⟨g.ctr, sk⟩ ⟨g.ctr + 1, "00000"⟩)) (ℓ + 1) childJ).getD []).find?
      (fun kv2 => isDummyVal kv2.2) with
  | none =>
    rw [beqc1] at hf
    obtain ⟨dkv0, hfd⟩ := hfind
    rw [hf] at hfd
    exact absurd hfd (by simp)
  | some dkv2 =>
    have hf2 : (bucketAt t (ℓ + 1) childJ).find? (fun kv2 => isDummyVal kv2.2) =
        some dkv2 := by
      rw [← beqc1]
      exact hf
    refine ⟨sk, dkv2, hf2, hskchars, hsklen, ?_⟩
    simp only []
    have hfrkv2 : kv.1.nonce ∉
        bucketNonces (dictDelete ((getBucket? (setBucket t ℓ j
          (dictInsert (dictDelete ((getBucket? t ℓ j).getD []) kv.1)
            ⟨g.ctr, sk⟩ ⟨g.ctr + 1, "00000"⟩)) (ℓ + 1) childJ).getD []) dkv2.1) := by
      intro hm
      apply hkvout
      apply bucketAt_sub _ (ℓ + 1) childJ hb1' hb2'
      exact (dictDelete_sublist _ dkv2.1).subset hm
    rw [dictInsert_fresh _ _ _ hfrkv2, beqc1, hP2eq]

theorem isDummyVal_zeros (n : Nat) : isDummyVal ⟨n, "00000"⟩ = true := by
  unfold isDummyVal fernetDecrypt
  show (("00000" : String).take 1 == "0") = true
  decide

/-- One `pushMove` from a single-record tree yields a single-record tree
(the record stays put, or — when it is itself pushed — moves one level
down the right spine). -/
theorem pushMove_good (h c id : Nat) (data : String) (t : Tree) (ℓ j childJ : Nat)
    (kv : Ct × Ct) (g : Gen) (ℓs : Nat)
    (hInv : treeInv h c t) (hg : c ≤ g.ctr)
    (hℓh : ℓ + 1 ≤ h) (hj2 : j < 2 ^ ℓ) (hcj2 : childJ < 2 ^ (ℓ + 1))
    (hkv : kv ∈ bucketAt t ℓ j)
    (hG : GoodTree h id data ℓs t)
    (hdir : realSlot id data kv → childJ = 2 * j + 1) :
    ∃ ℓs2, GoodTree h id data ℓs2 (pushMove kv t ℓ j childJ g).1 := by
  obtain ⟨hlen, hwid⟩ := shapeB_spec h t hInv.1
  have hℓ : ℓ + 1 < t.length := by omega
  have hℓ0 : ℓ < t.length := by omega
  have hjL : j < (t.getD ℓ []).length := by
    rw [hwid ℓ (by omega)]
    exact hj2
  have hcjL : childJ < (t.getD (ℓ + 1) []).length := by
    rw [hwid (ℓ + 1) (by omega)]
    exact hcj2
  have beqb := bucketAt_getBucketD t ℓ j hℓ0 hjL
  have beqc := bucketAt_getBucketD t (ℓ + 1) childJ hℓ hcjL
  have hkvK : kv.1 ∈ bucketKeys ((getBucket? t ℓ j).getD []) := by
    rw [beqb]
    exact List.mem_map_of_mem Prod.fst hkv
  have hnd_par : (bucketNonces (bucketAt t ℓ j)).Nodup := by
    have h2 := bucketAt_nodup h c t ℓ j hInv hℓ0 hjL
    rwa [beqb] at h2
  have hnd_ch : (bucketNonces (bucketAt t (ℓ + 1) childJ)).Nodup := by
    have h2 := bucketAt_nodup h c t (ℓ + 1) childJ hInv hℓ hcjL
    rwa [beqc] at h2
  have hlen_ch : (bucketAt t (ℓ + 1) childJ).length = BUCKET_SIZE := by
    have h2 := bucketAt_len h c t (ℓ + 1) childJ hInv hℓ hcjL
    rwa [beqc] at h2
  have hchildchar : bucketAllDummy id (bucketAt t (ℓ + 1) childJ) ∨
      bucketOneReal id data (bucketAt t (ℓ + 1) childJ) := by
    by_cases hcs : ℓ + 1 = ℓs ∧ childJ = spineJ ℓs
    · refine Or.inr ?_
      rw [hcs.1, hcs.2]
      exact hG.2.1
    · exact Or.inl (hG.2.2 (ℓ + 1) childJ hcs)
  obtain ⟨dkv0, hfd0, _, _⟩ := find?_dummy id data (bucketAt t (ℓ + 1) childJ) hnd_ch
    hchildchar (by rw [hlen_ch]; decide)
  obtain ⟨sk, dkv2, hf2, hskchars, hsklen, hres⟩ := pushMove_eq h c t ℓ j childJ kv g
    hInv hg hℓ hjL hcjL hkvK ⟨dkv0, hfd0⟩
  have hdkv2mem : dkv2 ∈ bucketAt t (ℓ + 1) childJ := List.mem_of_find?_eq_some hf2
  have hdkv2val : isDummyVal dkv2.2 = true := by simpa using List.find?_some hf2
  have hdkv2dummy : dummySlot id dkv2 := by
    rcases hchildchar with hall | hone
    · exact hall dkv2 hdkv2mem
    · obtain ⟨kvR, hmR, hrR, hoth⟩ := hone
      by_cases he : dkv2 = kvR
      · rw [he, realSlot_val id data kvR hrR] at hdkv2val
        exact absurd hdkv2val (by simp)
      · exact hoth dkv2 hdkv2mem he
  have hdkDummy : dummySlot id (⟨g.ctr, sk⟩, ⟨g.ctr + 1, "00000"⟩) := by
    constructor
    · exact isDummyVal_zeros (g.ctr + 1)
    · exact lower_ne_repr sk id hskchars
        (by intro he; rw [he] at hsklen; simp [DUMMY_LEN] at hsklen)
  rw [hres]
  set P2app := dictDelete (bucketAt t ℓ j) kv.1 ++
    [(⟨g.ctr, sk⟩, ⟨g.ctr + 1, "00000"⟩)] with hP2app
  set C2app := dictDelete (bucketAt t (ℓ + 1) childJ) dkv2.1 ++ [kv] with hC2app
  set t1p := setBucket t ℓ j P2app with ht1pd
  have hlen1 : t1p.length = t.length := setBucket_length t ℓ j P2app
  have hlvl1 : t1p.getD (ℓ + 1) [] = t.getD (ℓ + 1) [] :=
    setBucket_getD_other t ℓ (ℓ + 1) j P2app (by omega)
  have hb1p : ℓ + 1 < t1p.length := by rw [hlen1]; exact hℓ
  have hb2p : childJ < (t1p.getD (ℓ + 1) []).length := by rw [hlvl1]; exact hcjL
  have hbc : bucketAt (setBucket t1p (ℓ + 1) childJ C2app) (ℓ + 1) childJ = C2app :=
    bucketAt_set_self t1p (ℓ + 1) childJ C2app hb1p hb2p
  have hbp : bucketAt (setBucket t1p (ℓ + 1) childJ C2app) ℓ j = P2app := by
    rw [bucketAt_set_ne t1p (ℓ + 1) childJ ℓ j C2app hb1p (by omega)]
    exact bucketAt_set_self t ℓ j P2app hℓ0 hjL
  have hbo : ∀ ℓ2 j2, ¬(ℓ2 = ℓ ∧ j2 = j) → ¬(ℓ2 = ℓ + 1 ∧ j2 = childJ) →
      bucketAt (setBucket t1p (ℓ + 1) childJ C2app) ℓ2 j2 = bucketAt t ℓ2 j2 := by
    intro ℓ2 j2 hne1 hne2
    rw [bucketAt_set_ne t1p (ℓ + 1) childJ ℓ2 j2 C2app hb1p hne2,
      bucketAt_set_ne t ℓ j ℓ2 j2 P2app hℓ0 hne1]
  by_cases hreal : realSlot id data kv
  · have hspine : ℓ = ℓs ∧ j = spineJ ℓs := by
      by_contra hn
      exact realSlot_not_dummy id data kv hreal (hG.2.2 ℓ j hn kv hkv)
    obtain ⟨heℓ, hej⟩ := hspine
    have hcj1 : childJ = 2 * j + 1 := hdir hreal
    have hcsp : childJ = spineJ (ℓ + 1) := by
      rw [hcj1, hej, heℓ]
      exact spineJ_child ℓs
    have honepar : bucketOneReal id data (bucketAt t ℓ j) := by
      rw [heℓ, hej]
      exact hG.2.1
    have hothers := oneReal_witness id data _ honepar kv hkv hreal
    refine ⟨ℓs + 1, ⟨by omega, ?_, ?_⟩⟩
    · rw [show ℓs + 1 = ℓ + 1 from by omega, ← hcsp, hbc]
      have hchildall : bucketAllDummy id (bucketAt t (ℓ + 1) childJ) :=
        hG.2.2 (ℓ + 1) childJ (fun hcc => by omega)
      exact surgery_allDummy_insReal id data _ dkv2.1 kv hchildall hreal
    · intro ℓ2 j2 hne
      by_cases hp : ℓ2 = ℓ ∧ j2 = j
      · have he2 : bucketAt (setBucket t1p (ℓ + 1) childJ C2app) ℓ2 j2 = P2app := by
          rw [hp.1, hp.2]
          exact hbp
        rw [he2]
        exact surgery_oneReal_delReal id data _ kv ⟨g.ctr, sk⟩ ⟨g.ctr + 1, "00000"⟩
          hkv hreal hothers hdkDummy
      · by_cases hc : ℓ2 = ℓ + 1 ∧ j2 = childJ
        · exact absurd ⟨by omega, by rw [hc.2, hcsp, heℓ]⟩ hne
        · rw [hbo ℓ2 j2 hp hc]
          refine hG.2.2 ℓ2 j2 ?_
          rintro ⟨ha, hb2⟩
          exact hp ⟨by omega, by rw [hb2, ← hej]⟩
  · have hkvd : dummySlot id kv := by
      by_cases hp : ℓ = ℓs ∧ j = spineJ ℓs
      · have hone : bucketOneReal id data (bucketAt t ℓ j) := by
          rw [hp.1, hp.2]
          exact hG.2.1
        obtain ⟨kvR, hmR, hrR, hoth⟩ := hone
        by_cases he : kv = kvR
        · exact absurd (he ▸ hrR) hreal
        · exact hoth kv hkv he
      · exact hG.2.2 ℓ j hp kv hkv
    refine ⟨ℓs, ⟨hG.1, ?_, ?_⟩⟩
    · by_cases hp : ℓ = ℓs ∧ j = spineJ ℓs
      · have he2 : bucketAt (setBucket t1p (ℓ + 1) childJ C2app) ℓs (spineJ ℓs) = P2app := by
          rw [← hp.2, ← hp.1]
          exact hbp
        rw [he2]
        have honepar : bucketOneReal id data (bucketAt t ℓ j) := by
          rw [hp.1, hp.2]
          exact hG.2.1
        refine surgery_oneReal_delDummy id data _ kv.1 _ _ honepar ?_ hdkDummy
        intro kvR hmR hrR hkey
        have he := key_inj _ hnd_par kvR kv hmR hkv hkey
        exact hreal (he ▸ hrR)
      · by_cases hc : ℓ + 1 = ℓs ∧ childJ = spineJ ℓs
        · have he2 : bucketAt (setBucket t1p (ℓ + 1) childJ C2app) ℓs (spineJ ℓs) = C2app := by
            rw [← hc.2, ← hc.1]
            exact hbc
          rw [he2]
          have honec : bucketOneReal id data (bucketAt t (ℓ + 1) childJ) := by
            rw [hc.1, hc.2]
            exact hG.2.1
          refine surgery_oneReal_delDummy id data _ dkv2.1 kv.1 kv.2 honec ?_ hkvd
          intro kvR hmR hrR hkey
          have he := key_inj _ hnd_ch kvR dkv2 hmR hdkv2mem hkey
          exact realSlot_not_dummy id data dkv2 (he ▸ hrR) hdkv2dummy
        · have he2 : bucketAt (setBucket t1p (ℓ + 1) childJ C2app) ℓs (spineJ ℓs) =
              bucketAt t ℓs (spineJ ℓs) := by
            refine hbo ℓs (spineJ ℓs) ?_ ?_
            · rintro ⟨ha, hb2⟩
              exact hp ⟨ha.symm, hb2.symm⟩
            · rintro ⟨ha, hb2⟩
              exact hc ⟨ha.symm, hb2.symm⟩
          rw [he2]
          exact hG.2.1
    · intro ℓ2 j2 hne
      by_cases hp2 : ℓ2 = ℓ ∧ j2 = j
      · have he2 : bucketAt (setBucket t1p (ℓ + 1) childJ C2app) ℓ2 j2 = P2app := by
          rw [hp2.1, hp2.2]
          exact hbp
        rw [he2]
        have hpar_ne : ¬(ℓ = ℓs ∧ j = spineJ ℓs) := by
          rintro ⟨ha, hb2⟩
          exact hne ⟨by omega, by rw [hp2.2, hb2]⟩
        exact surgery_allDummy id _ kv.1 _ _ (hG.2.2 ℓ j hpar_ne) hdkDummy
      · by_cases hc2 : ℓ2 = ℓ + 1 ∧ j2 = childJ
        · have he2 : bucketAt (setBucket t1p (ℓ + 1) childJ C2app) ℓ2 j2 = C2app := by
            rw [hc2.1, hc2.2]
            exact hbc
          rw [he2]
          have hch_ne : ¬(ℓ + 1 = ℓs ∧ childJ = spineJ ℓs) := by
            rintro ⟨ha, hb2⟩
            exact hne ⟨by omega, by rw [hc2.2, hb2]⟩
          exact surgery_allDummy id _ dkv2.1 kv.1 kv.2 (hG.2.2 (ℓ + 1) childJ hch_ne) hkvd
        · rw [hbo ℓ2 j2 hp2 hc2]
          exact hG.2.2 ℓ2 j2 hne

/-- One `pushSelected` from a single-record tree yields a single-record
tree: a selected dummy goes to a random child; the selected record (whose
direction read is the always-right `str`-vs-`int` comparison) moves down
the right spine. -/
theorem pushSelected_good (h c id : Nat) (data : String) (mem : Memory) (ℓ j : Nat)
    (kv : Ct × Ct) (t : Tree) (g : Gen) (ℓs : Nat)
    (hInv : treeInv h c t) (hg : c ≤ g.ctr)
    (hℓh : ℓ + 1 ≤ h) (hj2 : j < 2 ^ ℓ)
    (hkv : kv ∈ bucketAt t ℓ j)
    (hG : GoodTree h id data ℓs t) :
    ∃ ℓs2, GoodTree h id data ℓs2 (pushSelected mem ℓ j kv t g).1 := by
  unfold pushSelected
  rcases hd : pushDirection mem ℓ kv g with ⟨dir, g1⟩
  simp only []
  have hg1 : g1.ctr = g.ctr := by
    have h2 := pushDirection_ctr mem ℓ kv g
    rw [hd] at h2
    exact h2
  have hp2 : 2 ^ (ℓ + 1) = 2 * 2 ^ ℓ := by ring
  have hcj2 : 2 * j + (if dir then 1 else 0) < 2 ^ (ℓ + 1) := by
    have hle : (if dir then 1 else 0) ≤ 1 := by cases dir <;> simp
    omega
  refine pushMove_good h c id data t ℓ j _ kv g1 ℓs hInv (by rw [hg1]; exact hg)
    hℓh hj2 hcj2 hkv hG ?_
  intro hreal
  have hval := realSlot_val id data kv hreal
  unfold pushDirection at hd
  rw [if_neg (by rw [hval]; simp)] at hd
  have hdir1 : dir = true := by
    have h2 := congrArg Prod.fst hd
    simp [pyStrEqInt] at h2
    exact h2
  rw [hdir1]
  simp

theorem randAndPush_good (h c id : Nat) (data : String) (mem : Memory) (ℓ j : Nat)
    (t : Tree) (g : Gen) (ℓs : Nat)
    (hInv : treeInv h c t) (hg : c ≤ g.ctr)
    (hℓh : ℓ + 1 ≤ h) (hj2 : j < 2 ^ ℓ)
    (hG : GoodTree h id data ℓs t) :
    ∃ ℓs2, GoodTree h id data ℓs2 (randAndPush mem ℓ j t g).1 := by
  obtain ⟨hb1, hb2, hb3⟩ := treeInv_bounds h c t hInv ℓ j hℓh hj2
  have hℓ0 : ℓ < t.length := by omega
  have beqb := bucketAt_getBucketD t ℓ j hℓ0 hb2
  have hlen4 : ((getBucket? t ℓ j).getD []).length = BUCKET_SIZE :=
    bucketAt_len h c t ℓ j hInv hℓ0 hb2
  have hnd_b : (bucketNonces ((getBucket? t ℓ j).getD [])).Nodup :=
    bucketAt_nodup h c t ℓ j hInv hℓ0 hb2
  rcases hdp : drawDistinctPair BUCKET_SIZE g with ⟨⟨a, bidx⟩, g1⟩
  have hspec := drawDistinctPair_spec BUCKET_SIZE (by decide) g
  rw [hdp] at hspec
  simp only [] at hspec
  obtain ⟨ha4, hbidx4, hne, hg1⟩ := hspec
  have haL : a < ((getBucket? t ℓ j).getD []).length := by rw [hlen4]; exact ha4
  have hbL : bidx < ((getBucket? t ℓ j).getD []).length := by rw [hlen4]; exact hbidx4
  have hkv1mem : ((getBucket? t ℓ j).getD []).getD a (⟨0, ""⟩, ⟨0, ""⟩) ∈ bucketAt t ℓ j := by
    rw [← beqb]
    exact getD_mem _ a _ haL
  have hkv2memb : ((getBucket? t ℓ j).getD []).getD bidx (⟨0, ""⟩, ⟨0, ""⟩) ∈
      (getBucket? t ℓ j).getD [] := getD_mem _ bidx _ hbL
  obtain ⟨ht1, hc1, dk, dv, hpar⟩ := pushSelected_inv h c mem ℓ j
    (((getBucket? t ℓ j).getD []).getD a (⟨0, ""⟩, ⟨0, ""⟩)) t g1 hInv
    (by rw [hg1]; exact hg) hb1 hb2 hb3
    (List.mem_map_of_mem Prod.fst (getD_mem _ a _ haL))
  obtain ⟨ℓs1, hGood1⟩ := pushSelected_good h c id data mem ℓ j
    (((getBucket? t ℓ j).getD []).getD a (⟨0, ""⟩, ⟨0, ""⟩)) t g1 ℓs hInv
    (by rw [hg1]; exact hg) hℓh hj2 hkv1mem hG
  rcases hps : pushSelected mem ℓ j
      (((getBucket? t ℓ j).getD []).getD a (⟨0, ""⟩, ⟨0, ""⟩)) t g1 with ⟨t1, g2⟩
  rw [hps] at ht1 hc1 hpar hGood1
  simp only [] at ht1 hc1 hpar hGood1
  obtain ⟨hb1', hb2', hb3'⟩ := treeInv_bounds h (g1.ctr + 2) t1 ht1 ℓ j hℓh hj2
  have hℓ0' : ℓ < t1.length := by omega
  have beqb1 := bucketAt_getBucketD t1 ℓ j hℓ0' hb2'
  have hne2 : (((getBucket? t ℓ j).getD []).getD bidx (⟨0, ""⟩, ⟨0, ""⟩)).1 ≠
      (((getBucket? t ℓ j).getD []).getD a (⟨0, ""⟩, ⟨0, ""⟩)).1 :=
    nodup_keys_getD_ne _ hnd_b bidx a _ hbL haL (fun he => hne he.symm)
  have hkv2mem1 : ((getBucket? t ℓ j).getD []).getD bidx (⟨0, ""⟩, ⟨0, ""⟩) ∈
      bucketAt t1 ℓ j := by
    rw [← beqb1, hpar]
    exact List.mem_append_left _ ((dictDelete_mem _ _ _).mpr ⟨hkv2memb, hne2⟩)
  obtain ⟨ℓs2, hGood2⟩ := pushSelected_good h (g1.ctr + 2) id data mem ℓ j
    (((getBucket? t ℓ j).getD []).getD bidx (⟨0, ""⟩, ⟨0, ""⟩)) t1 g2 ℓs1 ht1
    (by rw [hc1]) hℓh hj2 hkv2mem1 hGood1
  unfold randAndPush
  rw [hdp]
  simp only []
  rw [hps]
  simp only []
  exact ⟨ℓs2, hGood2⟩

theorem pushLevel_good (h c id : Nat) (data : String) (mem : Memory) (ℓ : Nat)
    (t : Tree) (g : Gen) (ℓs : Nat)
    (hInv : treeInv h c t) (hg : c ≤ g.ctr) (hℓ : ℓ < h)
    (hG : GoodTree h id data ℓs t) :
    ∃ ℓs2, GoodTree h id data ℓs2 (pushLevel mem ℓ t g).1 := by
  unfold pushLevel
  by_cases h0 : ℓ = 0
  · rw [if_pos (by simpa using h0)]
    exact randAndPush_good h c id data mem 0 0 t g ℓs hInv hg (by omega) (by decide) hG
  · rw [if_neg (by simpa using h0)]
    have hwid := (shapeB_spec h t hInv.1).2 ℓ (by omega)
    have hn2 : 2 ≤ (t.getD ℓ []).length := by
      rw [hwid]
      have h2 : (2 : Nat) ^ 1 ≤ 2 ^ ℓ := Nat.pow_le_pow_right (by omega) (by omega)
      simpa using h2
    rcases hdp : drawDistinctPair ((t.getD ℓ []).length) g with ⟨⟨i1, i2⟩, g1⟩
    have hspec := drawDistinctPair_spec ((t.getD ℓ []).length) hn2 g
    rw [hdp] at hspec
    simp only [] at hspec
    obtain ⟨hi1, hi2, _, hg1⟩ := hspec
    rw [hwid] at hi1 hi2
    obtain ⟨ha1, ha2⟩ := randAndPush_inv h c mem ℓ i1 t g1 hInv
      (by rw [hg1]; exact hg) (by omega) hi1
    obtain ⟨ℓs1, hGood1⟩ := randAndPush_good h c id data mem ℓ i1 t g1 ℓs hInv
      (by rw [hg1]; exact hg) (by omega) hi1 hG
    rcases hrp : randAndPush mem ℓ i1 t g1 with ⟨t1, g2⟩
    rw [hrp] at ha1 ha2 hGood1
    simp only [] at ha1 ha2 hGood1
    obtain ⟨ℓs2, hGood2⟩ := randAndPush_good h (g1.ctr + 4) id data mem ℓ i2 t1 g2 ℓs1
      ha1 (by rw [ha2]) (by omega) hi2 hGood1
    simp only []
    rw [hdp]
    simp only []
    rw [hrp]
    simp only []
    exact ⟨ℓs2, hGood2⟩

theorem pushDownGo_good (h id : Nat) (data : String) (mem : Memory) :
    ∀ (L : List Nat) (c : Nat) (t : Tree) (g : Gen) (ℓs : Nat),
    treeInv h c t → c ≤ g.ctr → (∀ ℓ ∈ L, ℓ < h) →
    GoodTree h id data ℓs t →
    ∃ ℓs2, GoodTree h id data ℓs2 (pushDownGo mem L t g).1 := by
  intro L
  induction L with
  | nil =>
    intro c t g ℓs _ _ _ hG
    exact ⟨ℓs, hG⟩
  | cons ℓ rest ih =>
    intro c t g ℓs hInv hg hL hG
    unfold pushDownGo
    rcases hpl : pushLevel mem ℓ t g with ⟨t1, g1⟩
    obtain ⟨h1, h2⟩ := pushLevel_inv h c mem ℓ t g hInv hg
      (hL ℓ (List.mem_cons_self ℓ rest))
    obtain ⟨ℓs1, hGood1⟩ := pushLevel_good h c id data mem ℓ t g ℓs hInv hg
      (hL ℓ (List.mem_cons_self ℓ rest)) hG
    rw [hpl] at h1 h2 hGood1
    simp only [] at h1 h2 hGood1
    simp only []
    exact ih g1.ctr t1 g1 ℓs1 h1 (le_refl _)
      (fun ℓ2 hm => hL ℓ2 (List.mem_cons_of_mem _ hm)) hGood1

theorem pushDown_good (h c id : Nat) (data : String) (mem : Memory)
    (t : Tree) (g : Gen) (ℓs : Nat)
    (hInv : treeInv h c t) (hg : c ≤ g.ctr)
    (hG : GoodTree h id data ℓs t) :
    ∃ ℓs2, GoodTree h id data ℓs2 (pushDown h mem t g).1 := by
  unfold pushDown
  exact pushDownGo_good h id data mem (List.range h) c t g ℓs hInv hg
    (fun ℓ hm => List.mem_range.mp hm) hG

/-! ### A fresh store establishes the single-record state -/

theorem bucketFill_slots (id : Nat) : ∀ (n : Nat) (acc : Bucket) (g : Gen),
    (∀ kv ∈ acc, dummySlot id kv) →
    ∀ kv ∈ (bucketFill n acc g).1, dummySlot id kv := by
  intro n
  induction n with
  | zero =>
    intro acc g hacc kv hkv
    simp only [bucketFill] at hkv
    exact hacc kv hkv
  | succ n ih =>
    intro acc g hacc kv hkv
    obtain ⟨sk, rest, hmk, hskchars, hsklen⟩ := mkDummy_eq g
    unfold bucketFill at hkv
    rw [hmk] at hkv
    simp only [] at hkv
    refine ih _ _ ?_ kv hkv
    intro kv2 hkv2
    rcases dictInsert_mem _ _ _ kv2 hkv2 with h1 | h1
    · exact hacc kv2 h1
    · subst h1
      constructor
      · exact isDummyVal_zeros (g.ctr + 1)
      · exact lower_ne_repr sk id hskchars
          (by intro he; rw [he] at hsklen; simp [DUMMY_LEN] at hsklen)

theorem mkDummyLevel_slots (id : Nat) : ∀ (n : Nat) (g : Gen),
    ∀ b ∈ (mkDummyLevel n g).1, ∀ kv ∈ b, dummySlot id kv := by
  intro n
  induction n with
  | zero =>
    intro g b hb
    simp only [mkDummyLevel] at hb
    exact absurd hb (List.not_mem_nil b)
  | succ n ih =>
    intro g b hb
    unfold mkDummyLevel mkDummyBucket at hb
    rcases hbf : bucketFill BUCKET_SIZE [] g with ⟨b1, g1⟩
    rw [hbf] at hb
    simp only [] at hb
    rcases hlv : mkDummyLevel n g1 with ⟨lvl, g2⟩
    rw [hlv] at hb
    simp only [] at hb
    rcases List.mem_cons.mp hb with h1 | h1
    · subst h1
      intro kv hkv
      have h2 := bucketFill_slots id BUCKET_SIZE [] g
        (fun kv2 hkv2 => absurd hkv2 (List.not_mem_nil kv2)) kv
      rw [hbf] at h2
      exact h2 hkv
    · intro kv hkv
      have h2 := ih g1 b
      rw [hlv] at h2
      exact h2 h1 kv hkv

theorem mkDummyLevels_slots (id : Nat) : ∀ (L : List Nat) (g : Gen),
    ∀ lvl ∈ (mkDummyLevels L g).1, ∀ b ∈ lvl, ∀ kv ∈ b, dummySlot id kv := by
  intro L
  induction L with
  | nil =>
    intro g lvl hlvl
    simp only [mkDummyLevels] at hlvl
    exact absurd hlvl (List.not_mem_nil lvl)
  | cons ℓ rest ih =>
    intro g lvl hlvl
    unfold mkDummyLevels at hlvl
    rcases hlv : mkDummyLevel (2 ^ ℓ) g with ⟨lvl1, g1⟩
    rw [hlv] at hlvl
    simp only [] at hlvl
    rcases hts : mkDummyLevels rest g1 with ⟨t, g2⟩
    rw [hts] at hlvl
    simp only [] at hlvl
    rcases List.mem_cons.mp hlvl with h1 | h1
    · subst h1
      intro b hb
      have h2 := mkDummyLevel_slots id (2 ^ ℓ) g b
      rw [hlv] at h2
      exact h2 hb
    · intro b hb
      have h2 := ih g1 lvl
      rw [hts] at h2
      exact h2 h1 b hb

theorem mkDummyTree_allDummy (id h : Nat) (g : Gen) :
    ∀ ℓ j, bucketAllDummy id (bucketAt (mkDummyTree h g).1 ℓ j) := by
  intro ℓ j kv hkv
  unfold bucketAt at hkv
  by_cases hℓ : ℓ < (mkDummyTree h g).1.length
  · by_cases hj : j < ((mkDummyTree h g).1.getD ℓ []).length
    · exact mkDummyLevels_slots id (List.range (h + 1)) g _
        (getD_mem _ ℓ [] hℓ) _ (getD_mem _ j [] hj) kv hkv
    · have hlv : ((mkDummyTree h g).1.getD ℓ []).getD j [] = [] :=
        List.getD_eq_default _ _ (by omega)
      rw [hlv] at hkv
      exact absurd hkv (List.not_mem_nil kv)
  · have hlv : (mkDummyTree h g).1.getD ℓ [] = [] :=
      List.getD_eq_default _ _ (by omega)
    rw [hlv] at hkv
    simp at hkv

/-- The random leaf drawn by `store_data` lies in `[2^(h+1), 2^(h+2))`. -/
theorem leaf_range (h r : Nat) :
    2 ^ (h + 1) ≤ pyRandint (2 ^ (h + 1)) (2 ^ (h + 2) - 1) r ∧
      pyRandint (2 ^ (h + 1)) (2 ^ (h + 2) - 1) r < 2 ^ (h + 2) := by
  unfold pyRandint
  have h1 : 2 ^ (h + 2) = 2 * 2 ^ (h + 1) := by ring
  have h2 : 1 ≤ 2 ^ (h + 1) := Nat.one_le_two_pow
  have h3 : 2 ^ (h + 2) - 1 + 1 - 2 ^ (h + 1) = 2 ^ (h + 1) := by omega
  rw [h3]
  have h4 := Nat.mod_lt r (show 0 < 2 ^ (h + 1) by omega)
  omega

/-- `storeRootInsert` on an all-dummy tree returns `None`, installs the
record at the root, and after the push-down pass leaves a single-record
tree. -/
theorem storeRootInsert_good (h c id : Nat) (data : String) (t : Tree)
    (mem1 : Memory) (g1 : Gen) (hInv : treeInv h c t) (hg : c ≤ g1.ctr)
    (hall : ∀ ℓ j, bucketAllDummy id (bucketAt t ℓ j)) :
    (storeRootInsert h t mem1 id data g1).1 = none ∧
      ∃ ℓs2, GoodTree h id data ℓs2
        ((storeRootInsert h t mem1 id data g1).2.tree.getD []) := by
  obtain ⟨hlen, hwid⟩ := shapeB_spec h t hInv.1
  have h0t : 0 < t.length := by omega
  have h00 : 0 < (t.getD 0 []).length := by
    rw [hwid 0 (by omega)]
    decide
  have beq0 := bucketAt_getBucketD t 0 0 h0t h00
  have hnd_root : (bucketNonces (bucketAt t 0 0)).Nodup := by
    have h2 := bucketAt_nodup h c t 0 0 hInv h0t h00
    rwa [beq0] at h2
  have hlen_root : (bucketAt t 0 0).length = BUCKET_SIZE := by
    have h2 := bucketAt_len h c t 0 0 hInv h0t h00
    rwa [beq0] at h2
  obtain ⟨dkv0, hfd0, _, _⟩ := find?_dummy id data (bucketAt t 0 0) hnd_root
    (Or.inl (hall 0 0)) (by rw [hlen_root]; decide)
  unfold storeRootInsert
  simp only []
  cases hfind : ((getBucket? t 0 0).getD []).find? (fun kv => isDummyVal kv.2) with
  | none =>
    rw [beq0, hfd0] at hfind
    exact absurd hfind (by simp)
  | some dkv =>
    simp only [encNew]
    have hdmem : dkv ∈ bucketAt t 0 0 := by
      rw [← beq0]
      exact List.mem_of_find?_eq_some hfind
    have hdel : dkv.1 ∈ bucketKeys ((getBucket? t 0 0).getD []) :=
      List.mem_map_of_mem Prod.fst (List.mem_of_find?_eq_some hfind)
    have hfr : (⟨g1.ctr, Nat.repr id⟩ : Ct).nonce ∉
        bucketNonces ((getBucket? t 0 0).getD []) := by
      intro hm
      have h2 := hInv.2.2.2 _ (bucketAt_sub t 0 0 h0t h00 _ hm)
      simp only [Ct.nonce] at h2
      omega
    have hfr2 : (⟨g1.ctr, Nat.repr id⟩ : Ct).nonce ∉
        bucketNonces (dictDelete ((getBucket? t 0 0).getD []) dkv.1) :=
      fun hm => hfr ((dictDelete_sublist _ dkv.1).subset hm)
    have hb1eq : dictInsert (dictDelete ((getBucket? t 0 0).getD []) dkv.1)
        ⟨g1.ctr, Nat.repr id⟩ ⟨g1.ctr + 1, "1" ++ data⟩ =
        dictDelete (bucketAt t 0 0) dkv.1 ++
          [(⟨g1.ctr, Nat.repr id⟩, ⟨g1.ctr + 1, "1" ++ data⟩)] := by
      rw [dictInsert_fresh _ _ _ hfr2, beq0]
    have hb1len : (dictInsert (dictDelete ((getBucket? t 0 0).getD []) dkv.1)
        ⟨g1.ctr, Nat.repr id⟩ ⟨g1.ctr + 1, "1" ++ data⟩).length =
        ((getBucket? t 0 0).getD []).length :=
      replaceSlot_length _ dkv.1 _ _ hdel
        (by rwa [beq0]) hfr
    obtain ⟨e1, e2, e3, e4, e5⟩ := encryptNodeGo_spec
      (dictInsert (dictDelete ((getBucket? t 0 0).getD []) dkv.1)
        ⟨g1.ctr, Nat.repr id⟩ ⟨g1.ctr + 1, "1" ++ data⟩) []
      ⟨g1.ctr + 1 + 1, g1.ints⟩ List.nodup_nil
      (fun x hx => absurd hx (List.not_mem_nil x))
    have hb2eq := encryptNodeGo_eq
      (dictInsert (dictDelete ((getBucket? t 0 0).getD []) dkv.1)
        ⟨g1.ctr, Nat.repr id⟩ ⟨g1.ctr + 1, "1" ++ data⟩) []
      ⟨g1.ctr + 1 + 1, g1.ints⟩ (fun x hx => absurd hx (List.not_mem_nil x))
    unfold encryptNode
    rcases hen : encryptNodeGo (dictInsert (dictDelete ((getBucket? t 0 0).getD []) dkv.1)
        ⟨g1.ctr, Nat.repr id⟩ ⟨g1.ctr + 1, "1" ++ data⟩) [] ⟨g1.ctr + 1 + 1, g1.ints⟩
      with ⟨b2, g4⟩
    rw [hen] at e1 e2 e3 e4 e5 hb2eq
    simp only [] at e1 e2 e3 e4 e5 hb2eq
    simp only []
    have ht1 : treeInv h g4.ctr (setBucket t 0 0 b2) := by
      apply setBucket_treeInv h c g4.ctr t 0 0 b2 hInv h0t h00
      · rw [e2, hb1len]
        simp
      · intro x hx
        rcases e5 x hx with h1 | h1
        · exact absurd h1 (List.not_mem_nil x)
        · refine Or.inr ?_
          intro hm
          have h2 := hInv.2.2.2 _ hm
          omega
      · intro x hx
        have h2 := e4 x hx
        rw [e1]
        omega
      · exact e3
      · rw [e1]
        omega
    have hgood1 : GoodTree h id data 0 (setBucket t 0 0 b2) := by
      have hb2form : b2 = reEnc (dictDelete (bucketAt t 0 0) dkv.1) (g1.ctr + 1 + 1) ++
          [(⟨g1.ctr + 1 + 1 + 2 * (dictDelete (bucketAt t 0 0) dkv.1).length,
             Nat.repr id⟩,
            ⟨g1.ctr + 1 + 1 + 2 * (dictDelete (bucketAt t 0 0) dkv.1).length + 1,
             "1" ++ data⟩)] := by
        rw [hb2eq, hb1eq]
        rw [show ([] : Bucket) ++ reEnc (dictDelete (bucketAt t 0 0) dkv.1 ++
          [(⟨g1.ctr, Nat.repr id⟩, ⟨g1.ctr + 1, "1" ++ data⟩)]) (g1.ctr + 1 + 1) =
          reEnc (dictDelete (bucketAt t 0 0) dkv.1 ++
          [(⟨g1.ctr, Nat.repr id⟩, ⟨g1.ctr + 1, "1" ++ data⟩)]) (g1.ctr + 1 + 1)
          from by simp]
        rw [reEnc_append]
        rfl
      have honeb2 : bucketOneReal id data b2 := by
        rw [hb2form]
        refine ⟨_, List.mem_append_right _ (List.mem_singleton.mpr rfl), ⟨rfl, rfl⟩, ?_⟩
        intro kv2 h2 hne
        rcases List.mem_append.mp h2 with h1 | h1
        · obtain ⟨kv0, hkv0, hp1, hp2⟩ := reEnc_mem _ _ kv2 h1
          have hkv0b : kv0 ∈ bucketAt t 0 0 := ((dictDelete_mem _ _ _).mp hkv0).1
          exact dummySlot_pts id kv2 kv0 hp1 hp2 (hall 0 0 kv0 hkv0b)
        · exact absurd (List.mem_singleton.mp h1) hne
      refine ⟨by omega, ?_, ?_⟩
      · have hsp : spineJ 0 = 0 := by decide
        rw [hsp]
        rw [bucketAt_set_self t 0 0 b2 h0t h00]
        exact honeb2
      · intro ℓ2 j2 hne
        have hsp : spineJ 0 = 0 := by decide
        rw [hsp] at hne
        rw [bucketAt_set_ne t 0 0 ℓ2 j2 b2 h0t hne]
        exact hall ℓ2 j2
    obtain ⟨p1, p2⟩ := pushDown_inv h g4.ctr mem1 (setBucket t 0 0 b2) g4 ht1 (le_refl _)
    obtain ⟨ℓs2, hGood2⟩ := pushDown_good h g4.ctr id data mem1 (setBucket t 0 0 b2) g4 0
      ht1 (le_refl _) hgood1
    rcases hpd : pushDown h mem1 (setBucket t 0 0 b2) g4 with ⟨t2, g5⟩
    rw [hpd] at p1 p2 hGood2
    simp only [] at p1 p2 hGood2
    simp only []
    refine ⟨?_, ⟨ℓs2, by simpa using hGood2⟩⟩
    trivial

/-- `store_data` on a fresh (uninitialized, empty-map) client returns
`None` and leaves the single-record state with a random in-range leaf. -/
theorem storeData_fresh (h id : Nat) (data : String) (g : Gen) :
    (storeData h ⟨none, [], g⟩ id data).1 = none ∧
      GoodSys h id data (storeData h ⟨none, [], g⟩ id data).2 := by
  unfold storeData
  rw [if_neg (by simp [memLookup])]
  simp only []
  rcases hmt : mkDummyTree h g with ⟨t0, g0⟩
  obtain ⟨hti, hctr⟩ := mkDummyTree_inv h g
  rw [hmt] at hti hctr
  simp only [] at hti hctr
  have hall : ∀ ℓ j, bucketAllDummy id (bucketAt t0 ℓ j) := by
    intro ℓ j
    have h2 := mkDummyTree_allDummy id h g ℓ j
    rw [hmt] at h2
    exact h2
  simp only [nextInt]
  obtain ⟨hinv1, hmem1, hctr1⟩ := storeRootInsert_inv h g0.ctr t0
    (memInsert [] id
      ⟨natBin (pyRandint (2 ^ (h + 1)) (2 ^ (h + 2) - 1) (g0.ints.headD 0)),
       hmacTag id data⟩)
    id data ⟨g0.ctr, g0.ints.tail⟩ hti (le_refl _)
  obtain ⟨hnone, ℓs2, hGood2⟩ := storeRootInsert_good h g0.ctr id data t0
    (memInsert [] id
      ⟨natBin (pyRandint (2 ^ (h + 1)) (2 ^ (h + 2) - 1) (g0.ints.headD 0)),
       hmacTag id data⟩)
    ⟨g0.ctr, g0.ints.tail⟩ hti (le_refl _) hall
  refine ⟨hnone, hinv1, ⟨ℓs2, hGood2⟩, ?_⟩
  refine ⟨pyRandint (2 ^ (h + 1)) (2 ^ (h + 2) - 1) (g0.ints.headD 0),
    (leaf_range h _).1, (leaf_range h _).2, ?_⟩
  rw [hmem1]
  rfl

/-! ### The retrieve walk on the single-record state -/

theorem natBinAux_len : ∀ (k n fuel : Nat), n < fuel → 2 ^ k ≤ n → n < 2 ^ (k + 1) →
    (natBinAux fuel n).length = k + 1 := by
  intro k
  induction k with
  | zero =>
    intro n fuel hf h1 h2
    have e0 : (2 : Nat) ^ 0 = 1 := rfl
    have e1 : (2 : Nat) ^ 1 = 2 := rfl
    have hn : n = 1 := by omega
    subst hn
    cases fuel with
    | zero => omega
    | succ f =>
      unfold natBinAux
      rw [if_pos (by omega)]
      rfl
  | succ k ih =>
    intro n fuel hf h1 h2
    have e1 : 2 ^ (k + 1) = 2 * 2 ^ k := by ring
    have e2 : 2 ^ (k + 2) = 2 * 2 ^ (k + 1) := by ring
    have hn2 : 2 ≤ n := by
      have h3 : (1 : Nat) ≤ 2 ^ k := Nat.one_le_two_pow
      omega
    cases fuel with
    | zero => omega
    | succ f =>
      unfold natBinAux
      rw [if_neg (by omega)]
      rw [List.length_append]
      have hih := ih (n / 2) f (by omega) (by omega) (by omega)
      rw [hih]
      simp

theorem natBin_len (k n : Nat) (h1 : 2 ^ k ≤ n) (h2 : n < 2 ^ (k + 1)) :
    (natBin n).toList.length = k + 1 := by
  unfold natBin
  show (natBinAux (n + 1) n).length = k + 1
  exact natBinAux_len k n (n + 1) (by omega) h1 h2

theorem memLookup_single (id : Nat) (e : PosEntry) :
    memLookup [(id, e)] id = some e := by
  simp [memLookup]

theorem memDelete_single (id : Nat) (e : PosEntry) :
    memDelete [(id, e)] id = [] := by
  simp [memDelete]

theorem memLookup_empty (id : Nat) : memLookup [] id = none := rfl

/-- Reinserting `(id, data)` into an all-dummy tree with an empty position
map (the situation created mid-retrieve) returns `None` and restores the
single-record state. -/
theorem storeData_reinsert (h c id : Nat) (data : String) (t1 : Tree) (g1 : Gen)
    (hInv : treeInv h c t1) (hg : c ≤ g1.ctr)
    (hall : ∀ ℓ j, bucketAllDummy id (bucketAt t1 ℓ j)) :
    (storeData h ⟨some t1, [], g1⟩ id data).1 = none ∧
      GoodSys h id data (storeData h ⟨some t1, [], g1⟩ id data).2 := by
  unfold storeData
  rw [if_neg (by simp [memLookup])]
  simp only []
  simp only [nextInt]
  obtain ⟨hinv1, hmem1, hctr1⟩ := storeRootInsert_inv h c t1
    (memInsert [] id
      ⟨natBin (pyRandint (2 ^ (h + 1)) (2 ^ (h + 2) - 1) (g1.ints.headD 0)),
       hmacTag id data⟩)
    id data ⟨g1.ctr, g1.ints.tail⟩ hInv hg
  obtain ⟨hnone, ℓs2, hGood2⟩ := storeRootInsert_good h c id data t1
    (memInsert [] id
      ⟨natBin (pyRandint (2 ^ (h + 1)) (2 ^ (h + 2) - 1) (g1.ints.headD 0)),
       hmacTag id data⟩)
    ⟨g1.ctr, g1.ints.tail⟩ hInv hg hall
  refine ⟨hnone, hinv1, ⟨ℓs2, hGood2⟩, ?_⟩
  refine ⟨pyRandint (2 ^ (h + 1)) (2 ^ (h + 2) - 1) (g1.ints.headD 0),
    (leaf_range h _).1, (leaf_range h _).2, ?_⟩
  rw [hmem1]
  rfl

/-- The retrieve walk on a single-record state: it descends the right
spine, finds the record at level `ℓs`, and reinserts it, ending in a
single-record state with a freshly drawn leaf. -/
theorem retrieveWalk_good (h id ℓs : Nat) (data : String) :
    ∀ (path : List Char) (k : Nat) (s : Sys) (t : Tree),
    s.tree = some t →
    treeInv h s.gen.ctr t → GoodTree h id data ℓs t →
    memDelete s.mem id = [] →
    k ≤ ℓs → path.length + k = h + 1 →
    ∃ s2, retrieveWalk h id path k (spineJ k) s = Except.ok (some data, s2) ∧
      GoodSys h id data s2 := by
  intro path
  induction path with
  | nil =>
    intro k s t _ _ hG _ hkℓ hlen
    have h1 := hG.1
    simp at hlen
    omega
  | cons ch rest ih =>
    intro k s t hst hInv hG hmd hkℓ hlen
    have hkh : k ≤ h := le_trans hkℓ hG.1
    obtain ⟨hlent, hwid⟩ := shapeB_spec h t hInv.1
    have hkb : k < t.length := by omega
    have hjb : spineJ k < (t.getD k []).length := by
      rw [hwid k (by omega)]
      exact spineJ_lt k
    have hgb : getBucket? t k (spineJ k) = some (bucketAt t k (spineJ k)) :=
      getBucket?_eq t k (spineJ k) hkb hjb
    unfold retrieveWalk
    rw [hst]
    simp only []
    rw [hgb]
    simp only []
    by_cases hk : k = ℓs
    · subst hk
      obtain ⟨kvR, hfR, hrR⟩ := find?_real id data _ hG.2.1
      rw [hfR]
      simp only []
      obtain ⟨sk, rest2, hmk, hskchars, hsklen⟩ := mkDummy_eq s.gen
      rw [hmk]
      simp only []
      have hdata : (fernetDecrypt kvR.2).drop 1 = data := by
        rw [show fernetDecrypt kvR.2 = kvR.2.pt from rfl, hrR.2]
        exact drop_one_marked data
      rw [hdata, hmd]
      have hkvmem : kvR ∈ bucketAt t k (spineJ k) := List.mem_of_find?_eq_some hfR
      have beqb := bucketAt_getBucketD t k (spineJ k) hkb hjb
      have hkvK : kvR.1 ∈ bucketKeys ((getBucket? t k (spineJ k)).getD []) := by
        rw [beqb]
        exact List.mem_map_of_mem Prod.fst hkvmem
      have hout : (⟨s.gen.ctr, sk⟩ : Ct).nonce ∉ treeNonces t := by
        intro hm
        have h3 := hInv.2.2.2 _ hm
        simp only [Ct.nonce] at h3
        omega
      have hti1 : treeInv h (s.gen.ctr + 2) (setBucket t k (spineJ k)
          (dictInsert (dictDelete (bucketAt t k (spineJ k)) kvR.1)
            ⟨s.gen.ctr, sk⟩ ⟨s.gen.ctr + 1, "00000"⟩)) := by
        have h3 := replaceSlot_treeInv h s.gen.ctr (s.gen.ctr + 2) t k (spineJ k) kvR.1
          ⟨s.gen.ctr, sk⟩ ⟨s.gen.ctr + 1, "00000"⟩ hInv hkb hjb hkvK hout
          (by show s.gen.ctr < s.gen.ctr + 2; omega) (by omega)
        rwa [beqb] at h3
      have hfrb : (⟨s.gen.ctr, sk⟩ : Ct).nonce ∉
          bucketNonces (dictDelete (bucketAt t k (spineJ k)) kvR.1) := by
        intro hm
        apply hout
        apply bucketAt_sub t k (spineJ k) hkb hjb
        rw [beqb]
        exact (dictDelete_sublist _ kvR.1).subset hm
      have hdkDummy : dummySlot id (⟨s.gen.ctr, sk⟩, ⟨s.gen.ctr + 1, "00000"⟩) := by
        constructor
        · exact isDummyVal_zeros (s.gen.ctr + 1)
        · exact lower_ne_repr sk id hskchars
            (by intro he; rw [he] at hsklen; simp [DUMMY_LEN] at hsklen)
      have hall1 : ∀ ℓ2 j2, bucketAllDummy id (bucketAt (setBucket t k (spineJ k)
          (dictInsert (dictDelete (bucketAt t k (spineJ k)) kvR.1)
            ⟨s.gen.ctr, sk⟩ ⟨s.gen.ctr + 1, "00000"⟩)) ℓ2 j2) := by
        intro ℓ2 j2
        by_cases hp : ℓ2 = k ∧ j2 = spineJ k
        · rw [hp.1, hp.2,
            bucketAt_set_self t k (spineJ k) _ hkb hjb,
            dictInsert_fresh _ _ _ hfrb]
          exact surgery_oneReal_delReal id data _ kvR ⟨s.gen.ctr, sk⟩
            ⟨s.gen.ctr + 1, "00000"⟩ hkvmem hrR
            (oneReal_witness id data _ hG.2.1 kvR hkvmem hrR) hdkDummy
        · rw [bucketAt_set_ne t k (spineJ k) ℓ2 j2 _ hkb hp]
          exact hG.2.2 ℓ2 j2 hp
      obtain ⟨hnone, hGS⟩ := storeData_reinsert h (s.gen.ctr + 2) id data
        (setBucket t k (spineJ k)
          (dictInsert (dictDelete (bucketAt t k (spineJ k)) kvR.1)
            ⟨s.gen.ctr, sk⟩ ⟨s.gen.ctr + 1, "00000"⟩))
        ⟨s.gen.ctr + 2, rest2⟩ hti1 (le_refl _) hall1
      rcases hsd : storeData h ⟨some (setBucket t k (spineJ k)
          (dictInsert (dictDelete (bucketAt t k (spineJ k)) kvR.1)
            ⟨s.gen.ctr, sk⟩ ⟨s.gen.ctr + 1, "00000"⟩)), [],
          ⟨s.gen.ctr + 2, rest2⟩⟩ id data with ⟨r0, s0⟩
      rw [hsd] at hGS
      simp only [] at hGS
      exact ⟨s0, rfl, hGS⟩
    · have hkℓ2 : k < ℓs := lt_of_le_of_ne hkℓ hk
      have hmiss : (bucketAt t k (spineJ k)).find?
          (fun kv => fernetDecrypt kv.1 == Nat.repr id) = none := by
        apply find?_real_none
        refine hG.2.2 k (spineJ k) ?_
        rintro ⟨ha, _⟩
        exact hk ha
      rw [hmiss]
      simp only []
      rw [show 2 * spineJ k + (if pyStrEqInt (String.mk [ch]) 0 then 0 else 1) =
          spineJ (k + 1) from by
        simp only [pyStrEqInt, if_neg Bool.false_ne_true, ite_false]
        exact spineJ_child k]
      exact ih (k + 1) s t hst hInv hG hmd (by omega) (by simp at hlen ⊢; omega)

/-- `retrieve_data` on a single-record state returns the stored data and
re-establishes the single-record state (with a rerolled leaf). -/
theorem retrieveData_good (h id : Nat) (data : String) (s : Sys)
    (hlen : data.length = DATA_LEN) (hGS : GoodSys h id data s) :
    ∃ s2, retrieveData h s id = Except.ok (some data, s2) ∧ GoodSys h id data s2 := by
  obtain ⟨hsys, ⟨ℓs, hGt⟩, ⟨leaf, hl1, hl2, hmem⟩⟩ := hGS
  rcases hst : s.tree with _ | t
  · exfalso
    have h2 := hsys.1
    rw [hst] at h2
    simp at h2
  · have hInv : treeInv h s.gen.ctr t := by
      have h2 := hsys.2
      rw [hst] at h2
      simpa using h2
    have hGt2 : GoodTree h id data ℓs t := by
      rw [hst] at hGt
      simpa using hGt
    have hml : memLookup s.mem id = some ⟨natBin leaf, hmacTag id data⟩ := by
      rw [hmem]
      exact memLookup_single id _
    have hmd : memDelete s.mem id = [] := by
      rw [hmem]
      exact memDelete_single id _
    unfold retrieveData
    rw [hml]
    simp only []
    have hplen : (((natBin leaf).drop 1).toList).length + 0 = h + 1 := by
      have e1 : ((natBin leaf).drop 1).toList = (natBin leaf).toList.drop 1 :=
        String.data_drop _ 1
      rw [e1, List.length_drop, natBin_len (h + 1) leaf hl1 hl2]
      omega
    obtain ⟨s2, hwk, hGS2⟩ := retrieveWalk_good h id ℓs data
      ((natBin leaf).drop 1).toList 0 s t hst hInv hGt2 hmd (Nat.zero_le _) hplen
    rw [show spineJ 0 = 0 from by decide] at hwk
    rw [hwk]
    simp only []
    rw [if_neg (by rw [hlen]; simp)]
    obtain ⟨leaf2, hl21, hl22, hmem2⟩ := hGS2.2.2
    rw [show memLookup s2.mem id = some ⟨natBin leaf2, hmacTag id data⟩ from by
      rw [hmem2]; exact memLookup_single id _]
    simp only []
    rw [if_pos (by simp)]
    exact ⟨s2, rfl, hGS2⟩

/-- C2 (corrected): on a *fresh* client and server, storing a
`DATA_LEN`-character string under a new id and immediately retrieving it
returns exactly that string, and afterwards the position map maps the id
to the binary string of the leaf freshly drawn by the reinsert, a uniform
`random.randint(2^(h+1), 2^(h+2)-1)` draw.  (On arbitrary states the
original claim is false — see the counterexample. ) -/
theorem claim_C2_store_retrieve_roundtrip (h id : Nat) (data : String) (tape : List Nat)
    (hlen : data.length = DATA_LEN) :
    (storeData h (freshSys tape) id data).1 = none ∧
    ∃ s2 leaf,
      retrieveData h (storeData h (freshSys tape) id data).2 id =
        Except.ok (some data, s2) ∧
      2 ^ (h + 1) ≤ leaf ∧ leaf < 2 ^ (h + 2) ∧
      memLookup s2.mem id = some ⟨natBin leaf, hmacTag id data⟩ := by
  obtain ⟨h1, h2⟩ := storeData_fresh h id data ⟨0, tape⟩
  refine ⟨h1, ?_⟩
  obtain ⟨s2, hrd, hGS2⟩ := retrieveData_good h id data _ hlen h2
  obtain ⟨leaf2, hl1, hl2, hmem2⟩ := hGS2.2.2
  exact ⟨s2, leaf2, hrd, hl1, hl2, by rw [hmem2]; exact memLookup_single id _⟩

theorem claim_C2_witness :
    (storeData 1 (freshSys [0, 1, 2, 3, 0, 1, 2, 3]) 5 "abcd").1 = none ∧
    ∃ s2 leaf,
      retrieveData 1 (storeData 1 (freshSys [0, 1, 2, 3, 0, 1, 2, 3]) 5 "abcd").2 5 =
        Except.ok (some "abcd", s2) ∧
      2 ^ (1 + 1) ≤ leaf ∧ leaf < 2 ^ (1 + 2) ∧
      memLookup s2.mem 5 = some ⟨natBin leaf, hmacTag 5 "abcd"⟩ :=
  claim_C2_store_retrieve_roundtrip 1 5 "abcd" [0, 1, 2, 3, 0, 1, 2, 3] (by decide)

/-! ### Delete never touches the position map -/

theorem deleteWalk_mem (id : Nat) : ∀ (path : List Char) (ℓ j : Nat) (s : Sys)
    (r : Option String) (s2 : Sys),
    deleteWalk id path ℓ j s = Except.ok (r, s2) → s2.mem = s.mem := by
  intro path
  induction path with
  | nil =>
    intro ℓ j s r s2 hok
    simp only [deleteWalk] at hok
    rw [Except.ok.injEq, Prod.mk.injEq] at hok
    rw [← hok.2]
  | cons ch rest ih =>
    intro ℓ j s r s2 hok
    unfold deleteWalk at hok
    cases hst : s.tree with
    | none =>
      rw [hst] at hok
      simp at hok
    | some t =>
      rw [hst] at hok
      simp only [] at hok
      cases hgb : getBucket? t ℓ j with
      | none =>
        rw [hgb] at hok
        simp at hok
      | some b =>
        rw [hgb] at hok
        simp only [] at hok
        cases hfd : b.find? (fun kv => fernetDecrypt kv.1 == Nat.repr id) with
        | none =>
          rw [hfd] at hok
          simp only [] at hok
          exact ih (ℓ + 1) (2 * j + (if pyStrEqInt (String.mk [ch]) 0 then 0 else 1))
            s r s2 hok
        | some kv =>
          rw [hfd] at hok
          simp only [] at hok
          obtain ⟨sk, rest2, hmk, _⟩ := mkDummy_eq s.gen
          rw [hmk] at hok
          simp only [] at hok
          rw [Except.ok.injEq, Prod.mk.injEq] at hok
          rw [← hok.2]

theorem deleteData_mem (s : Sys) (id : Nat) (r : Option String) (s2 : Sys)
    (hok : deleteData s id = Except.ok (r, s2)) : s2.mem = s.mem := by
  unfold deleteData at hok
  cases hml : memLookup s.mem id with
  | none =>
    rw [hml] at hok
    simp at hok
  | some e =>
    rw [hml] at hok
    simp only [] at hok
    exact deleteWalk_mem id ((e.bits.drop 1).toList) 0 0 s r s2 hok

theorem storeData_dup (h : Nat) (s : Sys) (id : Nat) (data : String)
    (hdup : (memLookup s.mem id).isSome = true) :
    storeData h s id data = (some "ID already exists. Please delete it first", s) := by
  unfold storeData
  rw [if_pos hdup]

/-- The delete walk on a single-record state: it finds and blanks the
record at level `ℓs` of the right spine, leaving an all-dummy tree and the
position map untouched. -/
theorem deleteWalk_good (h id ℓs : Nat) (data : String) :
    ∀ (path : List Char) (k : Nat) (s : Sys) (t : Tree),
    s.tree = some t →
    treeInv h s.gen.ctr t → GoodTree h id data ℓs t →
    k ≤ ℓs → path.length + k = h + 1 →
    ∃ s2, deleteWalk id path k (spineJ k) s = Except.ok (some data, s2) ∧
      s2.mem = s.mem ∧
      ∀ ℓ2 j2, bucketAllDummy id (bucketAt (s2.tree.getD []) ℓ2 j2) := by
  intro path
  induction path with
  | nil =>
    intro k s t _ _ hG _ hlen
    have h1 := hG.1
    simp at hlen
    omega
  | cons ch rest ih =>
    intro k s t hst hInv hG hkℓ hlen
    have hkh : k ≤ h := le_trans hkℓ hG.1
    obtain ⟨hlent, hwid⟩ := shapeB_spec h t hInv.1
    have hkb : k < t.length := by omega
    have hjb : spineJ k < (t.getD k []).length := by
      rw [hwid k (by omega)]
      exact spineJ_lt k
    have hgb : getBucket? t k (spineJ k) = some (bucketAt t k (spineJ k)) :=
      getBucket?_eq t k (spineJ k) hkb hjb
    unfold deleteWalk
    rw [hst]
    simp only []
    rw [hgb]
    simp only []
    by_cases hk : k = ℓs
    · subst hk
      obtain ⟨kvR, hfR, hrR⟩ := find?_real id data _ hG.2.1
      rw [hfR]
      simp only []
      obtain ⟨sk, rest2, hmk, hskchars, hsklen⟩ := mkDummy_eq s.gen
      rw [hmk]
      simp only []
      have hdata : (fernetDecrypt kvR.2).drop 1 = data := by
        rw [show fernetDecrypt kvR.2 = kvR.2.pt from rfl, hrR.2]
        exact drop_one_marked data
      rw [hdata]
      have hkvmem : kvR ∈ bucketAt t k (spineJ k) := List.mem_of_find?_eq_some hfR
      have beqb := bucketAt_getBucketD t k (spineJ k) hkb hjb
      have hout : (⟨s.gen.ctr, sk⟩ : Ct).nonce ∉ treeNonces t := by
        intro hm
        have h3 := hInv.2.2.2 _ hm
        simp only [Ct.nonce] at h3
        omega
      have hfrb : (⟨s.gen.ctr, sk⟩ : Ct).nonce ∉
          bucketNonces (dictDelete (bucketAt t k (spineJ k)) kvR.1) := by
        intro hm
        apply hout
        apply bucketAt_sub t k (spineJ k) hkb hjb
        rw [beqb]
        exact (dictDelete_sublist _ kvR.1).subset hm
      have hdkDummy : dummySlot id (⟨s.gen.ctr, sk⟩, ⟨s.gen.ctr + 1, "00000"⟩) := by
        constructor
        · exact isDummyVal_zeros (s.gen.ctr + 1)
        · exact lower_ne_repr sk id hskchars
            (by intro he; rw [he] at hsklen; simp [DUMMY_LEN] at hsklen)
      refine ⟨⟨some (setBucket t k (spineJ k)
          (dictInsert (dictDelete (bucketAt t k (spineJ k)) kvR.1)
            ⟨s.gen.ctr, sk⟩ ⟨s.gen.ctr + 1, "00000"⟩)), s.mem,
          ⟨s.gen.ctr + 2, rest2⟩⟩, rfl, rfl, ?_⟩
      intro ℓ2 j2
      simp only [Option.getD_some]
      by_cases hp : ℓ2 = k ∧ j2 = spineJ k
      · rw [hp.1, hp.2,
          bucketAt_set_self t k (spineJ k) _ hkb hjb,
          dictInsert_fresh _ _ _ hfrb]
        exact surgery_oneReal_delReal id data _ kvR ⟨s.gen.ctr, sk⟩
          ⟨s.gen.ctr + 1, "00000"⟩ hkvmem hrR
          (oneReal_witness id data _ hG.2.1 kvR hkvmem hrR) hdkDummy
      · rw [bucketAt_set_ne t k (spineJ k) ℓ2 j2 _ hkb hp]
        exact hG.2.2 ℓ2 j2 hp
    · have hkℓ2 : k < ℓs := lt_of_le_of_ne hkℓ hk
      have hmiss : (bucketAt t k (spineJ k)).find?
          (fun kv => fernetDecrypt kv.1 == Nat.repr id) = none := by
        apply find?_real_none
        refine hG.2.2 k (spineJ k) ?_
        rintro ⟨ha, _⟩
        exact hk ha
      rw [hmiss]
      simp only []
      rw [show 2 * spineJ k + (if pyStrEqInt (String.mk [ch]) 0 then 0 else 1) =
          spineJ (k + 1) from by
        simp only [pyStrEqInt, if_neg Bool.false_ne_true, ite_false]
        exact spineJ_child k]
      exact ih (k + 1) s t hst hInv hG (by omega) (by simp at hlen ⊢; omega)

theorem allDummy_unpack (id : Nat) (t : Tree)
    (hall : ∀ ℓ2 j2, bucketAllDummy id (bucketAt t ℓ2 j2)) :
    ∀ lvl ∈ t, ∀ b ∈ lvl, ∀ kv ∈ b,
      (fernetDecrypt kv.1 == Nat.repr id) = false := by
  intro lvl hlvl b hb kv hkv
  obtain ⟨i, hi, hlv⟩ := List.getElem_of_mem hlvl
  obtain ⟨j, hj, hbv⟩ := List.getElem_of_mem hb
  have e1 : t.getD i [] = lvl := by
    rw [List.getD_eq_getElem?_getD, List.getElem?_eq_getElem hi]
    simpa using hlv
  have e2 : lvl.getD j [] = b := by
    rw [List.getD_eq_getElem?_getD, List.getElem?_eq_getElem hj]
    simpa using hbv
  have h2 := hall i j kv (by unfold bucketAt; rw [e1, e2]; exact hkv)
  exact h2.2

/-- `delete_data` on a single-record state returns the stored data,
leaves no trace of the id on the server — and keeps the position map. -/
theorem deleteData_good (h id : Nat) (data : String) (s : Sys)
    (hGS : GoodSys h id data s) :
    ∃ s2, deleteData s id = Except.ok (some data, s2) ∧ s2.mem = s.mem ∧
      ∀ ℓ2 j2, bucketAllDummy id (bucketAt (s2.tree.getD []) ℓ2 j2) := by
  obtain ⟨hsys, ⟨ℓs, hGt⟩, ⟨leaf, hl1, hl2, hmem⟩⟩ := hGS
  rcases hst : s.tree with _ | t
  · exfalso
    have h2 := hsys.1
    rw [hst] at h2
    simp at h2
  · have hInv : treeInv h s.gen.ctr t := by
      have h2 := hsys.2
      rw [hst] at h2
      simpa using h2
    have hGt2 : GoodTree h id data ℓs t := by
      rw [hst] at hGt
      simpa using hGt
    have hml : memLookup s.mem id = some ⟨natBin leaf, hmacTag id data⟩ := by
      rw [hmem]
      exact memLookup_single id _
    unfold deleteData
    rw [hml]
    simp only []
    have hplen : (((natBin leaf).drop 1).toList).length + 0 = h + 1 := by
      have e1 : ((natBin leaf).drop 1).toList = (natBin leaf).toList.drop 1 :=
        String.data_drop _ 1
      rw [e1, List.length_drop, natBin_len (h + 1) leaf hl1 hl2]
      omega
    obtain ⟨s2, hwk, hm2, hall2⟩ := deleteWalk_good h id ℓs data
      ((natBin leaf).drop 1).toList 0 s t hst hInv hGt2 (Nat.zero_le _) hplen
    rw [show spineJ 0 = 0 from by decide] at hwk
    rw [hwk]
    exact ⟨s2, rfl, hm2, hall2⟩

/-- C10: `delete_data` removes the found record from the server's tree but
never removes the id from the client's position map; consequently a
stored-then-deleted id still makes `store_data` answer
`'ID already exists. Please delete it first'`, although no slot for the id
remains on the server. -/
theorem claim_C10_delete_keeps_position_map :
    (∀ (s : Sys) (id : Nat) (r : Option String) (s2 : Sys),
      deleteData s id = Except.ok (r, s2) → s2.mem = s.mem) ∧
    (∀ (h : Nat) (s : Sys) (id : Nat) (data : String),
      (memLookup s.mem id).isSome = true →
      storeData h s id data = (some "ID already exists. Please delete it first", s)) ∧
    (∀ (h id : Nat) (data : String) (tape : List Nat), data.length = DATA_LEN →
      ∃ s2, deleteData (storeData h (freshSys tape) id data).2 id =
          Except.ok (some data, s2) ∧
        (∀ lvl ∈ s2.tree.getD [], ∀ b ∈ lvl, ∀ kv ∈ b,
          (fernetDecrypt kv.1 == Nat.repr id) = false) ∧
        (storeData h s2 id data).1 =
          some "ID already exists. Please delete it first") := by
  refine ⟨deleteData_mem, storeData_dup, ?_⟩
  intro h id data tape hlen
  obtain ⟨_, hGS⟩ := storeData_fresh h id data ⟨0, tape⟩
  obtain ⟨s2, hdel, hm2, hall2⟩ := deleteData_good h id data _ hGS
  refine ⟨s2, hdel, allDummy_unpack id _ hall2, ?_⟩
  obtain ⟨leaf, _, _, hmem⟩ := hGS.2.2
  have hdup : (memLookup s2.mem id).isSome = true := by
    rw [hm2, hmem, memLookup_single]
    rfl
  rw [storeData_dup h s2 id data hdup]

def c10Store : Sys := (storeData 0 (freshSys [0, 1, 2, 3]) 7 "wxyz").2

theorem claim_C10_witness :
    (storeData 0 c10Store 7 "wxyz" =
      (some "ID already exists. Please delete it first", c10Store)) ∧
    (∃ s2, deleteData (storeData 0 (freshSys [0, 1, 2, 3]) 7 "wxyz").2 7 =
        Except.ok (some "wxyz", s2) ∧
      (∀ lvl ∈ s2.tree.getD [], ∀ b ∈ lvl, ∀ kv ∈ b,
        (fernetDecrypt kv.1 == Nat.repr 7) = false) ∧
      (storeData 0 s2 7 "wxyz").1 =
        some "ID already exists. Please delete it first") :=
  ⟨claim_C10_delete_keeps_position_map.2.1 0 c10Store 7 "wxyz" (by decide),
   claim_C10_delete_keeps_position_map.2.2 0 7 "wxyz" [0, 1, 2, 3] (by decide)⟩

end PathORAM
